import Mathlib

/-! # A boundary-tag allocator (`user/ummalloc.c`) and its specification

The development embeds the allocator of `user/ummalloc.c` in Lean and proves
(or refutes) the properties its specification states.

Modelling conventions.

* The C type `uint` is 32 bits wide: every `uint` expression of the source is
  computed modulo `UINT = 2^32`.  Pointers are 64 bits wide and are modelled by
  natural numbers; `NULL` is `0`.
* Memory is a map from byte addresses to 32-bit words.  The allocator reads and
  writes whole words only, at addresses congruent to the initial break modulo 4;
  the byte at address `a` is a byte of the word that contains it (little endian,
  see `byteAt`).
* The only loop of the source, the scan of `find_first`, runs on fuel: the
  result `none` means that the fuel ran out, `some p` that the scan returned `p`.
-/

namespace Ummalloc

/-! ## Machine words and the heap state -/

/-- Modulus of the C type `uint`. -/
def UINT : Nat := 4294967296

/-- The macro `W_SIZE`: `#define W_SIZE 4`. -/
def W_SIZE : Nat := 4

/-- The macro `D_SIZE`: `#define D_SIZE 8`. -/
def D_SIZE : Nat := 8

/-- The macro `E_SIZE`: `#define E_SIZE (1<<12)`. -/
def E_SIZE : Nat := 1 <<< 12

/-- Memory: the 32-bit word stored at each byte address. -/
abbrev Mem := Nat → Nat

/-- The state the allocator works on: the memory, the program break (the end of
the region obtained from `sbrk`), the static variable `heap_head`, and the
environment: `limit` is the highest break the kernel grants, `sbrk_calls` counts
the calls of `sbrk` made so far (a ghost field, it influences nothing). -/
structure Heap where
  mem : Mem
  brk : Nat
  limit : Nat
  heap_head : Nat
  sbrk_calls : Nat

/-- The macro `MAX`: `#define MAX(x, y) ((x) > (y) ? (x) : (y))`. -/
def MAX (x y : Nat) : Nat := if x > y then x else y

/-- The macro `PACK`: `#define PACK(size, alloc) ((size) | (alloc))`. -/
def PACK (size alloc : Nat) : Nat := size ||| alloc

/-- The macro `GET`: `#define GET(p) (*(unsigned int *)(p))`, a 32-bit read. -/
def GET (m : Mem) (p : Nat) : Nat := m p % UINT

/-- The macro `PUT`: `#define PUT(p, val) (*(unsigned int *)(p) = val)`. -/
def PUT (m : Mem) (p val : Nat) : Mem := fun a => if a = p then val else m a

/-- The macro `GET_SIZE`: `#define GET_SIZE(p) (GET(p) & ~0x7)`; as a `uint`, `~0x7`
is `0xFFFFFFF8`. -/
def GET_SIZE (m : Mem) (p : Nat) : Nat := GET m p &&& 0xFFFFFFF8

/-- The macro `GET_ALLOC`: `#define GET_ALLOC(p) (GET(p) & 0x1)`. -/
def GET_ALLOC (m : Mem) (p : Nat) : Nat := GET m p &&& 0x1

/-- The macro `HD`: `#define HD(bp) ((char* )(bp) - W_SIZE)`. -/
def HD (bp : Nat) : Nat := bp - W_SIZE

/-- The macro `FT`: `#define FT(bp) ((char* )(bp) + GET_SIZE(HD(bp)) - D_SIZE)`. -/
def FT (m : Mem) (bp : Nat) : Nat := bp + GET_SIZE m (HD bp) - D_SIZE

/-- The macro `NEXT_PLACE`:
`#define NEXT_PLACE(bp) ((char *)(bp) + GET_SIZE(((char *)(bp) - W_SIZE)))`. -/
def NEXT_PLACE (m : Mem) (bp : Nat) : Nat := bp + GET_SIZE m (bp - W_SIZE)

/-- The macro `PREV_PLACE`:
`#define PREV_PLACE(bp) ((char *)(bp) - GET_SIZE(((char *)(bp) - D_SIZE)))`. -/
def PREV_PLACE (m : Mem) (bp : Nat) : Nat := bp - GET_SIZE m (bp - D_SIZE)

/-- The byte at address `a`: byte `a % 4` of the little-endian word that
contains it. -/
def byteAt (m : Mem) (a : Nat) : Nat := GET m (a - a % 4) / 256 ^ (a % 4) % 256

/-! ## The environment: `sbrk` -/

/-- Modelled from the spec: `growproc` (kernel/proc.c) is not part of the
sources.  The growth primitive either rejects a request or extends the region by
the requested byte count and never shrinks it.  The request `n` is the bit
pattern of the C `int` argument: a pattern of `2^31` or more is a negative `int`
and is rejected, every other request is granted exactly when the new break does
not exceed `limit`. -/
def growproc (s : Heap) (n : Nat) : Option Heap :=
  if n < 2147483648 ∧ s.brk + n ≤ s.limit then some { s with brk := s.brk + n } else none

/-- The system call `sbrk` (`sys_sbrk` of kernel/sysproc.c): the old break when
`growproc` succeeds, `none` (the C value `-1`) when it fails. -/
def sbrk (s : Heap) (n : Nat) : Option Nat × Heap :=
  let addr := s.brk
  match growproc s n with
  | none => (none, { s with sbrk_calls := s.sbrk_calls + 1 })
  | some t => (some addr, { t with sbrk_calls := t.sbrk_calls + 1 })

/-- Modelled from the spec: `memcpy` (user/ulib.c) is not part of the sources.
Copies the `n` bytes at `src` to `dst`; every source word is read before any
word is written. -/
def memcpy (m : Mem) (dst src n : Nat) : Mem :=
  fun a => if dst ≤ a ∧ a < dst + n then m (src + (a - dst)) else m a

/-! ## The allocator -/

/-- The function `static void *coalesce(void *ptr)`: the returned pointer and the
memory it leaves. -/
def coalesce (m : Mem) (ptr : Nat) : Nat × Mem :=
  let prev_alloc := GET_ALLOC m (FT m (PREV_PLACE m ptr))
  let next_alloc := GET_ALLOC m (HD (NEXT_PLACE m ptr))
  let size := GET_SIZE m (HD ptr)
  if prev_alloc ≠ 0 ∧ next_alloc ≠ 0 then
    (ptr, m)
  else if prev_alloc ≠ 0 ∧ next_alloc = 0 then
    let size := (size + GET_SIZE m (HD (NEXT_PLACE m ptr))) % UINT
    let m := PUT m (HD ptr) (PACK size 0)
    let m := PUT m (FT m ptr) (PACK size 0)
    (ptr, m)
  else if prev_alloc = 0 ∧ next_alloc ≠ 0 then
    let size := (size + GET_SIZE m (FT m (PREV_PLACE m ptr))) % UINT
    let m := PUT m (FT m ptr) (PACK size 0)
    let m := PUT m (HD (PREV_PLACE m ptr)) (PACK size 0)
    (PREV_PLACE m ptr, m)
  else if prev_alloc = 0 ∧ next_alloc = 0 then
    let size := (size + (GET_SIZE m (HD (PREV_PLACE m ptr))
                  + GET_SIZE m (FT m (NEXT_PLACE m ptr))) % UINT) % UINT
    let m := PUT m (HD (PREV_PLACE m ptr)) (PACK size 0)
    let m := PUT m (FT m (NEXT_PLACE m ptr)) (PACK size 0)
    (PREV_PLACE m ptr, m)
  else
    (ptr, m)

/-- The function `static void *extend_heap(uint words)`. -/
def extend_heap (s : Heap) (words : Nat) : Nat × Heap :=
  let size := if words % 2 ≠ 0 then ((words + 1) * W_SIZE) % UINT else (words * W_SIZE) % UINT
  match sbrk s size with
  | (none, s) => (0, s)
  | (some bp, s) =>
    let m := PUT s.mem (HD bp) (PACK size 0)
    let m := PUT m (FT m bp) (PACK size 0)
    let m := PUT m (HD (NEXT_PLACE m bp)) (PACK 0 1)
    let r := coalesce m bp
    (r.1, { s with mem := r.2 })

/-- The function `int mm_init(void)`.  When the first `sbrk` fails the source has
already stored `(void *) -1` in `heap_head`. -/
def mm_init (s : Heap) : Int × Heap :=
  match sbrk s (4 * W_SIZE) with
  | (none, s) => (-1, { s with heap_head := 18446744073709551615 })
  | (some p, s) =>
    let s := { s with heap_head := p }
    let m := PUT s.mem s.heap_head 0
    let m := PUT m (s.heap_head + 1 * W_SIZE) (PACK D_SIZE 1)
    let m := PUT m (s.heap_head + 2 * W_SIZE) (PACK D_SIZE 1)
    let m := PUT m (s.heap_head + 3 * W_SIZE) (PACK 0 1)
    let s := { s with mem := m, heap_head := s.heap_head + 2 * W_SIZE }
    let r := extend_heap s (E_SIZE / W_SIZE)
    if r.1 = 0 then (-1, r.2) else (0, r.2)

/-- The function `static void place(void *bp, uint a_size)`. -/
def place (m : Mem) (bp a_size : Nat) : Mem :=
  let size := GET_SIZE m (HD bp)
  if (size + UINT - a_size) % UINT ≥ 2 * W_SIZE then
    let m := PUT m (HD bp) (PACK a_size 1)
    let m := PUT m (FT m bp) (PACK a_size 1)
    let bp := NEXT_PLACE m bp
    let m := PUT m (HD bp) (PACK ((size + UINT - a_size) % UINT) 0)
    let m := PUT m (FT m bp) (PACK ((size + UINT - a_size) % UINT) 0)
    m
  else
    let m := PUT m (HD bp) (PACK size 1)
    let m := PUT m (FT m bp) (PACK size 1)
    m

/-- The loop of `find_first`, started at `p`. -/
def find_first_loop : Nat → Mem → Nat → Nat → Option Nat
  | 0, _, _, _ => none
  | fuel + 1, m, p, a_size =>
    if GET_SIZE m (HD p) > 0 then
      if GET_ALLOC m (HD p) = 0 ∧ a_size ≤ GET_SIZE m (HD p) then some p
      else find_first_loop fuel m (NEXT_PLACE m p) a_size
    else some 0

/-- The function `static void *find_first(uint a_size)`. -/
def find_first (fuel : Nat) (s : Heap) (a_size : Nat) : Option Nat :=
  find_first_loop fuel s.mem s.heap_head a_size

/-- The adjusted block size, as `mm_malloc` (lines 106-109) and `mm_realloc`
(lines 142-145) compute it. -/
def adjusted (size : Nat) : Nat :=
  if size ≤ D_SIZE then 2 * D_SIZE
  else (D_SIZE * (((size + D_SIZE + (D_SIZE - 1)) % UINT) / D_SIZE)) % UINT

/-- The function `void *mm_malloc(uint size)`. -/
def mm_malloc (fuel : Nat) (s : Heap) (size : Nat) : Option (Nat × Heap) :=
  if size = 0 then some (0, s)
  else
    let a_size := adjusted size
    match find_first fuel s a_size with
    | none => none
    | some bp =>
      if bp ≠ 0 then some (bp, { s with mem := place s.mem bp a_size })
      else
        let extend_size := MAX a_size E_SIZE
        let r := extend_heap s (extend_size / W_SIZE)
        if r.1 = 0 then some (0, r.2)
        else some (r.1, { r.2 with mem := place r.2.mem r.1 a_size })

/-- The function `void mm_free(void *ptr)`. -/
def mm_free (s : Heap) (ptr : Nat) : Heap :=
  let size := GET_SIZE s.mem (HD ptr)
  let m := PUT s.mem (HD ptr) (PACK size 0)
  let m := PUT m (FT m ptr) (PACK size 0)
  { s with mem := (coalesce m ptr).2 }

/-- Lines 166-169 of `mm_realloc`: place the new block, copy the old payload,
free the old block and return the new address. -/
def realloc_move (s : Heap) (new_ptr old_ptr a_size block_size : Nat) : Nat × Heap :=
  let m := place s.mem new_ptr a_size
  let m := memcpy m new_ptr old_ptr ((block_size + UINT - 2 * W_SIZE) % UINT)
  (new_ptr, mm_free { s with mem := m } old_ptr)

/-- The function `void *mm_realloc(void *ptr, uint size)`. -/
def mm_realloc (fuel : Nat) (s : Heap) (ptr size : Nat) : Option (Nat × Heap) :=
  if ptr = 0 then mm_malloc fuel s size
  else if size = 0 then some (0, mm_free s ptr)
  else
    let a_size := adjusted size
    let block_size := GET_SIZE s.mem (HD ptr)
    if a_size = block_size then some (ptr, s)
    else if a_size < block_size then some (ptr, { s with mem := place s.mem ptr a_size })
    else
      let next_ptr := NEXT_PLACE s.mem ptr
      let size_sum := (GET_SIZE s.mem (HD next_ptr) + block_size) % UINT
      if GET_ALLOC s.mem (HD next_ptr) = 0 ∧ size_sum ≥ a_size then
        let m := PUT s.mem (HD ptr) (PACK size_sum 0)
        some (ptr, { s with mem := place m ptr a_size })
      else
        match find_first fuel s a_size with
        | none => none
        | some new_ptr =>
          if new_ptr = 0 then
            let extend_size := MAX a_size E_SIZE
            let r := extend_heap s (extend_size / W_SIZE)
            if r.1 = 0 then some (0, r.2)
            else some (realloc_move r.2 r.1 ptr a_size block_size)
          else some (realloc_move s new_ptr ptr a_size block_size)


/-! ## Auxiliary notions used to state the properties -/

/-- The byte count `extend_heap` asks `sbrk` for: the word count rounded up to an
even count, times the word size. -/
def ext_bytes (words : Nat) : Nat :=
  if words % 2 ≠ 0 then ((words + 1) * W_SIZE) % UINT else (words * W_SIZE) % UINT

/-- The kernel grants a request of `n` bytes in state `s` (see `growproc`). -/
def Grants (s : Heap) (n : Nat) : Prop := n < 2147483648 ∧ s.brk + n ≤ s.limit

instance (s : Heap) (n : Nat) : Decidable (Grants s n) := by unfold Grants; infer_instance

/-- The memory `extend_heap` hands to `coalesce` once `sbrk` has granted `size`
bytes at `bp`. -/
def ext_mem (m : Mem) (bp size : Nat) : Mem :=
  let m := PUT m (HD bp) (PACK size 0)
  let m := PUT m (FT m bp) (PACK size 0)
  PUT m (HD (NEXT_PLACE m bp)) (PACK 0 1)

/-- The call `mm_realloc(ptr, n)` reaches its last branch, which relocates the
block: the block has to grow and the next block cannot be absorbed. -/
def Relocates (s : Heap) (ptr n : Nat) : Prop :=
  GET_SIZE s.mem (HD ptr) < adjusted n ∧
  ¬ (GET_ALLOC s.mem (HD (NEXT_PLACE s.mem ptr)) = 0 ∧
      (GET_SIZE s.mem (HD (NEXT_PLACE s.mem ptr)) + GET_SIZE s.mem (HD ptr)) % UINT ≥ adjusted n)

instance (s : Heap) (ptr n : Nat) : Decidable (Relocates s ptr n) := by
  unfold Relocates; infer_instance

/-- The live pointers once `p` has been given back. -/
def removePtr (L : List Nat) (p : Nat) : List Nat := L.filter (fun x => x ≠ p)

/-- The heap states reachable from a successful `mm_init` in the start state `h0`
by valid calls, together with the list of live pointers (returned by `mm_malloc`
or `mm_realloc` and not given back since).  A call is valid when the pointer it
passes is live (or `NULL` for `mm_realloc`).  Request sizes are at most `maxReq`.
A call of `mm_realloc` that shrinks its block in place (the adjusted size is
smaller than the size of the block) is made only when `shrink` is `true`.  Between
the calls the client may store words into the payload of a live block (`store`),
within the size its header announces. -/
inductive Reachable (h0 : Heap) (maxReq : Nat) (shrink : Bool) : Heap → List Nat → Prop
  | init {h : Heap} : mm_init h0 = (0, h) → Reachable h0 maxReq shrink h []
  | malloc {h h' : Heap} {L : List Nat} {fuel n p : Nat} :
      Reachable h0 maxReq shrink h L → n ≤ maxReq → mm_malloc fuel h n = some (p, h') →
      Reachable h0 maxReq shrink h' (if p = 0 then L else p :: L)
  | free {h : Heap} {L : List Nat} {p : Nat} :
      Reachable h0 maxReq shrink h L → p ∈ L →
      Reachable h0 maxReq shrink (mm_free h p) (removePtr L p)
  | store {h : Heap} {L : List Nat} {p y v : Nat} :
      Reachable h0 maxReq shrink h L → p ∈ L → p ≤ y →
      y + 12 ≤ p + GET_SIZE h.mem (HD p) →
      Reachable h0 maxReq shrink { h with mem := PUT h.mem y v } L
  | realloc_null {h h' : Heap} {L : List Nat} {fuel n q : Nat} :
      Reachable h0 maxReq shrink h L → n ≤ maxReq →
      mm_realloc fuel h 0 n = some (q, h') →
      Reachable h0 maxReq shrink h' (if q = 0 then L else q :: L)
  | realloc {h h' : Heap} {L : List Nat} {fuel p n q : Nat} :
      Reachable h0 maxReq shrink h L → p ∈ L → n ≤ maxReq →
      (shrink = true ∨ n = 0 ∨ GET_SIZE h.mem (HD p) ≤ adjusted n) →
      mm_realloc fuel h p n = some (q, h') →
      Reachable h0 maxReq shrink h'
        (if n = 0 then removePtr L p else if q = 0 then L else q :: removePtr L p)

/-! ## Concrete heaps used as test inputs -/

/-- The state a call leaves, when it returns. -/
def after (r : Option (Nat × Heap)) (s : Heap) : Heap :=
  match r with
  | some x => x.2
  | none => s

/-- A start state: zeroed memory, break at 4096, at most 9000. -/
def demo0 : Heap :=
  { mem := fun _ => 0, brk := 4096, limit := 9000, heap_head := 0, sbrk_calls := 0 }

/-- The state after `mm_init()`. -/
def demo1 : Heap := (mm_init demo0).2

/-- The state after `mm_init(); mm_malloc(16)`; the call returns 4112. -/
def demo2 : Heap := after (mm_malloc 3 demo1 16) demo1

/-- The state after `mm_init(); mm_malloc(16); mm_malloc(16)`; the second call
returns 4136. -/
def demo3 : Heap := after (mm_malloc 4 demo2 16) demo2

/-! ## The block structure of the heap -/

/-- A sequence of address-adjacent blocks, each given by its size and its
allocated bit. -/
abbrev Blocks := List (Nat × Nat)

/-- The number of bytes a sequence of blocks occupies. -/
def total : Blocks → Nat
  | [] => 0
  | b :: bs => b.1 + total bs

/-- The memory holds the blocks `bs` one after the other, the first with its
payload at `p`: every block has a size that is a multiple of 8 and at least 8,
an allocated bit, and a header and a footer word that both hold size and bit. -/
def Seg (m : Mem) : Nat → Blocks → Prop
  | _, [] => True
  | p, b :: bs =>
    8 ≤ b.1 ∧ b.1 % 8 = 0 ∧ b.2 ≤ 1 ∧ GET m (p - 4) = b.1 + b.2 ∧
    GET m (p + b.1 - 8) = b.1 + b.2 ∧ Seg m (p + b.1) bs

/-- The heap is well formed, with block sequence `cs`: the sequence starts with
the prologue (size 8, allocated) at `heap_head`, the blocks follow one another up
to the break, the word before the break is the epilogue header (size 0,
allocated), and the sizes add up to less than `2^32`. -/
def WF (s : Heap) (cs : Blocks) : Prop :=
  cs.head? = some (8, 1) ∧ Seg s.mem s.heap_head cs ∧ GET s.mem (s.brk - 4) = 1 ∧
  s.heap_head + total cs = s.brk ∧ 8 ≤ s.heap_head ∧ total cs < UINT

/-- The blocks `place` leaves where a block of size `S` stood, for the adjusted
size `a`. -/
def placeL (S a : Nat) : Blocks :=
  if 8 ≤ S - a then [(a, 1), (S - a, 0)] else [(S, 1)]

/-- The bytes a freed block gains from its predecessor `pb`: the size of `pb` when
`pb` is free. -/
def prevFree (pb : Nat × Nat) : Nat := if pb.2 = 0 then pb.1 else 0

/-- The bytes a freed block gains from its successor, the first block of `rest`:
its size when it is free (nothing when the block is the last one). -/
def nextFree : Blocks → Nat
  | [] => 0
  | b :: _ => if b.2 = 0 then b.1 else 0

/-- The blocks that follow a freed block once it has absorbed a free successor. -/
def restAfter : Blocks → Blocks
  | [] => []
  | b :: bs => if b.2 = 0 then bs else b :: bs

/-- The block sequence `coalesce` leaves: the free block of size `S` that stood
between `pre ++ [pb]` and `rest` has absorbed its free neighbours. -/
def coalesceL (pre : Blocks) (pb : Nat × Nat) (S : Nat) (rest : Blocks) : Blocks :=
  pre ++ (if pb.2 = 0 then [] else [pb]) ++ (prevFree pb + S + nextFree rest, 0) :: restAfter rest

/-- The blocks of a sequence that starts at `p`, each with its payload address:
entries are (address, size, allocated bit). -/
def layout : Nat → Blocks → List (Nat × Nat × Nat)
  | _, [] => []
  | p, b :: bs => (p, b.1, b.2) :: layout (p + b.1) bs

/-- The address `q` is the payload address of an allocated block of `cs` other
than the first one (the prologue, at `base`). -/
def LiveIn (base : Nat) (cs : Blocks) (q : Nat) : Prop :=
  q ≠ base ∧ ∃ S, (q, S, 1) ∈ layout base cs

/-- No two consecutive blocks of the sequence are both free. -/
def NoAdj (cs : Blocks) : Prop := List.Chain' (fun b c => ¬ (b.2 = 0 ∧ c.2 = 0)) cs

/-- The invariant of the reachable states: the heap is well formed with block
sequence `cs`, the kernel never lets the heap reach `2^32` bytes, and every live
pointer is the payload address of an allocated block. -/
def Inv (h : Heap) (L : List Nat) (cs : Blocks) : Prop :=
  WF h cs ∧ h.limit + 8 ≤ h.heap_head + UINT ∧ ∀ q ∈ L, LiveIn h.heap_head cs q

/-- The payload addresses the forward scan of `find_first` visits when it starts
at `p`: it steps from block to block until it meets a header of size zero (`none`
when the fuel runs out before). -/
def scanBlocks : Nat → Mem → Nat → Option (List Nat)
  | 0, _, _ => none
  | fuel + 1, m, p =>
    if GET_SIZE m (HD p) > 0 then (scanBlocks fuel m (NEXT_PLACE m p)).map (fun l => p :: l)
    else some []

/-- The blocks between the prologue and the epilogue, as the scan from `heap_head`
meets them (the scan starts at the prologue, which is dropped). -/
def heapBlocks (fuel : Nat) (s : Heap) : Option (List Nat) :=
  (scanBlocks fuel s.mem s.heap_head).map List.tail

/-- The header and the footer of the block at `p` decode to the same size and the
same allocated bit. -/
def tagsMatch (m : Mem) (p : Nat) : Prop :=
  GET_SIZE m (HD p) = GET_SIZE m (FT m p) ∧ GET_ALLOC m (HD p) = GET_ALLOC m (FT m p)

/-- The block at `p` and the block after it are both free. -/
def bothFree (m : Mem) (p : Nat) : Prop :=
  GET_ALLOC m (HD p) = 0 ∧ GET_ALLOC m (HD (NEXT_PLACE m p)) = 0

/-- The state after `mm_init(); mm_malloc(100)`; the call returns 4112. -/
def demo4 : Heap := after (mm_malloc 3 demo1 100) demo1

/-- The state after `mm_init(); p = mm_malloc(100); mm_realloc(p, 10)`; the second
call returns 4112 again. -/
def demo5 : Heap := after (mm_realloc 3 demo4 4112 10) demo4

/-- The state after `mm_init(); mm_malloc(8)`; the call returns 4112. -/
def demo6 : Heap := after (mm_malloc 3 demo1 8) demo1

/-- The state after `mm_init(); mm_malloc(8); mm_malloc(4294967281)`; the second
call returns 4128. -/
def demo7 : Heap := after (mm_malloc 4 demo6 4294967281) demo6

/-- The state after `mm_init(); mm_malloc(4080)`; the call returns 4112. -/
def demo8 : Heap := after (mm_malloc 3 demo1 4080) demo1

/-- The state after `mm_init(); mm_malloc(4294967295)`; the call returns 4112. -/
def demo9 : Heap := after (mm_malloc 3 demo1 4294967295) demo1

/-- The state after `mm_init(); p = mm_malloc(8); mm_realloc(p, 4294967295)`; the
second call returns 4112 again. -/
def demo10 : Heap := after (mm_realloc 3 demo6 4112 4294967295) demo6

/-- The state `demo3` after the client has stored the word `0x12345678` at 4112. -/
def demo11 : Heap := { demo3 with mem := PUT demo3.mem 4112 305419896 }

/-- The state after `mm_realloc(4112, 100)` in `demo11`; the call returns 4160. -/
def demo12 : Heap := after (mm_realloc 5 demo11 4112 100) demo11

/-! ## Further notions and test inputs -/

/-- The payload address at which the forward scan of `find_first` stops when no
block fits: the first address it reaches whose header has size zero (`none` when the
fuel runs out before). -/
def scanStop : Nat → Mem → Nat → Option Nat
  | 0, _, _ => none
  | fuel + 1, m, p =>
    if GET_SIZE m (HD p) > 0 then scanStop fuel m (NEXT_PLACE m p) else some p

/-- The allocated block of size `S` at `q` is in the memory `m'` what it was in `m`:
its header and footer hold `(S, allocated)` and its payload holds the same words,
hence the same bytes. -/
def BlockKept (m m' : Mem) (q S : Nat) : Prop :=
  GET m' (HD q) = PACK S 1 ∧ GET m' (FT m' q) = PACK S 1 ∧
  (∀ y, q ≤ y → y + 8 < q + S → m' y = m y) ∧
  (q % 4 = 0 → ∀ k, k + 8 < S → byteAt m' (q + k) = byteAt m (q + k))

/-- The state in which `mm_init` calls `extend_heap` (line 71), once `sbrk` has
granted the first 16 bytes at the break of `h0`: the padding word and the three
sentinel words are written and `heap_head` points at the prologue. -/
def init_mid (h0 : Heap) : Heap :=
  ⟨PUT (PUT (PUT (PUT h0.mem h0.brk 0) (h0.brk + 4) 9) (h0.brk + 8) 9) (h0.brk + 12) 1,
    h0.brk + 16, h0.limit, h0.brk + 8, h0.sbrk_calls + 1⟩

/-- The state after `mm_init(); mm_malloc(8); p = mm_malloc(4294967281); mm_free(p)`,
where `p` is 4128. -/
def demo13 : Heap := mm_free demo7 4128

/-- The memory after `place(4112, 4088)` in the state after `mm_init()`, where the
block at 4112 is free and has 4096 bytes. -/
def demo14 : Mem := place demo1.mem 4112 4088

/-- The state after `mm_init(); A = mm_malloc(1)`; `A` is 4112. -/
def demo15 : Heap := after (mm_malloc 3 demo1 1) demo1

/-- The state after `mm_init(); A = mm_malloc(1); B = mm_malloc(20)`; `B` is 4128. -/
def demo16 : Heap := after (mm_malloc 4 demo15 20) demo15

/-- The state `demo16` after `mm_free(A); mm_free(B)`. -/
def demo17 : Heap := mm_free (mm_free demo16 4112) 4128

/-- The state `demo16` after `mm_free(B); mm_free(A)`. -/
def demo18 : Heap := mm_free (mm_free demo16 4128) 4112

/-- Every allocated block of the sequence other than the first one (the prologue)
has at least 16 bytes. -/
def BigAlloc (cs : Blocks) : Prop := ∀ b ∈ cs.tail, b.2 = 1 → 16 ≤ b.1

/-- The heap is well formed in the sense of the specification, whatever its size: the
sequence `cs` starts with the prologue (size 8, allocated) at `heap_head`, every block
has matching tags and a size that is a multiple of 8, the blocks follow one another up
to the break, and the word before the break is the epilogue header.  This is `WF`
without its bound on the number of bytes. -/
def Tagged (s : Heap) (cs : Blocks) : Prop :=
  cs.head? = some (8, 1) ∧ Seg s.mem s.heap_head cs ∧ GET s.mem (s.brk - 4) = 1 ∧
  s.heap_head + total cs = s.brk ∧ 8 ≤ s.heap_head

/-- A start state whose kernel grants up to `2^40` bytes: zeroed memory, break at
4096. -/
def big0 : Heap :=
  { mem := fun _ => 0, brk := 4096, limit := 1099511627776, heap_head := 0, sbrk_calls := 0 }

/-- The state after `mm_init()` in `big0`. -/
def big1 : Heap := (mm_init big0).2

/-- The state after `mm_init(); X = mm_malloc(2147483000)`; `X` is 4112 and its block
has 2147483008 bytes. -/
def big2 : Heap := after (mm_malloc 3 big1 2147483000) big1

/-- The state `big2` after `Y = mm_malloc(2147483000)`; `Y` is 2147487120. -/
def big3 : Heap := after (mm_malloc 4 big2 2147483000) big2

/-- The state `big3` after `mm_free(Y)`: the block `X` is followed by a free block of
2147487104 bytes, and the heap has more than `2^32` bytes. -/
def big4 : Heap := mm_free big3 2147487120

/-- The state after `mm_init(); P = mm_malloc(8)` in `big0`; `P` is 4112. -/
def big5 : Heap := after (mm_malloc 3 big1 8) big1

/-- The state `big5` after `X = mm_malloc(2147483000)`; `X` is 4128. -/
def big6 : Heap := after (mm_malloc 4 big5 2147483000) big5

/-- The state `big6` after `Y = mm_malloc(2147480200)`; `Y` is 2147487136. -/
def big7 : Heap := after (mm_malloc 5 big6 2147480200) big6

/-- The state `big7` after `mm_free(Y)`: the block `X` of 2147483008 bytes is followed
by a free block of 2147484288 bytes, and the two sizes add up to `2^32`. -/
def big8 : Heap := mm_free big7 2147487136

/-! ## Words, tags and the environment -/

theorem and_mask (w : Nat) (h : w < 4294967296) : w &&& 0xFFFFFFF8 = 8 * (w / 8) := by
  apply Nat.eq_of_testBit_eq
  intro i
  have e1 : (0xFFFFFFF8 : Nat) = (2 ^ 29 - 1) <<< 3 := by decide
  have e2 : 8 * (w / 8) = (w >>> 3) <<< 3 := by
    rw [Nat.shiftLeft_eq, Nat.shiftRight_eq_div_pow]; norm_num; ring
  rw [Nat.testBit_and, e1, e2, Nat.testBit_shiftLeft, Nat.testBit_shiftLeft,
    Nat.testBit_two_pow_sub_one, Nat.testBit_shiftRight]
  by_cases h3 : 3 ≤ i
  · simp only [h3, ge_iff_le, decide_True, Bool.true_and]
    have : 3 + (i - 3) = i := by omega
    rw [this]
    by_cases h4 : i - 3 < 29
    · simp [h4]
    · simp only [h4, decide_False, Bool.and_false]
      symm
      apply Nat.testBit_lt_two_pow
      calc w < 2 ^ 32 := h
        _ ≤ 2 ^ i := Nat.pow_le_pow_right (by norm_num) (by omega)
  · simp [h3]

theorem or_small (s a : Nat) (hs : s % 8 = 0) (ha : a ≤ 1) : s ||| a = s + a := by
  have e : s = 2 ^ 3 * (s / 8) := by omega
  rw [e]
  exact (Nat.mul_add_lt_is_or (by omega : a < 2 ^ 3) (s / 8)).symm

theorem GET_lt (m : Mem) (p : Nat) : GET m p < 4294967296 := by
  unfold GET UINT; omega

theorem GET_SIZE_eq (m : Mem) (p : Nat) : GET_SIZE m p = 8 * (GET m p / 8) := by
  unfold GET_SIZE; exact and_mask _ (GET_lt m p)

theorem GET_ALLOC_eq (m : Mem) (p : Nat) : GET_ALLOC m p = GET m p % 2 := by
  unfold GET_ALLOC; exact Nat.and_one_is_mod _

theorem PACK_eq {s a : Nat} (hs : s % 8 = 0) (ha : a ≤ 1) : PACK s a = s + a :=
  or_small s a hs ha

theorem GET_PUT (m : Mem) (p v q : Nat) :
    GET (PUT m p v) q = if q = p then v % 4294967296 else GET m q := by
  unfold GET PUT UINT; split <;> rfl

theorem GET_SIZE_mod8 (m : Mem) (p : Nat) : GET_SIZE m p % 8 = 0 := by
  rw [GET_SIZE_eq]; omega

theorem sbrk_reject {s : Heap} {n : Nat} (h : ¬ Grants s n) :
    sbrk s n = (none, { s with sbrk_calls := s.sbrk_calls + 1 }) := by
  unfold Grants at h
  simp [sbrk, growproc, h]

theorem sbrk_grant {s : Heap} {n : Nat} (h : Grants s n) :
    sbrk s n = (some s.brk, { s with brk := s.brk + n, sbrk_calls := s.sbrk_calls + 1 }) := by
  unfold Grants at h
  simp [sbrk, growproc, h]

theorem extend_heap_reject {s : Heap} {words : Nat} (h : ¬ Grants s (ext_bytes words)) :
    extend_heap s words = (0, { s with sbrk_calls := s.sbrk_calls + 1 }) := by
  unfold extend_heap
  simp only [← ext_bytes.eq_1, sbrk_reject h]

theorem extend_heap_grant {s : Heap} {words : Nat} (h : Grants s (ext_bytes words)) :
    extend_heap s words =
      ((coalesce (ext_mem s.mem s.brk (ext_bytes words)) s.brk).1,
       { s with mem := (coalesce (ext_mem s.mem s.brk (ext_bytes words)) s.brk).2,
                brk := s.brk + ext_bytes words, sbrk_calls := s.sbrk_calls + 1 }) := by
  unfold extend_heap
  simp only [← ext_bytes.eq_1, sbrk_grant h]
  rfl

theorem ext_bytes_mod8 (words : Nat) : ext_bytes words % 8 = 0 := by
  unfold ext_bytes W_SIZE UINT
  split <;> omega

/-! ## Case analysis of the public operations -/

theorem mm_malloc_cases {fuel : Nat} {s s' : Heap} {n p : Nat}
    (h : mm_malloc fuel s n = some (p, s')) :
    (n = 0 ∧ p = 0 ∧ s' = s) ∨
    (n ≠ 0 ∧ find_first fuel s (adjusted n) = some p ∧ p ≠ 0 ∧
      s' = { s with mem := place s.mem p (adjusted n) }) ∨
    (n ≠ 0 ∧ find_first fuel s (adjusted n) = some 0 ∧
      (extend_heap s (MAX (adjusted n) E_SIZE / W_SIZE)).1 = 0 ∧ p = 0 ∧
      s' = (extend_heap s (MAX (adjusted n) E_SIZE / W_SIZE)).2) ∨
    (n ≠ 0 ∧ find_first fuel s (adjusted n) = some 0 ∧
      (extend_heap s (MAX (adjusted n) E_SIZE / W_SIZE)).1 ≠ 0 ∧
      p = (extend_heap s (MAX (adjusted n) E_SIZE / W_SIZE)).1 ∧
      s' = { (extend_heap s (MAX (adjusted n) E_SIZE / W_SIZE)).2 with
        mem := place (extend_heap s (MAX (adjusted n) E_SIZE / W_SIZE)).2.mem
          (extend_heap s (MAX (adjusted n) E_SIZE / W_SIZE)).1 (adjusted n) }) := by
  unfold mm_malloc at h
  by_cases h0 : n = 0
  · simp only [h0, if_true, Option.some.injEq, Prod.mk.injEq] at h
    exact Or.inl ⟨h0, h.1.symm, h.2.symm⟩
  · simp only [h0, if_false] at h
    cases hf : find_first fuel s (adjusted n) with
    | none => simp [hf] at h
    | some bp =>
      simp only [hf] at h
      by_cases hbp : bp = 0
      · subst hbp
        simp only [ne_eq, not_true_eq_false, if_false] at h
        by_cases he : (extend_heap s (MAX (adjusted n) E_SIZE / W_SIZE)).1 = 0
        · simp only [he, if_true, Option.some.injEq, Prod.mk.injEq] at h
          exact Or.inr (Or.inr (Or.inl ⟨h0, rfl, he, h.1.symm, h.2.symm⟩))
        · simp only [he, if_false, Option.some.injEq, Prod.mk.injEq] at h
          exact Or.inr (Or.inr (Or.inr ⟨h0, rfl, he, h.1.symm, h.2.symm⟩))
      · simp only [ne_eq, hbp, not_false_eq_true, if_true, Option.some.injEq, Prod.mk.injEq] at h
        obtain ⟨rfl, rfl⟩ := h
        exact Or.inr (Or.inl ⟨h0, rfl, hbp, rfl⟩)

theorem mm_realloc_null (fuel : Nat) (s : Heap) (n : Nat) :
    mm_realloc fuel s 0 n = mm_malloc fuel s n := by
  simp [mm_realloc]

theorem mm_realloc_zero (fuel : Nat) (s : Heap) {p : Nat} (hp : p ≠ 0) :
    mm_realloc fuel s p 0 = some (0, mm_free s p) := by
  simp [mm_realloc, hp]

theorem mm_realloc_cases {fuel : Nat} {s s' : Heap} {ptr n q : Nat}
    (hptr : ptr ≠ 0) (hn : n ≠ 0)
    (h : mm_realloc fuel s ptr n = some (q, s')) :
    (adjusted n = GET_SIZE s.mem (HD ptr) ∧ q = ptr ∧ s' = s) ∨
    (adjusted n < GET_SIZE s.mem (HD ptr) ∧ q = ptr ∧
      s' = { s with mem := place s.mem ptr (adjusted n) }) ∨
    (GET_SIZE s.mem (HD ptr) < adjusted n ∧
      GET_ALLOC s.mem (HD (NEXT_PLACE s.mem ptr)) = 0 ∧
      (GET_SIZE s.mem (HD (NEXT_PLACE s.mem ptr)) + GET_SIZE s.mem (HD ptr)) % UINT ≥ adjusted n ∧
      q = ptr ∧
      s' = { s with mem := place (PUT s.mem (HD ptr) (PACK ((GET_SIZE s.mem
        (HD (NEXT_PLACE s.mem ptr)) + GET_SIZE s.mem (HD ptr)) % UINT) 0)) ptr (adjusted n) }) ∨
    (Relocates s ptr n ∧ find_first fuel s (adjusted n) = some q ∧ q ≠ 0 ∧
      s' = (realloc_move s q ptr (adjusted n) (GET_SIZE s.mem (HD ptr))).2) ∨
    (Relocates s ptr n ∧ find_first fuel s (adjusted n) = some 0 ∧
      (extend_heap s (MAX (adjusted n) E_SIZE / W_SIZE)).1 = 0 ∧ q = 0 ∧
      s' = (extend_heap s (MAX (adjusted n) E_SIZE / W_SIZE)).2) ∨
    (Relocates s ptr n ∧ find_first fuel s (adjusted n) = some 0 ∧
      (extend_heap s (MAX (adjusted n) E_SIZE / W_SIZE)).1 ≠ 0 ∧
      q = (extend_heap s (MAX (adjusted n) E_SIZE / W_SIZE)).1 ∧
      s' = (realloc_move (extend_heap s (MAX (adjusted n) E_SIZE / W_SIZE)).2
        (extend_heap s (MAX (adjusted n) E_SIZE / W_SIZE)).1 ptr (adjusted n)
        (GET_SIZE s.mem (HD ptr))).2) := by
  unfold mm_realloc at h
  simp only [hptr, hn, if_false] at h
  by_cases h1 : adjusted n = GET_SIZE s.mem (HD ptr)
  · simp only [h1, if_true, Option.some.injEq, Prod.mk.injEq] at h
    exact Or.inl ⟨h1, h.1.symm, h.2.symm⟩
  simp only [h1, if_false] at h
  by_cases h2 : adjusted n < GET_SIZE s.mem (HD ptr)
  · simp only [h2, if_true, Option.some.injEq, Prod.mk.injEq] at h
    exact Or.inr (Or.inl ⟨h2, h.1.symm, h.2.symm⟩)
  simp only [h2, if_false] at h
  have h3 : GET_SIZE s.mem (HD ptr) < adjusted n := by omega
  by_cases h4 : GET_ALLOC s.mem (HD (NEXT_PLACE s.mem ptr)) = 0 ∧
      (GET_SIZE s.mem (HD (NEXT_PLACE s.mem ptr)) + GET_SIZE s.mem (HD ptr)) % UINT ≥ adjusted n
  · simp only [h4, and_self, if_true, Option.some.injEq, Prod.mk.injEq] at h
    exact Or.inr (Or.inr (Or.inl ⟨h3, h4.1, h4.2, h.1.symm, h.2.symm⟩))
  simp only [h4, if_false] at h
  have hr : Relocates s ptr n := ⟨h3, h4⟩
  cases hf : find_first fuel s (adjusted n) with
  | none => simp [hf] at h
  | some bp =>
    simp only [hf] at h
    by_cases hbp : bp = 0
    · subst hbp
      simp only [if_true] at h
      by_cases he : (extend_heap s (MAX (adjusted n) E_SIZE / W_SIZE)).1 = 0
      · simp only [he, if_true, Option.some.injEq, Prod.mk.injEq] at h
        exact Or.inr (Or.inr (Or.inr (Or.inr (Or.inl ⟨hr, rfl, he, h.1.symm, h.2.symm⟩))))
      · simp only [he, if_false, Option.some.injEq] at h
        refine Or.inr (Or.inr (Or.inr (Or.inr (Or.inr ⟨hr, rfl, he, ?_, ?_⟩))))
        · exact (congrArg Prod.fst h).symm
        · exact (congrArg Prod.snd h).symm
    · simp only [hbp, if_false, Option.some.injEq] at h
      have hq : bp = q := congrArg Prod.fst h
      subst hq
      exact Or.inr (Or.inr (Or.inr (Or.inl ⟨hr, rfl, hbp, (congrArg Prod.snd h).symm⟩)))

theorem realloc_move_fields (s : Heap) (q p a b : Nat) :
    (realloc_move s q p a b).1 = q ∧
    (realloc_move s q p a b).2.heap_head = s.heap_head ∧
    (realloc_move s q p a b).2.brk = s.brk ∧
    (realloc_move s q p a b).2.limit = s.limit ∧
    (realloc_move s q p a b).2.sbrk_calls = s.sbrk_calls :=
  ⟨rfl, rfl, rfl, rfl, rfl⟩

theorem mm_init_ok {s h : Heap} (hi : mm_init s = (0, h)) :
    Grants s 16 ∧ h.heap_head = s.brk + 8 ∧ h.brk = s.brk + 16 + 4096 ∧ h.limit = s.limit
     := by
  unfold mm_init at hi
  have e16 : 4 * W_SIZE = 16 := rfl
  have eb : ext_bytes (E_SIZE / W_SIZE) = 4096 := by decide
  rw [e16] at hi
  by_cases hg : Grants s 16
  · rw [sbrk_grant hg] at hi
    simp only at hi
    split at hi
    · simp at hi
    · rename_i hne
      simp only [Prod.mk.injEq, true_and] at hi
      subst hi
      refine ⟨hg, ?_⟩
      by_cases hg2 : Grants ({ mem := PUT (PUT (PUT (PUT s.mem s.brk 0) (s.brk + 1 * W_SIZE) (PACK D_SIZE 1)) (s.brk + 2 * W_SIZE) (PACK D_SIZE 1)) (s.brk + 3 * W_SIZE) (PACK 0 1), brk := s.brk + 16, limit := s.limit, heap_head := s.brk + 2 * W_SIZE, sbrk_calls := s.sbrk_calls + 1 } : Heap) (ext_bytes (E_SIZE / W_SIZE))
      · rw [extend_heap_grant hg2]
        refine ⟨rfl, ?_, rfl⟩
        show s.brk + 16 + ext_bytes (E_SIZE / W_SIZE) = _
        rw [eb]
      · rw [extend_heap_reject hg2] at hne
        exact absurd rfl hne
  · rw [sbrk_reject hg] at hi
    simp at hi

/-! ## Alignment -/

theorem find_first_loop_aligned (fuel : Nat) (m : Mem) (p a r : Nat) (hp : p % 8 = 0)
    (h : find_first_loop fuel m p a = some r) : r % 8 = 0 := by
  induction fuel generalizing p with
  | zero => simp [find_first_loop] at h
  | succ k ih =>
    simp only [find_first_loop] at h
    split at h
    · split at h
      · simp only [Option.some.injEq] at h; omega
      · apply ih _ _ h
        have := GET_SIZE_mod8 m (p - W_SIZE)
        unfold NEXT_PLACE; omega
    · simp only [Option.some.injEq] at h; omega

theorem PREV_PLACE_aligned (m : Mem) (ptr : Nat) (hp : ptr % 8 = 0) :
    PREV_PLACE m ptr % 8 = 0 := by
  have := GET_SIZE_mod8 m (ptr - D_SIZE)
  unfold PREV_PLACE; omega

theorem coalesce_aligned (m : Mem) (ptr : Nat) (hp : ptr % 8 = 0) :
    (coalesce m ptr).1 % 8 = 0 := by
  unfold coalesce
  simp only
  repeat' split
  all_goals first | exact hp | exact PREV_PLACE_aligned _ _ hp

theorem extend_heap_aligned (s : Heap) (words : Nat) (hb : s.brk % 8 = 0) :
    (extend_heap s words).1 % 8 = 0 ∧ (extend_heap s words).2.brk % 8 = 0 ∧
    (extend_heap s words).2.heap_head = s.heap_head := by
  by_cases h : Grants s (ext_bytes words)
  · rw [extend_heap_grant h]
    have := ext_bytes_mod8 words
    refine ⟨coalesce_aligned _ _ hb, ?_, rfl⟩
    simp only; omega
  · rw [extend_heap_reject h]
    exact ⟨rfl, hb, rfl⟩

theorem mm_malloc_aligned {fuel : Nat} {s s' : Heap} {n p : Nat}
    (hh : s.heap_head % 8 = 0) (hb : s.brk % 8 = 0)
    (h : mm_malloc fuel s n = some (p, s')) :
    p % 8 = 0 ∧ s'.heap_head = s.heap_head ∧ s'.brk % 8 = 0 := by
  have he := extend_heap_aligned s (MAX (adjusted n) E_SIZE / W_SIZE) hb
  rcases mm_malloc_cases h with ⟨_, rfl, rfl⟩ | ⟨_, hf, _, rfl⟩ | ⟨_, _, _, rfl, rfl⟩ |
    ⟨_, _, _, rfl, rfl⟩
  · exact ⟨rfl, rfl, hb⟩
  · exact ⟨find_first_loop_aligned _ _ _ _ _ hh hf, rfl, hb⟩
  · exact ⟨rfl, he.2.2, he.2.1⟩
  · exact ⟨he.1, he.2.2, he.2.1⟩

theorem mm_realloc_aligned {fuel : Nat} {s s' : Heap} {ptr n p : Nat}
    (hh : s.heap_head % 8 = 0) (hb : s.brk % 8 = 0) (hptr : ptr % 8 = 0)
    (h : mm_realloc fuel s ptr n = some (p, s')) :
    p % 8 = 0 ∧ s'.heap_head = s.heap_head ∧ s'.brk % 8 = 0 := by
  by_cases h0 : ptr = 0
  · subst h0
    rw [mm_realloc_null] at h
    exact mm_malloc_aligned hh hb h
  by_cases hn : n = 0
  · subst hn
    rw [mm_realloc_zero fuel s h0] at h
    simp only [Option.some.injEq, Prod.mk.injEq] at h
    obtain ⟨rfl, rfl⟩ := h
    exact ⟨rfl, rfl, hb⟩
  have he := extend_heap_aligned s (MAX (adjusted n) E_SIZE / W_SIZE) hb
  rcases mm_realloc_cases h0 hn h with ⟨_, rfl, rfl⟩ | ⟨_, rfl, rfl⟩ | ⟨_, _, _, rfl, rfl⟩ |
    ⟨_, hf, _, rfl⟩ | ⟨_, _, _, rfl, rfl⟩ | ⟨_, _, _, rfl, rfl⟩
  · exact ⟨hptr, rfl, hb⟩
  · exact ⟨hptr, rfl, hb⟩
  · exact ⟨hptr, rfl, hb⟩
  · exact ⟨find_first_loop_aligned _ _ _ _ _ hh hf, rfl, hb⟩
  · exact ⟨rfl, he.2.2, he.2.1⟩
  · exact ⟨he.1, he.2.2, he.2.1⟩

theorem Reachable_aligned {h0 : Heap} {maxReq : Nat} {shrink : Bool} {h : Heap} {L : List Nat}
    (hb : h0.brk % 8 = 0) (hr : Reachable h0 maxReq shrink h L) :
    h.heap_head % 8 = 0 ∧ h.brk % 8 = 0 ∧ ∀ p ∈ L, p % 8 = 0 := by
  induction hr with
  | init hi =>
    obtain ⟨_, h1, h2, _⟩ := mm_init_ok hi
    refine ⟨by omega, by omega, by simp⟩
  | malloc _ _ hm ih =>
    obtain ⟨a1, a2, a3⟩ := mm_malloc_aligned ih.1 ih.2.1 hm
    refine ⟨by rw [a2]; exact ih.1, a3, ?_⟩
    intro p hp
    split at hp
    · exact ih.2.2 p hp
    · rcases List.mem_cons.1 hp with rfl | hp
      · exact a1
      · exact ih.2.2 p hp
  | free _ _ ih =>
    refine ⟨ih.1, ih.2.1, ?_⟩
    intro q hq
    exact ih.2.2 q (List.mem_of_mem_filter hq)
  | store _ _ _ _ ih => exact ih
  | realloc_null _ _ hm ih =>
    obtain ⟨a1, a2, a3⟩ := mm_realloc_aligned ih.1 ih.2.1 rfl hm
    refine ⟨by rw [a2]; exact ih.1, a3, ?_⟩
    intro p hp
    split at hp
    · exact ih.2.2 p hp
    · rcases List.mem_cons.1 hp with rfl | hp
      · exact a1
      · exact ih.2.2 p hp
  | realloc _ hp _ _ hm ih =>
    obtain ⟨a1, a2, a3⟩ := mm_realloc_aligned ih.1 ih.2.1 (ih.2.2 _ hp) hm
    refine ⟨by rw [a2]; exact ih.1, a3, ?_⟩
    intro x hx
    split at hx
    · exact ih.2.2 x (List.mem_of_mem_filter hx)
    · split at hx
      · exact ih.2.2 x hx
      · rcases List.mem_cons.1 hx with rfl | hx
        · exact a1
        · exact ih.2.2 x (List.mem_of_mem_filter hx)


/-! ## Block sequences in memory -/

theorem total_nil : total [] = 0 := rfl

theorem total_cons (b : Nat × Nat) (bs : Blocks) : total (b :: bs) = b.1 + total bs := rfl

theorem Seg_cons (m : Mem) (p : Nat) (b : Nat × Nat) (bs : Blocks) :
    Seg m p (b :: bs) ↔ 8 ≤ b.1 ∧ b.1 % 8 = 0 ∧ b.2 ≤ 1 ∧ GET m (p - 4) = b.1 + b.2 ∧
      GET m (p + b.1 - 8) = b.1 + b.2 ∧ Seg m (p + b.1) bs := Iff.rfl

theorem total_append (xs ys : Blocks) : total (xs ++ ys) = total xs + total ys := by
  induction xs with
  | nil => simp [total_nil]
  | cons b bs ih => rw [List.cons_append, total_cons, total_cons, ih]; omega

theorem Seg_append (m : Mem) (xs ys : Blocks) (p : Nat) :
    Seg m p (xs ++ ys) ↔ Seg m p xs ∧ Seg m (p + total xs) ys := by
  induction xs generalizing p with
  | nil => simp [Seg, total_nil]
  | cons b bs ih =>
    rw [List.cons_append, Seg_cons, Seg_cons, total_cons, ih, ← Nat.add_assoc]
    tauto

theorem GET_congr {m m' : Mem} {y : Nat} (h : m' y = m y) : GET m' y = GET m y := by
  unfold GET; rw [h]

theorem Seg_frame {m m' : Mem} {p : Nat} {cs : Blocks} (h : Seg m p cs)
    (hf : ∀ y, p - 4 ≤ y → y + 8 ≤ p + total cs → m' y = m y) : Seg m' p cs := by
  induction cs generalizing p with
  | nil => trivial
  | cons b bs ih =>
    obtain ⟨h1, h2, h3, h4, h5, h6⟩ := h
    simp only [total_cons] at hf
    refine ⟨h1, h2, h3, ?_, ?_, ih h6 ?_⟩
    · rw [GET_congr (hf _ (by omega) (by omega))]; exact h4
    · rw [GET_congr (hf _ (by omega) (by omega))]; exact h5
    · intro y hy1 hy2
      exact hf y (by omega) (by omega)

theorem tag_decode {w s a : Nat} (h : w = s + a) (hs : s % 8 = 0) (ha : a ≤ 1) :
    8 * (w / 8) = s ∧ w % 2 = a := by
  subst h; omega

theorem Seg_length_le {m : Mem} {p : Nat} {cs : Blocks} (h : Seg m p cs) :
    8 * cs.length ≤ total cs := by
  induction cs generalizing p with
  | nil => simp [total_nil]
  | cons b bs ih =>
    have := ih h.2.2.2.2.2
    simp only [List.length_cons, total_cons]
    have := h.1
    omega

theorem find_first_loop_spec (m : Mem) (a : Nat) :
    ∀ (fuel p : Nat) (cs : Blocks) (r : Nat), Seg m p cs → GET m (p + total cs - 4) = 1 →
      find_first_loop fuel m p a = some r →
      (r = 0 ∧ ∀ b ∈ cs, ¬ (b.2 = 0 ∧ a ≤ b.1)) ∨
      (∃ pre S post, cs = pre ++ (S, 0) :: post ∧ r = p + total pre ∧ a ≤ S ∧
        ∀ b ∈ pre, ¬ (b.2 = 0 ∧ a ≤ b.1)) := by
  intro fuel
  induction fuel with
  | zero => intro p cs r _ _ h; simp [find_first_loop] at h
  | succ k ih =>
    intro p cs r hseg hepi h
    simp only [find_first_loop, HD, W_SIZE, GET_SIZE_eq, GET_ALLOC_eq] at h
    cases cs with
    | nil =>
      simp only [total_nil, Nat.add_zero] at hepi
      rw [hepi] at h
      simp only [Nat.reduceDiv, Nat.mul_zero, gt_iff_lt, Nat.lt_irrefl, if_false,
        Option.some.injEq] at h
      exact Or.inl ⟨h.symm, by simp⟩
    | cons b bs =>
      obtain ⟨h1, h2, h3, h4, h5, h6⟩ := hseg
      obtain ⟨d1, d2⟩ := tag_decode h4 h2 h3
      rw [d1, d2] at h
      have hpos : b.1 > 0 := by omega
      simp only [hpos, if_true] at h
      by_cases hfit : b.2 = 0 ∧ a ≤ b.1
      · simp only [hfit, and_self, if_true, Option.some.injEq] at h
        refine Or.inr ⟨[], b.1, bs, ?_, ?_, hfit.2, by simp⟩
        · have : b = (b.1, 0) := by rw [← hfit.1]
          rw [List.nil_append, ← this]
        · simp [total_nil, h]
      · simp only [hfit, if_false, NEXT_PLACE, W_SIZE, GET_SIZE_eq, d1] at h
        have hepi2 : GET m (p + b.1 + total bs - 4) = 1 := by
          simp only [total_cons] at hepi
          rw [← hepi]; congr 1; omega
        rcases ih (p + b.1) bs r h6 hepi2 h with ⟨hr, hall⟩ | ⟨pre, S, post, e1, e2, e3, e4⟩
        · refine Or.inl ⟨hr, ?_⟩
          intro c hc
          rcases List.mem_cons.1 hc with rfl | hc
          · exact hfit
          · exact hall c hc
        · refine Or.inr ⟨b :: pre, S, post, by rw [e1]; rfl, ?_, e3, ?_⟩
          · simp only [total_cons]; omega
          · intro c hc
            rcases List.mem_cons.1 hc with rfl | hc
            · exact hfit
            · exact e4 c hc

theorem find_first_loop_terminates (m : Mem) (a : Nat) :
    ∀ (fuel p : Nat) (cs : Blocks), Seg m p cs → GET m (p + total cs - 4) = 1 →
      cs.length < fuel → ∃ r, find_first_loop fuel m p a = some r := by
  intro fuel
  induction fuel with
  | zero => intro p cs _ _ h; omega
  | succ k ih =>
    intro p cs hseg hepi hlen
    simp only [find_first_loop]
    split
    · split
      · exact ⟨_, rfl⟩
      · cases cs with
        | nil =>
          rename_i hpos _
          simp only [total_nil, Nat.add_zero] at hepi
          simp only [HD, W_SIZE, GET_SIZE_eq, hepi] at hpos
          omega
        | cons b bs =>
          obtain ⟨h1, h2, h3, h4, h5, h6⟩ := hseg
          obtain ⟨d1, d2⟩ := tag_decode h4 h2 h3
          simp only [NEXT_PLACE, W_SIZE, GET_SIZE_eq, d1]
          apply ih (p + b.1) bs h6
          · simp only [total_cons] at hepi
            rw [← hepi]; congr 1; omega
          · simp only [List.length_cons] at hlen; omega
    · exact ⟨_, rfl⟩

/-! ## The effect of `place` -/

theorem GET_PUT_same {m : Mem} {p v : Nat} (hv : v < 4294967296) : GET (PUT m p v) p = v := by
  rw [GET_PUT, if_pos rfl, Nat.mod_eq_of_lt hv]

theorem GET_PUT_ne {m : Mem} {p v q : Nat} (h : q ≠ p) : GET (PUT m p v) q = GET m q := by
  rw [GET_PUT, if_neg h]

theorem PUT_ne {m : Mem} {p v q : Nat} (h : q ≠ p) : PUT m p v q = m q := by
  unfold PUT; rw [if_neg h]

theorem PACK_zero (s : Nat) : PACK s 0 = s := by
  unfold PACK; exact Nat.or_zero s

theorem PACK_one {s : Nat} (hs : s % 8 = 0) : PACK s 1 = s + 1 := PACK_eq hs (Nat.le_refl 1)

theorem GET_SIZE_of {m : Mem} {p s a : Nat} (h : GET m p = s + a) (hs : s % 8 = 0) (ha : a ≤ 1) :
    GET_SIZE m p = s := by
  rw [GET_SIZE_eq, h]; omega

theorem GET_ALLOC_of {m : Mem} {p s a : Nat} (h : GET m p = s + a) (hs : s % 8 = 0)
    (ha : a ≤ 1) : GET_ALLOC m p = a := by
  rw [GET_ALLOC_eq, h]; omega

theorem place_split_eq {m : Mem} {bp a S x : Nat} (hh : GET m (bp - 4) = S + x) (hx : x ≤ 1)
    (hS : S % 8 = 0) (hSlt : S < 4294967296) (ha8 : a % 8 = 0) (ha : 8 ≤ a) (haS : a + 8 ≤ S)
    (hbp : 4 ≤ bp) :
    place m bp a =
      PUT (PUT (PUT (PUT m (bp - 4) (a + 1)) (bp + a - 8) (a + 1)) (bp + a - 4) (S - a))
        (bp + S - 8) (S - a) := by
  have hsz : GET_SIZE m (bp - 4) = S := GET_SIZE_of hh hS hx
  have hsub : (S + 4294967296 - a) % 4294967296 = S - a := by omega
  unfold place
  simp only [HD, W_SIZE, UINT, hsz, hsub]
  have hc : S - a ≥ 2 * 4 := by omega
  rw [if_pos hc, PACK_one ha8, PACK_zero]
  have e1 : FT (PUT m (bp - 4) (a + 1)) bp = bp + a - 8 := by
    unfold FT HD W_SIZE D_SIZE
    rw [GET_SIZE_of (GET_PUT_same (by omega)) ha8 (Nat.le_refl 1)]
  rw [e1]
  have e2 : NEXT_PLACE (PUT (PUT m (bp - 4) (a + 1)) (bp + a - 8) (a + 1)) bp = bp + a := by
    unfold NEXT_PLACE W_SIZE
    rw [GET_SIZE_of (a := 1) (by rw [GET_PUT_ne (by omega), GET_PUT_same (by omega)]) ha8
      (Nat.le_refl 1)]
  rw [e2]
  have e3 : FT (PUT (PUT (PUT m (bp - 4) (a + 1)) (bp + a - 8) (a + 1)) (bp + a - 4) (S - a))
      (bp + a) = bp + S - 8 := by
    unfold FT HD W_SIZE D_SIZE
    rw [GET_SIZE_of (a := 0) (s := S - a) (by rw [GET_PUT_same (by omega), Nat.add_zero]) (by omega)
      (by omega)]
    omega
  rw [e3]

theorem place_whole_eq {m : Mem} {bp a S x : Nat} (hh : GET m (bp - 4) = S + x) (hx : x ≤ 1)
    (hS : S % 8 = 0) (hSlt : S < 4294967296) (haS : a ≤ S) (hlt : S < a + 8) :
    place m bp a = PUT (PUT m (bp - 4) (S + 1)) (bp + S - 8) (S + 1) := by
  have hsz : GET_SIZE m (bp - 4) = S := GET_SIZE_of hh hS hx
  have hsub : (S + 4294967296 - a) % 4294967296 = S - a := by omega
  unfold place
  simp only [HD, W_SIZE, UINT, hsz, hsub]
  have hc : ¬ S - a ≥ 2 * 4 := by omega
  rw [if_neg hc, PACK_one hS]
  have e1 : FT (PUT m (bp - 4) (S + 1)) bp = bp + S - 8 := by
    unfold FT HD W_SIZE D_SIZE
    rw [GET_SIZE_of (GET_PUT_same (by omega)) hS (Nat.le_refl 1)]
  rw [e1]

theorem place_spec {m : Mem} {bp a S x : Nat} (hh : GET m (bp - 4) = S + x) (hx : x ≤ 1)
    (hS : S % 8 = 0) (hSlt : S < 4294967296) (ha8 : a % 8 = 0) (ha : 8 ≤ a) (haS : a ≤ S)
    (hbp : 4 ≤ bp) :
    Seg (place m bp a) bp (placeL S a) ∧
    ∀ y, y ≠ bp - 4 → (y < bp + a - 8 ∨ bp + S - 8 < y) → place m bp a y = m y := by
  by_cases hc : a + 8 ≤ S
  · rw [place_split_eq hh hx hS hSlt ha8 ha hc hbp]
    have hp : placeL S a = [(a, 1), (S - a, 0)] := by
      unfold placeL; rw [if_pos (by omega)]
    rw [hp]
    refine ⟨?_, ?_⟩
    · refine ⟨ha, ha8, Nat.le_refl 1, ?_, ?_, by omega, by omega, by omega, ?_, ?_, trivial⟩
      · rw [GET_PUT_ne (by omega), GET_PUT_ne (by omega), GET_PUT_ne (by omega),
          GET_PUT_same (by omega)]
      · rw [GET_PUT_ne (by omega), GET_PUT_ne (by omega), GET_PUT_same (by omega)]
      · show GET _ (bp + a - 4) = S - a + 0
        rw [GET_PUT_ne (by omega), GET_PUT_same (by omega)]; rfl
      · show GET _ (bp + a + (S - a) - 8) = S - a + 0
        have : bp + a + (S - a) - 8 = bp + S - 8 := by omega
        rw [this, GET_PUT_same (by omega)]; rfl
    · intro y h1 h2
      rw [PUT_ne (by omega), PUT_ne (by omega), PUT_ne (by omega), PUT_ne h1]
  · have hSa : S = a := by omega
    rw [place_whole_eq hh hx hS hSlt haS (by omega)]
    have hp : placeL S a = [(S, 1)] := by
      unfold placeL; rw [if_neg (by omega)]
    rw [hp]
    refine ⟨?_, ?_⟩
    · refine ⟨by omega, hS, Nat.le_refl 1, ?_, ?_, trivial⟩
      · rw [GET_PUT_ne (by omega), GET_PUT_same (by omega)]
      · rw [GET_PUT_same (by omega)]
    · intro y h1 h2
      subst hSa
      rw [PUT_ne (by omega), PUT_ne h1]

/-! ## The effect of `coalesce` -/

theorem coalesce_11 {m : Mem} {ptr ps S ns : Nat}
    (hpf : GET m (ptr - 8) = ps + 1) (hph : GET m (ptr - ps - 4) = ps + 1)
    (hps8 : ps % 8 = 0) (hps : 8 ≤ ps) (hptr : ps + 4 ≤ ptr)
    (hch : GET m (ptr - 4) = S) (hS8 : S % 8 = 0)
    (hnh : GET m (ptr + S - 4) = ns + 1) (hns8 : ns % 8 = 0) :
    coalesce m ptr = (ptr, m) := by
  have hS0 : GET m (ptr - 4) = S + 0 := hch
  have e1 : PREV_PLACE m ptr = ptr - ps := by
    unfold PREV_PLACE D_SIZE; rw [GET_SIZE_of hpf hps8 (Nat.le_refl 1)]
  have e2 : FT m (ptr - ps) = ptr - 8 := by
    unfold FT HD W_SIZE D_SIZE; rw [GET_SIZE_of hph hps8 (Nat.le_refl 1)]; omega
  have e3 : NEXT_PLACE m ptr = ptr + S := by
    unfold NEXT_PLACE W_SIZE; rw [GET_SIZE_of hS0 hS8 (by omega)]
  have e4 : GET_ALLOC m (ptr - 8) = 1 := GET_ALLOC_of hpf hps8 (Nat.le_refl 1)
  have e5 : GET_ALLOC m (ptr + S - 4) = 1 := GET_ALLOC_of hnh hns8 (Nat.le_refl 1)
  unfold coalesce
  simp only [e1, e2, e3, HD, W_SIZE, e4, e5]
  simp

theorem coalesce_10 {m : Mem} {ptr ps S ns : Nat}
    (hpf : GET m (ptr - 8) = ps + 1) (hph : GET m (ptr - ps - 4) = ps + 1)
    (hps8 : ps % 8 = 0) (hps : 8 ≤ ps) (hptr : ps + 4 ≤ ptr)
    (hch : GET m (ptr - 4) = S) (hS8 : S % 8 = 0)
    (hnh : GET m (ptr + S - 4) = ns) (hns8 : ns % 8 = 0)
    (hb : S + ns < 4294967296) :
    coalesce m ptr = (ptr, PUT (PUT m (ptr - 4) (S + ns)) (ptr + S + ns - 8) (S + ns)) := by
  have hS0 : GET m (ptr - 4) = S + 0 := hch
  have hn0 : GET m (ptr + S - 4) = ns + 0 := hnh
  have e1 : PREV_PLACE m ptr = ptr - ps := by
    unfold PREV_PLACE D_SIZE; rw [GET_SIZE_of hpf hps8 (Nat.le_refl 1)]
  have e2 : FT m (ptr - ps) = ptr - 8 := by
    unfold FT HD W_SIZE D_SIZE; rw [GET_SIZE_of hph hps8 (Nat.le_refl 1)]; omega
  have e3 : NEXT_PLACE m ptr = ptr + S := by
    unfold NEXT_PLACE W_SIZE; rw [GET_SIZE_of hS0 hS8 (by omega)]
  have e4 : GET_ALLOC m (ptr - 8) = 1 := GET_ALLOC_of hpf hps8 (Nat.le_refl 1)
  have e5 : GET_ALLOC m (ptr + S - 4) = 0 := GET_ALLOC_of hn0 hns8 (by omega)
  have e6 : GET_SIZE m (ptr - 4) = S := GET_SIZE_of hS0 hS8 (by omega)
  have e7 : GET_SIZE m (ptr + S - 4) = ns := GET_SIZE_of hn0 hns8 (by omega)
  have esz : (S + ns) % 4294967296 = S + ns := Nat.mod_eq_of_lt hb
  have e8 : FT (PUT m (ptr - 4) (S + ns)) ptr = ptr + S + ns - 8 := by
    unfold FT HD W_SIZE D_SIZE
    rw [GET_SIZE_of (a := 0) (by rw [GET_PUT_same hb, Nat.add_zero]) (by omega) (by omega)]
    omega
  unfold coalesce
  simp only [e1, e2, e3, HD, W_SIZE, e4, e5, e6, e7, UINT, PACK_zero, esz, e8]
  simp

theorem coalesce_01 {m : Mem} {ptr ps S ns : Nat}
    (hpf : GET m (ptr - 8) = ps) (hph : GET m (ptr - ps - 4) = ps)
    (hps8 : ps % 8 = 0) (hps : 8 ≤ ps) (hptr : ps + 4 ≤ ptr)
    (hch : GET m (ptr - 4) = S) (hS8 : S % 8 = 0) (hS : 8 ≤ S)
    (hnh : GET m (ptr + S - 4) = ns + 1) (hns8 : ns % 8 = 0)
    (hb : ps + S < 4294967296) :
    coalesce m ptr =
      (ptr - ps, PUT (PUT m (ptr + S - 8) (ps + S)) (ptr - ps - 4) (ps + S)) := by
  have hS0 : GET m (ptr - 4) = S + 0 := hch
  have hp0 : GET m (ptr - 8) = ps + 0 := hpf
  have hq0 : GET m (ptr - ps - 4) = ps + 0 := hph
  have e1 : PREV_PLACE m ptr = ptr - ps := by
    unfold PREV_PLACE D_SIZE; rw [GET_SIZE_of hp0 hps8 (by omega)]
  have e2 : FT m (ptr - ps) = ptr - 8 := by
    unfold FT HD W_SIZE D_SIZE; rw [GET_SIZE_of hq0 hps8 (by omega)]; omega
  have e3 : NEXT_PLACE m ptr = ptr + S := by
    unfold NEXT_PLACE W_SIZE; rw [GET_SIZE_of hS0 hS8 (by omega)]
  have e4 : GET_ALLOC m (ptr - 8) = 0 := GET_ALLOC_of hp0 hps8 (by omega)
  have e5 : GET_ALLOC m (ptr + S - 4) = 1 := GET_ALLOC_of hnh hns8 (Nat.le_refl 1)
  have e6 : GET_SIZE m (ptr - 4) = S := GET_SIZE_of hS0 hS8 (by omega)
  have e7 : GET_SIZE m (ptr - 8) = ps := GET_SIZE_of hp0 hps8 (by omega)
  have esz : (S + ps) % 4294967296 = ps + S := by omega
  have e8 : FT m ptr = ptr + S - 8 := by unfold FT HD W_SIZE D_SIZE; rw [e6]
  have e9 : PREV_PLACE (PUT m (ptr + S - 8) (ps + S)) ptr = ptr - ps := by
    unfold PREV_PLACE D_SIZE
    rw [GET_SIZE_of (a := 0) (by rw [GET_PUT_ne (by omega), hpf, Nat.add_zero]) hps8 (by omega)]
  have e10 : PREV_PLACE (PUT (PUT m (ptr + S - 8) (ps + S)) (ptr - ps - 4) (ps + S)) ptr
      = ptr - ps := by
    unfold PREV_PLACE D_SIZE
    rw [GET_SIZE_of (a := 0)
      (by rw [GET_PUT_ne (by omega), GET_PUT_ne (by omega), hpf, Nat.add_zero]) hps8 (by omega)]
  unfold coalesce
  simp only [e1, e2, e3, HD, W_SIZE, e4, e5, e6, e7, UINT, PACK_zero, esz, e8, e9, e10]
  simp

theorem coalesce_00 {m : Mem} {ptr ps S ns : Nat}
    (hpf : GET m (ptr - 8) = ps) (hph : GET m (ptr - ps - 4) = ps)
    (hps8 : ps % 8 = 0) (hps : 8 ≤ ps) (hptr : ps + 4 ≤ ptr)
    (hch : GET m (ptr - 4) = S) (hS8 : S % 8 = 0) (hS : 8 ≤ S)
    (hnh : GET m (ptr + S - 4) = ns) (hns8 : ns % 8 = 0)
    (hnf : GET m (ptr + S + ns - 8) = ns)
    (hb : ps + S + ns < 4294967296) :
    coalesce m ptr =
      (ptr - ps,
        PUT (PUT m (ptr - ps - 4) (ps + S + ns)) (ptr + S + ns - 8) (ps + S + ns)) := by
  have hS0 : GET m (ptr - 4) = S + 0 := hch
  have hp0 : GET m (ptr - 8) = ps + 0 := hpf
  have hq0 : GET m (ptr - ps - 4) = ps + 0 := hph
  have hn0 : GET m (ptr + S - 4) = ns + 0 := hnh
  have hf0 : GET m (ptr + S + ns - 8) = ns + 0 := hnf
  have e1 : PREV_PLACE m ptr = ptr - ps := by
    unfold PREV_PLACE D_SIZE; rw [GET_SIZE_of hp0 hps8 (by omega)]
  have e2 : FT m (ptr - ps) = ptr - 8 := by
    unfold FT HD W_SIZE D_SIZE; rw [GET_SIZE_of hq0 hps8 (by omega)]; omega
  have e3 : NEXT_PLACE m ptr = ptr + S := by
    unfold NEXT_PLACE W_SIZE; rw [GET_SIZE_of hS0 hS8 (by omega)]
  have e4 : GET_ALLOC m (ptr - 8) = 0 := GET_ALLOC_of hp0 hps8 (by omega)
  have e5 : GET_ALLOC m (ptr + S - 4) = 0 := GET_ALLOC_of hn0 hns8 (by omega)
  have e6 : GET_SIZE m (ptr - 4) = S := GET_SIZE_of hS0 hS8 (by omega)
  have e7 : GET_SIZE m (ptr - ps - 4) = ps := GET_SIZE_of hq0 hps8 (by omega)
  have e8 : FT m (ptr + S) = ptr + S + ns - 8 := by
    unfold FT HD W_SIZE D_SIZE; rw [GET_SIZE_of hn0 hns8 (by omega)]
  have e9 : GET_SIZE m (ptr + S + ns - 8) = ns := GET_SIZE_of hf0 hns8 (by omega)
  have esz : (S + (ps + ns) % 4294967296) % 4294967296 = ps + S + ns := by omega
  have e10 : NEXT_PLACE (PUT m (ptr - ps - 4) (ps + S + ns)) ptr = ptr + S := by
    unfold NEXT_PLACE W_SIZE
    rw [GET_SIZE_of (a := 0) (by rw [GET_PUT_ne (by omega), hch, Nat.add_zero]) hS8 (by omega)]
  have e11 : FT (PUT m (ptr - ps - 4) (ps + S + ns)) (ptr + S) = ptr + S + ns - 8 := by
    unfold FT HD W_SIZE D_SIZE
    rw [GET_SIZE_of (a := 0) (by rw [GET_PUT_ne (by omega), hnh, Nat.add_zero]) hns8 (by omega)]
  have e12 : PREV_PLACE (PUT (PUT m (ptr - ps - 4) (ps + S + ns)) (ptr + S + ns - 8)
      (ps + S + ns)) ptr = ptr - ps := by
    unfold PREV_PLACE D_SIZE
    rw [GET_SIZE_of (a := 0)
      (by rw [GET_PUT_ne (by omega), GET_PUT_ne (by omega), hpf, Nat.add_zero]) hps8 (by omega)]
  unfold coalesce
  simp only [e1, e2, e3, HD, W_SIZE, e4, e5, e6, e7, e8, e9, UINT, PACK_zero, esz, e10, e11, e12]
  simp

theorem Seg_single {m : Mem} {q sz a : Nat} (h1 : 8 ≤ sz) (h2 : sz % 8 = 0) (ha : a ≤ 1)
    (h3 : GET m (q - 4) = sz + a) (h4 : GET m (q + sz - 8) = sz + a) : Seg m q [(sz, a)] :=
  ⟨h1, h2, ha, h3, h4, trivial⟩

theorem next_cases {m : Mem} {q : Nat} {rest : Blocks} (hseg : Seg m q rest)
    (hepi : GET m (q + total rest - 4) = 1) :
    (nextFree rest = 0 ∧ restAfter rest = rest ∧ ∃ ns, ns % 8 = 0 ∧ GET m (q - 4) = ns + 1) ∨
    (∃ ns post, rest = (ns, 0) :: post ∧ nextFree rest = ns ∧ restAfter rest = post ∧
      8 ≤ ns ∧ ns % 8 = 0 ∧ GET m (q - 4) = ns ∧ GET m (q + ns - 8) = ns ∧
      Seg m (q + ns) post) := by
  cases rest with
  | nil =>
    refine Or.inl ⟨rfl, rfl, 0, rfl, ?_⟩
    simpa [total_nil] using hepi
  | cons b post =>
    obtain ⟨h1, h2, h3, h4, h5, h6⟩ := hseg
    have hb : b.2 = 0 ∨ b.2 = 1 := by omega
    rcases hb with hb | hb
    · refine Or.inr ⟨b.1, post, ?_, ?_, ?_, h1, h2, ?_, ?_, h6⟩
      · rw [← hb]
      · simp [nextFree, hb]
      · simp [restAfter, hb]
      · rw [h4, hb]; rfl
      · rw [h5, hb]; rfl
    · refine Or.inl ⟨?_, ?_, b.1, h2, ?_⟩
      · simp [nextFree, hb]
      · simp [restAfter, hb]
      · rw [h4, hb]

theorem coalesce_chain {m : Mem} {p0 : Nat} {pre : Blocks} {pb : Nat × Nat} {S : Nat}
    {rest : Blocks}
    (hseg : Seg m p0 (pre ++ pb :: (S, 0) :: rest))
    (hepi : GET m (p0 + total (pre ++ pb :: (S, 0) :: rest) - 4) = 1)
    (hp0 : 4 ≤ p0) (hb : total (pre ++ pb :: (S, 0) :: rest) < 4294967296) :
    (coalesce m (p0 + total pre + pb.1)).1 = p0 + total pre + pb.1 - prevFree pb ∧
    Seg (coalesce m (p0 + total pre + pb.1)).2 p0 (coalesceL pre pb S rest) ∧
    (∀ y, y ≠ p0 + total pre + pb.1 - prevFree pb - 4 →
      y ≠ p0 + total pre + pb.1 + S + nextFree rest - 8 →
      (coalesce m (p0 + total pre + pb.1)).2 y = m y) := by
  rw [Seg_append] at hseg
  obtain ⟨hpre, ⟨b1, b2, b3, b4, b5, c1, c2, _, c4, c5, hrest⟩⟩ := hseg
  simp only [total_append, total_cons] at hepi hb
  simp only [Nat.add_zero] at c4 c5
  dsimp only at c1 c2 hrest
  have hepi' : GET m (p0 + total pre + pb.1 + S + total rest - 4) = 1 := by
    rw [← hepi]; congr 1; omega
  have hph : GET m (p0 + total pre + pb.1 - pb.1 - 4) = pb.1 + pb.2 := by
    rw [← b4]; congr 1; omega
  have hpa : pb.2 = 0 ∨ pb.2 = 1 := by omega
  rcases next_cases hrest hepi' with ⟨n1, n2, ns, n3, n4⟩ |
      ⟨ns, post, n0, n1, n2, n3, n4, n5, n6, n7⟩
  · rcases hpa with hpa | hpa
    · -- predecessor free, successor allocated
      rw [hpa, Nat.add_zero] at b5 hph
      have hpf : prevFree pb = pb.1 := by simp [prevFree, hpa]
      have hcl : coalesceL pre pb S rest = pre ++ (pb.1 + S, 0) :: rest := by
        simp [coalesceL, hpa, hpf, n1, n2]
      rw [coalesce_01 b5 hph b2 b1 (by omega) c4 c2 c1 n4 n3 (by omega), hpf, hcl, n1]
      dsimp only
      refine ⟨rfl, ?_, ?_⟩
      · rw [Seg_append]
        refine ⟨Seg_frame hpre ?_, ⟨by omega, by omega, by omega, ?_, ?_, Seg_frame (m := m) ?_ ?_⟩⟩
        · intro y h1 h2
          rw [PUT_ne (by omega), PUT_ne (by omega)]
        · show GET _ _ = pb.1 + S + 0
          have : p0 + total pre - 4 = p0 + total pre + pb.1 - pb.1 - 4 := by omega
          rw [this, GET_PUT_same (by omega)]; rfl
        · show GET _ (p0 + total pre + (pb.1 + S) - 8) = pb.1 + S + 0
          have : p0 + total pre + (pb.1 + S) - 8 = p0 + total pre + pb.1 + S - 8 := by omega
          rw [this, GET_PUT_ne (by omega), GET_PUT_same (by omega)]; rfl
        · have : p0 + total pre + (pb.1 + S) = p0 + total pre + pb.1 + S := by omega
          show Seg m (p0 + total pre + (pb.1 + S)) rest
          rw [this]; exact hrest
        · intro y h1 h2
          dsimp only at h1 h2
          rw [PUT_ne (by omega), PUT_ne (by omega)]
      · intro y h1 h2
        rw [PUT_ne h1, PUT_ne (by omega)]
    · -- both neighbours allocated
      rw [hpa] at b5 hph
      have hpf : prevFree pb = 0 := by simp [prevFree, hpa]
      have hcl : coalesceL pre pb S rest = pre ++ pb :: (S, 0) :: rest := by
        simp [coalesceL, hpa, hpf, n1, n2]
      rw [coalesce_11 b5 hph b2 b1 (by omega) c4 c2 n4 n3, hpf, hcl]
      refine ⟨rfl, ?_, fun _ _ _ => rfl⟩
      rw [Seg_append]
      exact ⟨hpre, ⟨b1, b2, b3, b4, by rw [hpa]; exact b5, c1, c2, by omega, c4, c5, hrest⟩⟩
  · subst n0
    simp only [total_cons] at hb
    rcases hpa with hpa | hpa
    · -- both neighbours free
      rw [hpa, Nat.add_zero] at b5 hph
      have hpf : prevFree pb = pb.1 := by simp [prevFree, hpa]
      have hcl : coalesceL pre pb S ((ns, 0) :: post) = pre ++ (pb.1 + S + ns, 0) :: post := by
        simp [coalesceL, hpa, hpf, n1, n2]
      have n6' : GET m (p0 + total pre + pb.1 + S + ns - 8) = ns := n6
      rw [coalesce_00 b5 hph b2 b1 (by omega) c4 c2 c1 n5 n4 n6' (by omega), hpf, hcl, n1]
      dsimp only
      refine ⟨rfl, ?_, ?_⟩
      · rw [Seg_append]
        refine ⟨Seg_frame hpre ?_, ⟨by omega, by omega, by omega, ?_, ?_, Seg_frame (m := m) ?_ ?_⟩⟩
        · intro y h1 h2
          rw [PUT_ne (by omega), PUT_ne (by omega)]
        · show GET _ _ = pb.1 + S + ns + 0
          have : p0 + total pre - 4 = p0 + total pre + pb.1 - pb.1 - 4 := by omega
          rw [this, GET_PUT_ne (by omega), GET_PUT_same (by omega)]; rfl
        · show GET _ (p0 + total pre + (pb.1 + S + ns) - 8) = pb.1 + S + ns + 0
          have : p0 + total pre + (pb.1 + S + ns) - 8 = p0 + total pre + pb.1 + S + ns - 8 := by
            omega
          rw [this, GET_PUT_same (by omega)]; rfl
        · have : p0 + total pre + (pb.1 + S + ns) = p0 + total pre + pb.1 + S + ns := by omega
          show Seg m (p0 + total pre + (pb.1 + S + ns)) post
          rw [this]; exact n7
        · intro y h1 h2
          dsimp only at h1 h2
          rw [PUT_ne (by omega), PUT_ne (by omega)]
      · intro y h1 h2
        rw [PUT_ne h2, PUT_ne h1]
    · -- predecessor allocated, successor free
      rw [hpa] at b5 hph
      have hpf : prevFree pb = 0 := by simp [prevFree, hpa]
      have hcl : coalesceL pre pb S ((ns, 0) :: post) = pre ++ pb :: (S + ns, 0) :: post := by
        simp [coalesceL, hpa, hpf, n1, n2]
      rw [coalesce_10 b5 hph b2 b1 (by omega) c4 c2 n5 n4 (by omega), hpf, hcl, n1]
      dsimp only
      refine ⟨rfl, ?_, ?_⟩
      · rw [Seg_append]
        refine ⟨Seg_frame hpre ?_, ⟨b1, b2, b3, ?_, ?_, by omega, by omega, by omega, ?_, ?_,
          Seg_frame (m := m) ?_ ?_⟩⟩
        · intro y h1 h2
          rw [PUT_ne (by omega), PUT_ne (by omega)]
        · rw [GET_PUT_ne (by omega), GET_PUT_ne (by omega), b4]
        · rw [GET_PUT_ne (by omega), GET_PUT_ne (by omega), hpa, b5]
        · show GET _ _ = S + ns + 0
          rw [GET_PUT_ne (by omega), GET_PUT_same (by omega)]; rfl
        · show GET _ (p0 + total pre + pb.1 + (S + ns) - 8) = S + ns + 0
          have : p0 + total pre + pb.1 + (S + ns) - 8 = p0 + total pre + pb.1 + S + ns - 8 := by
            omega
          rw [this, GET_PUT_same (by omega)]; rfl
        · have : p0 + total pre + pb.1 + (S + ns) = p0 + total pre + pb.1 + S + ns := by omega
          show Seg m (p0 + total pre + pb.1 + (S + ns)) post
          rw [this]; exact n7
        · intro y h1 h2
          dsimp only at h1 h2
          rw [PUT_ne (by omega), PUT_ne (by omega)]
      · intro y h1 h2
        rw [PUT_ne h2, PUT_ne (by omega)]

theorem total_placeL {S a : Nat} (haS : a ≤ S) : total (placeL S a) = S := by
  unfold placeL
  split
  · simp only [total_cons, total_nil]; omega
  · simp only [total_cons, total_nil]; omega

theorem place_chain {m : Mem} {p0 : Nat} {pre post : Blocks} {S x a : Nat}
    (hpre : Seg m p0 pre) (hh : GET m (p0 + total pre - 4) = S + x) (hx : x ≤ 1)
    (hS8 : S % 8 = 0) (hSlt : S < 4294967296) (hpost : Seg m (p0 + total pre + S) post)
    (ha8 : a % 8 = 0) (ha : 8 ≤ a) (haS : a ≤ S) (hp0 : 4 ≤ p0) :
    Seg (place m (p0 + total pre) a) p0 (pre ++ placeL S a ++ post) ∧
    ∀ y, y ≠ p0 + total pre - 4 → (y < p0 + total pre + a - 8 ∨ p0 + total pre + S - 8 < y) →
      place m (p0 + total pre) a y = m y := by
  obtain ⟨h1, h2⟩ := place_spec hh hx hS8 hSlt ha8 ha haS (by omega)
  refine ⟨?_, h2⟩
  rw [Seg_append, Seg_append, total_append, total_placeL haS]
  refine ⟨⟨Seg_frame hpre ?_, h1⟩, Seg_frame (m := m) ?_ ?_⟩
  · intro y hy1 hy2
    exact h2 y (by omega) (by omega)
  · rw [← Nat.add_assoc]; exact hpost
  · intro y hy1 hy2
    exact h2 y (by omega) (by omega)

theorem coalesceL_total (pre : Blocks) (pb : Nat × Nat) (S x : Nat) (rest : Blocks) :
    total (coalesceL pre pb S rest) = total (pre ++ pb :: (S, x) :: rest) := by
  have hr : nextFree rest + total (restAfter rest) = total rest := by
    cases rest with
    | nil => rfl
    | cons b bs =>
      by_cases hb : b.2 = 0
      · simp [nextFree, restAfter, hb, total_cons]
      · simp [nextFree, restAfter, hb, total_cons]
  unfold coalesceL prevFree
  by_cases hp : pb.2 = 0
  · simp only [hp, if_true, total_append, total_cons, total_nil]; omega
  · simp only [hp, if_false, total_append, total_cons, total_nil]; omega

theorem head_prefix (pre : Blocks) (pb : Nat × Nat) (rest : Blocks) :
    (pre ++ pb :: rest).head? = (pre ++ [pb]).head? := by
  cases pre <;> simp

theorem coalesceL_head {pre : Blocks} {pb : Nat × Nat} {S : Nat} {rest : Blocks}
    (h : (pre ++ [pb]).head? = some (8, 1)) :
    (coalesceL pre pb S rest).head? = some (8, 1) := by
  cases pre with
  | nil =>
    simp only [List.nil_append, List.head?_cons, Option.some.injEq] at h
    subst h
    simp [coalesceL]
  | cons b bs =>
    simpa [coalesceL] using h

theorem nextFree_le (rest : Blocks) : nextFree rest ≤ total rest := by
  cases rest with
  | nil => exact Nat.le_refl 0
  | cons b bs =>
    rw [total_cons]
    by_cases hb : b.2 = 0
    · simp [nextFree, hb]
    · simp [nextFree, hb]

theorem prevFree_le (pb : Nat × Nat) : prevFree pb ≤ pb.1 := by
  unfold prevFree; split <;> omega

theorem mm_free_chain {s : Heap} {cs pre rest : Blocks} {pb : Nat × Nat} {S : Nat}
    (hwf : WF s cs) (hcs : cs = pre ++ pb :: (S, 1) :: rest) :
    WF (mm_free s (s.heap_head + total pre + pb.1)) (coalesceL pre pb S rest) ∧
    ∀ y, y ≠ s.heap_head + total pre + pb.1 - 4 → y ≠ s.heap_head + total pre + pb.1 + S - 8 →
      y ≠ s.heap_head + total pre + pb.1 - prevFree pb - 4 →
      y ≠ s.heap_head + total pre + pb.1 + S + nextFree rest - 8 →
      (mm_free s (s.heap_head + total pre + pb.1)).mem y = s.mem y := by
  subst hcs
  obtain ⟨w1, w2, w3, w4, w5, w6⟩ := hwf
  have hseg := w2
  rw [Seg_append] at hseg
  obtain ⟨hpre, ⟨b1, b2, b3, b4, b5, c1, c2, _, c4, c5, hrest⟩⟩ := hseg
  dsimp only at c1 c2 c4 c5 hrest
  have hT := w6
  simp only [total_append, total_cons, UINT] at hT w4
  have e1 : GET_SIZE s.mem (s.heap_head + total pre + pb.1 - 4) = S :=
    GET_SIZE_of c4 c2 (Nat.le_refl 1)
  have e2 : FT (PUT s.mem (s.heap_head + total pre + pb.1 - 4) S)
      (s.heap_head + total pre + pb.1) = s.heap_head + total pre + pb.1 + S - 8 := by
    unfold FT HD W_SIZE D_SIZE
    rw [GET_SIZE_of (a := 0) (by rw [GET_PUT_same (by omega), Nat.add_zero]) c2 (by omega)]
  have hm : (mm_free s (s.heap_head + total pre + pb.1)).mem =
      (coalesce (PUT (PUT s.mem (s.heap_head + total pre + pb.1 - 4) S)
        (s.heap_head + total pre + pb.1 + S - 8) S) (s.heap_head + total pre + pb.1)).2 := by
    unfold mm_free
    simp only [HD, W_SIZE, e1, PACK_zero, e2]
  have hseg2 : Seg (PUT (PUT s.mem (s.heap_head + total pre + pb.1 - 4) S)
      (s.heap_head + total pre + pb.1 + S - 8) S) s.heap_head
      (pre ++ pb :: (S, 0) :: rest) := by
    rw [Seg_append]
    refine ⟨Seg_frame hpre ?_, ⟨b1, b2, b3, ?_, ?_, c1, c2, by omega, ?_, ?_,
      Seg_frame hrest ?_⟩⟩
    · intro y h1 h2
      rw [PUT_ne (by omega), PUT_ne (by omega)]
    · rw [GET_PUT_ne (by omega), GET_PUT_ne (by omega), b4]
    · rw [GET_PUT_ne (by omega), GET_PUT_ne (by omega), b5]
    · show GET _ _ = S + 0
      rw [GET_PUT_ne (by omega), GET_PUT_same (by omega)]; rfl
    · show GET _ _ = S + 0
      rw [GET_PUT_same (by omega)]; rfl
    · intro y h1 h2
      rw [PUT_ne (by omega), PUT_ne (by omega)]
  have hepi2 : GET (PUT (PUT s.mem (s.heap_head + total pre + pb.1 - 4) S)
      (s.heap_head + total pre + pb.1 + S - 8) S)
      (s.heap_head + total (pre ++ pb :: (S, 0) :: rest) - 4) = 1 := by
    simp only [total_append, total_cons]
    rw [GET_PUT_ne (by omega), GET_PUT_ne (by omega), ← w3, ← w4]
  have hb2 : total (pre ++ pb :: (S, 0) :: rest) < 4294967296 := by
    simp only [total_append, total_cons]; omega
  obtain ⟨k1, k2, k3⟩ := coalesce_chain hseg2 hepi2 (by omega) hb2
  have hnf := nextFree_le rest
  have hpf := prevFree_le pb
  refine ⟨⟨coalesceL_head (by rw [← head_prefix]; exact w1), ?_, ?_, ?_, w5, ?_⟩, ?_⟩
  · rw [hm]; exact k2
  · show GET (mm_free s _).mem (s.brk - 4) = 1
    rw [hm, GET_congr (k3 _ (by omega) (by omega)), GET_PUT_ne (by omega), GET_PUT_ne (by omega)]
    exact w3
  · show s.heap_head + total (coalesceL pre pb S rest) = s.brk
    rw [coalesceL_total pre pb S 1 rest]
    simp only [total_append, total_cons]; omega
  · rw [coalesceL_total pre pb S 1 rest]; exact w6
  · intro y h1 h2 h3 h4
    rw [hm, k3 y h3 h4, PUT_ne h2, PUT_ne h1]

theorem ext_mem_eq {m : Mem} {bp size : Nat} (h8 : 8 ≤ size) (hs8 : size % 8 = 0)
    (hlt : size < 4294967296) (hbp : 4 ≤ bp) :
    ext_mem m bp size = PUT (PUT (PUT m (bp - 4) size) (bp + size - 8) size) (bp + size - 4) 1 := by
  have e1 : FT (PUT m (bp - 4) size) bp = bp + size - 8 := by
    unfold FT HD W_SIZE D_SIZE
    rw [GET_SIZE_of (a := 0) (by rw [GET_PUT_same hlt, Nat.add_zero]) hs8 (by omega)]
  have e2 : NEXT_PLACE (PUT (PUT m (bp - 4) size) (bp + size - 8) size) bp = bp + size := by
    unfold NEXT_PLACE W_SIZE
    rw [GET_SIZE_of (a := 0) (by rw [GET_PUT_ne (by omega), GET_PUT_same hlt, Nat.add_zero])
      hs8 (by omega)]
  have e3 : PACK 0 1 = 1 := rfl
  unfold ext_mem
  simp only [HD, W_SIZE, PACK_zero, e1, e2, e3]

theorem extend_heap_chain {s : Heap} {cs pre : Blocks} {pb : Nat × Nat} {words : Nat}
    (hwf : WF s cs) (hcs : cs = pre ++ [pb]) (hg : Grants s (ext_bytes words))
    (h8 : 8 ≤ ext_bytes words) (hb : total cs + ext_bytes words < 4294967296) :
    (extend_heap s words).1 = s.brk - prevFree pb ∧
    WF (extend_heap s words).2 (coalesceL pre pb (ext_bytes words) []) ∧
    (extend_heap s words).2.heap_head = s.heap_head ∧
    (extend_heap s words).2.limit = s.limit ∧
    (extend_heap s words).2.brk = s.brk + ext_bytes words ∧
    ∀ y, y + 4 < s.brk - prevFree pb → (extend_heap s words).2.mem y = s.mem y := by
  subst hcs
  obtain ⟨w1, w2, w3, w4, w5, w6⟩ := hwf
  have hseg := w2
  rw [Seg_append] at hseg
  obtain ⟨hpre, ⟨b1, b2, b3, b4, b5, _⟩⟩ := hseg
  simp only [total_append, total_cons, total_nil, Nat.add_zero] at hb w4
  have hs8 := ext_bytes_mod8 words
  have hbrk : s.brk = s.heap_head + total pre + pb.1 := by omega
  rw [extend_heap_grant hg, ext_mem_eq h8 hs8 (by omega) (by omega)]
  dsimp only
  generalize ext_bytes words = size at *
  rw [hbrk]
  have hseg2 : Seg (PUT (PUT (PUT s.mem (s.heap_head + total pre + pb.1 - 4) size)
      (s.heap_head + total pre + pb.1 + size - 8) size)
      (s.heap_head + total pre + pb.1 + size - 4) 1) s.heap_head
      (pre ++ pb :: (size, 0) :: []) := by
    rw [Seg_append]
    refine ⟨Seg_frame hpre ?_, ⟨b1, b2, b3, ?_, ?_, h8, hs8, by omega, ?_, ?_, trivial⟩⟩
    · intro y h1 h2
      rw [PUT_ne (by omega), PUT_ne (by omega), PUT_ne (by omega)]
    · rw [GET_PUT_ne (by omega), GET_PUT_ne (by omega), GET_PUT_ne (by omega), b4]
    · rw [GET_PUT_ne (by omega), GET_PUT_ne (by omega), GET_PUT_ne (by omega), b5]
    · show GET _ _ = size + 0
      rw [GET_PUT_ne (by omega), GET_PUT_ne (by omega), GET_PUT_same (by omega)]; rfl
    · show GET _ _ = size + 0
      rw [GET_PUT_ne (by omega), GET_PUT_same (by omega)]; rfl
  have hepi2 : GET (PUT (PUT (PUT s.mem (s.heap_head + total pre + pb.1 - 4) size)
      (s.heap_head + total pre + pb.1 + size - 8) size)
      (s.heap_head + total pre + pb.1 + size - 4) 1)
      (s.heap_head + total (pre ++ pb :: (size, 0) :: []) - 4) = 1 := by
    simp only [total_append, total_cons, total_nil, Nat.add_zero]
    have : s.heap_head + (total pre + (pb.1 + size)) - 4 =
        s.heap_head + total pre + pb.1 + size - 4 := by omega
    rw [this, GET_PUT_same (by omega)]
  have hb2 : total (pre ++ pb :: (size, 0) :: []) < 4294967296 := by
    simp only [total_append, total_cons, total_nil]; omega
  obtain ⟨k1, k2, k3⟩ := coalesce_chain hseg2 hepi2 (by omega) hb2
  have hpf := prevFree_le pb
  have hnf : nextFree [] = 0 := rfl
  rw [hnf] at k3
  refine ⟨k1, ⟨coalesceL_head w1, k2, ?_, ?_, w5, ?_⟩, rfl, rfl, rfl, ?_⟩
  · show GET _ (s.heap_head + total pre + pb.1 + size - 4) = 1
    rw [GET_congr (k3 _ (by omega) (by omega)), GET_PUT_same (by omega)]
  · show s.heap_head + total (coalesceL pre pb size []) = s.heap_head + total pre + pb.1 + size
    rw [coalesceL_total pre pb size 0 []]
    simp only [total_append, total_cons, total_nil]; omega
  · rw [coalesceL_total pre pb size 0 []]; exact hb2
  · intro y hy
    rw [k3 y (by omega) (by omega), PUT_ne (by omega), PUT_ne (by omega), PUT_ne (by omega)]

/-! ## Block sequences: addresses, live blocks -/

theorem layout_nil (p : Nat) : layout p [] = [] := rfl

theorem layout_cons (p : Nat) (b : Nat × Nat) (bs : Blocks) :
    layout p (b :: bs) = (p, b.1, b.2) :: layout (p + b.1) bs := rfl

theorem layout_append (p : Nat) (xs ys : Blocks) :
    layout p (xs ++ ys) = layout p xs ++ layout (p + total xs) ys := by
  induction xs generalizing p with
  | nil => simp [layout_nil, total_nil]
  | cons b bs ih =>
    rw [List.cons_append, layout_cons, layout_cons, total_cons, ih, ← Nat.add_assoc]
    rfl

theorem mem_layout {p q S a : Nat} {cs : Blocks} (h : (q, S, a) ∈ layout p cs) :
    ∃ pre post, cs = pre ++ (S, a) :: post ∧ q = p + total pre := by
  induction cs generalizing p with
  | nil => simp [layout_nil] at h
  | cons b bs ih =>
    rw [layout_cons] at h
    rcases List.mem_cons.1 h with h | h
    · simp only [Prod.mk.injEq] at h
      obtain ⟨rfl, rfl, rfl⟩ := h
      exact ⟨[], bs, rfl, rfl⟩
    · obtain ⟨pre, post, e1, e2⟩ := ih h
      refine ⟨b :: pre, post, by rw [e1]; rfl, ?_⟩
      rw [total_cons]; omega

theorem mem_layout_mid (p : Nat) (pre post : Blocks) (S a : Nat) :
    (p + total pre, S, a) ∈ layout p (pre ++ (S, a) :: post) := by
  rw [layout_append, layout_cons]
  exact List.mem_append_right _ (List.mem_cons_self _ _)

theorem LiveIn_split {base q : Nat} {cs : Blocks} (h : LiveIn base cs q) :
    ∃ pre pb S rest, cs = pre ++ pb :: (S, 1) :: rest ∧ q = base + total pre + pb.1 := by
  obtain ⟨hne, S, hmem⟩ := h
  obtain ⟨pre, post, e1, e2⟩ := mem_layout hmem
  rcases List.eq_nil_or_concat pre with hp | ⟨pre2, pb, hp⟩
  · subst hp
    simp only [total_nil, Nat.add_zero] at e2
    exact absurd e2 hne
  · subst hp
    rw [List.concat_eq_append] at e1 e2
    refine ⟨pre2, pb, S, post, by rw [e1]; simp, ?_⟩
    rw [e2, total_append, total_cons, total_nil]; omega

theorem LiveIn_mid {base : Nat} {pre post : Blocks} {S : Nat} (hpos : 0 < total pre) :
    LiveIn base (pre ++ (S, 1) :: post) (base + total pre) :=
  ⟨by omega, S, mem_layout_mid base pre post S 1⟩

/-- Membership of an allocated entry survives when the blocks around it stay and
the blocks in between are replaced by blocks of the same total size that keep the
allocated addresses. -/
theorem LiveIn_replace {base q : Nat} {pre mid mid2 post : Blocks}
    (htot : total mid2 = total mid)
    (hmid : ∀ S, (q, S, 1) ∈ layout (base + total pre) mid →
      ∃ S2, (q, S2, 1) ∈ layout (base + total pre) mid2)
    (h : LiveIn base (pre ++ mid ++ post) q) : LiveIn base (pre ++ mid2 ++ post) q := by
  obtain ⟨hne, S, hmem⟩ := h
  refine ⟨hne, ?_⟩
  rw [layout_append, layout_append, List.mem_append, List.mem_append] at hmem
  rcases hmem with (hmem | hmem) | hmem
  · exact ⟨S, by rw [layout_append, layout_append]; simp [hmem]⟩
  · obtain ⟨S2, h2⟩ := hmid S hmem
    exact ⟨S2, by rw [layout_append, layout_append]; simp [h2]⟩
  · refine ⟨S, ?_⟩
    rw [layout_append, layout_append, total_append, htot, ← total_append]
    simp [hmem]

theorem LiveIn_place {base q : Nat} {pre post : Blocks} {S x a : Nat} (haS : a ≤ S)
    (h : LiveIn base (pre ++ (S, x) :: post) q) :
    LiveIn base (pre ++ placeL S a ++ post) q := by
  have h2 : LiveIn base (pre ++ [(S, x)] ++ post) q := by simpa using h
  refine LiveIn_replace (by rw [total_placeL haS]; rfl) ?_ h2
  intro S1 hm
  simp only [layout_cons, layout_nil, List.mem_singleton, Prod.mk.injEq] at hm
  obtain ⟨rfl, rfl, rfl⟩ := hm
  unfold placeL
  split
  · exact ⟨a, by simp [layout_cons]⟩
  · exact ⟨S1, by simp [layout_cons]⟩

theorem LiveIn_place_new {base : Nat} {pre post : Blocks} {S a : Nat} (hpos : 0 < total pre) :
    LiveIn base (pre ++ placeL S a ++ post) (base + total pre) := by
  refine ⟨by omega, ?_⟩
  unfold placeL
  split
  · exact ⟨a, by rw [layout_append, layout_append]; simp [layout_cons]⟩
  · exact ⟨S, by rw [layout_append, layout_append]; simp [layout_cons]⟩

theorem LiveIn_grow {base q : Nat} {pre post : Blocks} {S ns a : Nat} (haS : a ≤ S + ns)
    (h : LiveIn base (pre ++ (S, 1) :: (ns, 0) :: post) q) :
    LiveIn base (pre ++ placeL (S + ns) a ++ post) q := by
  have h2 : LiveIn base (pre ++ [(S, 1), (ns, 0)] ++ post) q := by simpa using h
  refine LiveIn_replace (by rw [total_placeL haS]; simp [total_cons, total_nil]) ?_ h2
  intro S1 hm
  simp only [layout_cons, layout_nil, List.mem_cons, Prod.mk.injEq, List.mem_singleton,
    List.not_mem_nil, or_false] at hm
  rcases hm with ⟨rfl, rfl, _⟩ | ⟨_, _, h0⟩
  · unfold placeL
    split
    · exact ⟨a, by simp [layout_cons]⟩
    · exact ⟨S1 + ns, by simp [layout_cons]⟩
  · simp at h0

theorem mem_layout_coalesceL {base q S1 : Nat} {pre rest : Blocks} {pb : Nat × Nat}
    {S x : Nat} (hmem : (q, S1, 1) ∈ layout base (pre ++ pb :: (S, x) :: rest))
    (hq : x = 1 → q ≠ base + total pre + pb.1) :
    (q, S1, 1) ∈ layout base (coalesceL pre pb S rest) := by
  rw [layout_append, layout_cons, layout_cons] at hmem
  simp only [List.mem_append, List.mem_cons, Prod.mk.injEq] at hmem
  unfold coalesceL
  rcases hmem with hmem | ⟨rfl, rfl, hpb⟩ | ⟨rfl, _, hx⟩ | hmem
  · rw [layout_append, layout_append]; simp [hmem]
  · have : ¬ pb.2 = 0 := by omega
    rw [if_neg this, layout_append, layout_append]
    simp [layout_cons, hpb]
  · exact absurd rfl (hq hx.symm)
  · cases rest with
    | nil => simp [layout_nil] at hmem
    | cons b bs =>
      rw [layout_cons] at hmem
      simp only [List.mem_cons, Prod.mk.injEq] at hmem
      have hpf := prevFree_le pb
      by_cases hb : b.2 = 0
      · rcases hmem with ⟨_, _, h1⟩ | hmem
        · omega
        · simp only [nextFree, restAfter, hb, if_true]
          rw [layout_append, layout_cons]
          refine List.mem_append_right _ (List.mem_cons_of_mem _ ?_)
          convert hmem using 2
          rw [total_append]
          unfold prevFree
          split
          · simp [total_nil]; omega
          · rename_i h2; simp [total_cons, total_nil, h2]; omega
      · simp only [nextFree, restAfter, hb, if_false]
        rw [layout_append, layout_cons, layout_cons]
        refine List.mem_append_right _ (List.mem_cons_of_mem _ ?_)
        have e : base + total (pre ++ if pb.2 = 0 then [] else [pb]) + (prevFree pb + S + 0, 0).1 =
            base + total pre + pb.1 + S := by
          rw [total_append]
          unfold prevFree
          split
          · simp [total_nil]; omega
          · simp [total_cons, total_nil]; omega
        rw [e, List.mem_cons]
        rcases hmem with ⟨h1, h2, h3⟩ | hmem
        · exact Or.inl (by rw [h1, h2, h3])
        · exact Or.inr hmem

theorem LiveIn_coalesceL {base q : Nat} {pre rest : Blocks} {pb : Nat × Nat} {S x : Nat}
    (h : LiveIn base (pre ++ pb :: (S, x) :: rest) q)
    (hq : x = 1 → q ≠ base + total pre + pb.1) : LiveIn base (coalesceL pre pb S rest) q := by
  obtain ⟨hne, S1, hmem⟩ := h
  exact ⟨hne, S1, mem_layout_coalesceL hmem hq⟩

/-! ## Block sequences: adjacent free blocks -/

theorem NoAdj_split (pre post : Blocks) (x : Nat × Nat) :
    NoAdj (pre ++ x :: post) ↔ NoAdj (pre ++ [x]) ∧ NoAdj (x :: post) :=
  List.chain'_split

theorem NoAdj_left {pre : Blocks} {x : Nat × Nat} (h : NoAdj (pre ++ [x])) : NoAdj pre :=
  List.Chain'.left_of_append h

theorem NoAdj_tail {x : Nat × Nat} {post : Blocks} (h : NoAdj (x :: post)) : NoAdj post :=
  List.Chain'.tail h

theorem NoAdj_cons_alloc {y : Nat × Nat} {post : Blocks} (h : NoAdj post) (hy : y.2 ≠ 0) :
    NoAdj (y :: post) := by
  cases post with
  | nil => exact List.chain'_singleton _
  | cons b bs => exact List.chain'_cons.2 ⟨fun hh => hy hh.1, h⟩

theorem NoAdj_snoc_alloc {pre : Blocks} {y : Nat × Nat} (h : NoAdj pre) (hy : y.2 ≠ 0) :
    NoAdj (pre ++ [y]) := by
  refine List.chain'_append.2 ⟨h, List.chain'_singleton _, ?_⟩
  intro a _ b hb
  simp only [List.head?_cons, Option.mem_def, Option.some.injEq] at hb
  subst hb
  exact fun hh => hy hh.2

theorem NoAdj_cons_congr {x y : Nat × Nat} {post : Blocks} (h : NoAdj (x :: post))
    (hxy : y.2 = x.2) : NoAdj (y :: post) := by
  cases post with
  | nil => exact List.chain'_singleton _
  | cons b bs =>
    obtain ⟨h1, h2⟩ := List.chain'_cons.1 h
    exact List.chain'_cons.2 ⟨by rw [hxy]; exact h1, h2⟩

theorem NoAdj_snoc_congr {x y : Nat × Nat} {pre : Blocks} (h : NoAdj (pre ++ [x]))
    (hxy : y.2 = x.2) : NoAdj (pre ++ [y]) := by
  obtain ⟨h1, _, h3⟩ := List.chain'_append.1 h
  refine List.chain'_append.2 ⟨h1, List.chain'_singleton _, ?_⟩
  intro a ha b hb
  simp only [List.head?_cons, Option.mem_def, Option.some.injEq] at hb
  subst hb
  have := h3 a ha x (by simp)
  rw [hxy]; exact this

theorem NoAdj_placeL {pre post : Blocks} {S a : Nat}
    (h : NoAdj (pre ++ (S, 0) :: post)) : NoAdj (pre ++ placeL S a ++ post) := by
  obtain ⟨h1, h2⟩ := (NoAdj_split _ _ _).1 h
  unfold placeL
  split
  · have : pre ++ [(a, 1), (S - a, 0)] ++ post = pre ++ (a, 1) :: ((S - a, 0) :: post) := by simp
    rw [this, NoAdj_split]
    refine ⟨NoAdj_snoc_alloc (NoAdj_left h1) (by simp), ?_⟩
    exact NoAdj_cons_alloc (NoAdj_cons_congr h2 rfl) (by simp)
  · have : pre ++ [(S, 1)] ++ post = pre ++ (S, 1) :: post := by simp
    rw [this, NoAdj_split]
    exact ⟨NoAdj_snoc_alloc (NoAdj_left h1) (by simp), NoAdj_cons_alloc (NoAdj_tail h2) (by simp)⟩

theorem Seg_sizes {m : Mem} {p : Nat} {cs : Blocks} (h : Seg m p cs) :
    ∀ b ∈ cs, 8 ≤ b.1 ∧ b.1 % 8 = 0 ∧ b.2 ≤ 1 := by
  induction cs generalizing p with
  | nil => simp
  | cons c cs ih =>
    intro b hb
    rcases List.mem_cons.1 hb with rfl | hb
    · exact ⟨h.1, h.2.1, h.2.2.1⟩
    · exact ih h.2.2.2.2.2 b hb

theorem NoAdj_coalesceL {pre rest : Blocks} {pb : Nat × Nat} {S x : Nat}
    (h : NoAdj (pre ++ pb :: (S, x) :: rest)) : NoAdj (coalesceL pre pb S rest) := by
  obtain ⟨h1, h2⟩ := (NoAdj_split _ _ _).1 h
  have h3 : NoAdj rest := NoAdj_tail (NoAdj_tail h2)
  -- the part after the merged block
  have hright : ∀ y : Nat × Nat, y.2 = 0 → NoAdj (y :: restAfter rest) := by
    intro y hy
    cases rest with
    | nil => exact List.chain'_singleton _
    | cons b bs =>
      by_cases hb : b.2 = 0
      · simp only [restAfter, hb, if_true]
        exact NoAdj_cons_congr h3 (by rw [hy, hb])
      · simp only [restAfter, hb, if_false]
        exact List.chain'_cons.2 ⟨fun hh => hb hh.2, h3⟩
  unfold coalesceL
  by_cases hp : pb.2 = 0
  · simp only [hp, if_true, List.append_nil]
    rw [NoAdj_split]
    exact ⟨NoAdj_snoc_congr h1 (by rw [hp]), hright _ rfl⟩
  · simp only [hp, if_false, List.append_assoc, List.singleton_append]
    rw [NoAdj_split]
    exact ⟨h1, List.chain'_cons.2 ⟨fun hh => hp hh.1, hright _ rfl⟩⟩

theorem NoAdj_grow {pre post : Blocks} {S ns a : Nat}
    (h : NoAdj (pre ++ (S, 1) :: (ns, 0) :: post)) :
    NoAdj (pre ++ placeL (S + ns) a ++ post) := by
  obtain ⟨h1, h2⟩ := (NoAdj_split _ _ _).1 h
  have h3 : NoAdj ((ns, 0) :: post) := NoAdj_tail h2
  unfold placeL
  split
  · have : pre ++ [(a, 1), (S + ns - a, 0)] ++ post =
        pre ++ (a, 1) :: ((S + ns - a, 0) :: post) := by simp
    rw [this, NoAdj_split]
    exact ⟨NoAdj_snoc_congr h1 rfl, NoAdj_cons_alloc (NoAdj_cons_congr h3 rfl) (by simp)⟩
  · have : pre ++ [(S + ns, 1)] ++ post = pre ++ (S + ns, 1) :: post := by simp
    rw [this, NoAdj_split]
    exact ⟨NoAdj_snoc_congr h1 rfl, NoAdj_cons_alloc (NoAdj_tail h3) (by simp)⟩

/-! ## The sizes of the allocated blocks -/

theorem tail_append_ne {pre : Blocks} (X : Blocks) (hpre : pre ≠ []) :
    (pre ++ X).tail = pre.tail ++ X := by
  cases pre with
  | nil => exact absurd rfl hpre
  | cons b bs => rfl

theorem BigAlloc_mid {pre mid mid2 post : Blocks} (hpre : pre ≠ [])
    (h : BigAlloc (pre ++ mid ++ post)) (hm : ∀ b ∈ mid2, b.2 = 1 → 16 ≤ b.1) :
    BigAlloc (pre ++ mid2 ++ post) := by
  unfold BigAlloc at h ⊢
  rw [List.append_assoc, tail_append_ne _ hpre] at h ⊢
  intro b hb
  rcases List.mem_append.1 hb with hb | hb
  · exact h b (List.mem_append_left _ hb)
  · rcases List.mem_append.1 hb with hb | hb
    · exact hm b hb
    · exact h b (List.mem_append_right _ (List.mem_append_right _ hb))

theorem BigAlloc_placeL {pre post : Blocks} {S x a : Nat} (hpre : pre ≠ [])
    (h : BigAlloc (pre ++ (S, x) :: post)) (ha : 16 ≤ a) (haS : a ≤ S) :
    BigAlloc (pre ++ placeL S a ++ post) := by
  have h' : BigAlloc (pre ++ [(S, x)] ++ post) := by simpa using h
  refine BigAlloc_mid hpre h' ?_
  intro b hb hb1
  unfold placeL at hb
  split at hb
  · simp only [List.mem_cons, List.mem_singleton, List.not_mem_nil, or_false] at hb
    rcases hb with rfl | rfl
    · exact ha
    · simp at hb1
  · simp only [List.mem_singleton] at hb
    rw [hb]
    exact Nat.le_trans ha haS

theorem BigAlloc_grow {pre post : Blocks} {S ns a : Nat} (hpre : pre ≠ [])
    (h : BigAlloc (pre ++ (S, 1) :: (ns, 0) :: post)) (ha : 16 ≤ a) (haS : a ≤ S + ns) :
    BigAlloc (pre ++ placeL (S + ns) a ++ post) := by
  have h' : BigAlloc (pre ++ [(S, 1), (ns, 0)] ++ post) := by simpa using h
  refine BigAlloc_mid hpre h' ?_
  intro b hb hb1
  unfold placeL at hb
  split at hb
  · simp only [List.mem_cons, List.mem_singleton, List.not_mem_nil, or_false] at hb
    rcases hb with rfl | rfl
    · exact ha
    · simp at hb1
  · simp only [List.mem_singleton] at hb
    rw [hb]
    exact Nat.le_trans ha haS

theorem mem_restAfter {rest : Blocks} {b : Nat × Nat} (h : b ∈ restAfter rest) : b ∈ rest := by
  cases rest with
  | nil => exact h
  | cons c cs =>
    simp only [restAfter] at h
    split at h
    · exact List.mem_cons_of_mem _ h
    · exact h

theorem BigAlloc_coalesceL {pre rest : Blocks} {pb : Nat × Nat} {S x : Nat}
    (hhead : (pre ++ [pb]).head? = some (8, 1))
    (h : BigAlloc (pre ++ pb :: (S, x) :: rest)) : BigAlloc (coalesceL pre pb S rest) := by
  unfold BigAlloc at h ⊢
  unfold coalesceL
  intro b hb hb1
  cases pre with
  | nil =>
    simp only [List.nil_append, List.head?_cons, Option.some.injEq] at hhead
    have hp : pb.2 ≠ 0 := by rw [hhead]; simp
    simp only [List.nil_append, if_neg hp, List.cons_append, List.tail_cons] at hb h
    simp only [List.mem_cons] at hb
    rcases hb with rfl | hb
    · simp at hb1
    · exact h b (List.mem_cons_of_mem _ (mem_restAfter hb)) hb1
  | cons c pre' =>
    simp only [List.cons_append, List.tail_cons] at hb h
    rw [List.mem_append] at hb
    rcases hb with hb | hb
    · rw [List.mem_append] at hb
      rcases hb with hb | hb
      · exact h b (List.mem_append_left _ hb) hb1
      · split at hb
        · simp at hb
        · simp only [List.mem_singleton] at hb
          exact h b (by rw [hb]; simp) hb1
    · simp only [List.mem_cons] at hb
      rcases hb with rfl | hb
      · simp at hb1
      · exact h b (by
          have := mem_restAfter hb
          simp [this]) hb1

theorem BigAlloc_snoc_free {cs : Blocks} (E : Nat) (hne : cs ≠ []) (h : BigAlloc cs) :
    BigAlloc (cs ++ [(E, 0)]) := by
  unfold BigAlloc at h ⊢
  rw [tail_append_ne _ hne]
  intro b hb hb1
  rcases List.mem_append.1 hb with hb | hb
  · exact h b hb hb1
  · simp only [List.mem_singleton] at hb
    rw [hb] at hb1
    simp at hb1


/-! ## The operations on well-formed heaps -/

theorem adjusted_props {n : Nat} (hn : n + 16 ≤ 4294967296) :
    adjusted n % 8 = 0 ∧ 16 ≤ adjusted n ∧ adjusted n < 4294967296 ∧ n + 8 ≤ adjusted n ∧
    (8 < n → adjusted n < n + 16) ∧ (n ≤ 8 → adjusted n = 16) := by
  unfold adjusted D_SIZE UINT
  split <;> omega

theorem ext_bytes_MAX {a : Nat} (ha8 : a % 8 = 0) (ha : a < 4294967296) :
    ext_bytes (MAX a E_SIZE / W_SIZE) = MAX a E_SIZE ∧ a ≤ MAX a E_SIZE ∧
    4096 ≤ MAX a E_SIZE := by
  have hE : E_SIZE = 4096 := rfl
  unfold ext_bytes MAX W_SIZE UINT
  rw [hE]
  split <;> split <;> omega

theorem WF_nonempty {s : Heap} {cs : Blocks} (h : WF s cs) : ∃ bs, cs = (8, 1) :: bs := by
  obtain ⟨h1, _⟩ := h
  cases cs with
  | nil => simp at h1
  | cons b bs =>
    simp only [List.head?_cons, Option.some.injEq] at h1
    exact ⟨bs, by rw [h1]⟩

theorem WF_epi {s : Heap} {cs : Blocks} (h : WF s cs) :
    GET s.mem (s.heap_head + total cs - 4) = 1 := by
  rw [h.2.2.2.1]; exact h.2.2.1

theorem total_pos_of_Seg {m : Mem} {p : Nat} {cs : Blocks} (h : Seg m p cs) (hne : cs ≠ []) :
    8 ≤ total cs := by
  cases cs with
  | nil => exact absurd rfl hne
  | cons b bs => rw [total_cons]; have := h.1; omega

/-- What a successful scan of `find_first` returns in a well-formed heap. -/
theorem find_first_WF {s : Heap} {cs : Blocks} {fuel a r : Nat} (hwf : WF s cs)
    (hf : find_first fuel s a = some r) (hr : r ≠ 0) :
    ∃ pre S post, cs = pre ++ (S, 0) :: post ∧ pre ≠ [] ∧ r = s.heap_head + total pre ∧
      a ≤ S ∧ ∀ b ∈ pre, ¬ (b.2 = 0 ∧ a ≤ b.1) := by
  rcases find_first_loop_spec s.mem a fuel s.heap_head cs r hwf.2.1 (WF_epi hwf) hf with
    ⟨h0, _⟩ | ⟨pre, S, post, e1, e2, e3, e4⟩
  · exact absurd h0 hr
  · refine ⟨pre, S, post, e1, ?_, e2, e3, e4⟩
    rintro rfl
    obtain ⟨bs, hbs⟩ := WF_nonempty hwf
    rw [e1] at hbs
    simp at hbs

/-- Placing an allocation in a block of a well-formed heap. -/
theorem place_WF {s : Heap} {cs pre post : Blocks} {S x a : Nat} (hwf : WF s cs)
    (hcs : cs = pre ++ (S, x) :: post) (hpre : pre ≠ []) (ha8 : a % 8 = 0) (ha : 8 ≤ a)
    (haS : a ≤ S) :
    WF { s with mem := place s.mem (s.heap_head + total pre) a } (pre ++ placeL S a ++ post) ∧
    ∀ y, y ≠ s.heap_head + total pre - 4 →
      (y < s.heap_head + total pre + a - 8 ∨ s.heap_head + total pre + S - 8 < y) →
      place s.mem (s.heap_head + total pre) a y = s.mem y := by
  subst hcs
  obtain ⟨w1, w2, w3, w4, w5, w6⟩ := hwf
  have hseg := w2
  rw [Seg_append] at hseg
  obtain ⟨hp, c1, c2, c3, c4, c5, hpost⟩ := hseg
  dsimp only at c1 c2 c3 c4 c5 hpost
  simp only [total_append, total_cons, UINT] at w4 w6
  obtain ⟨k1, k2⟩ := place_chain hp c4 c3 c2 (by omega) hpost ha8 ha haS (by omega)
  refine ⟨⟨?_, k1, ?_, ?_, w5, ?_⟩, k2⟩
  · cases pre with
    | nil => exact absurd rfl hpre
    | cons b bs => simpa using w1
  · show GET (place s.mem _ a) (s.brk - 4) = 1
    rw [GET_congr (k2 _ (by omega) (by omega))]; exact w3
  · show s.heap_head + total (pre ++ placeL S a ++ post) = s.brk
    rw [total_append, total_append, total_placeL haS]; omega
  · show total (pre ++ placeL S a ++ post) < UINT
    rw [total_append, total_append, total_placeL haS]; unfold UINT; omega

theorem LiveIn_lt {m : Mem} {base q : Nat} {cs : Blocks} (hseg : Seg m base cs)
    (h : LiveIn base cs q) : q + 8 ≤ base + total cs := by
  obtain ⟨_, S, hmem⟩ := h
  obtain ⟨pre, post, e1, e2⟩ := mem_layout hmem
  have h8 := (Seg_sizes hseg (S, 1) (by rw [e1]; simp)).1
  rw [e1, total_append, total_cons, e2]
  dsimp only at h8
  omega

theorem LiveIn_snoc {base q : Nat} {cs : Blocks} (b : Nat × Nat) (h : LiveIn base cs q) :
    LiveIn base (cs ++ [b]) q := by
  obtain ⟨hne, S, hmem⟩ := h
  exact ⟨hne, S, by rw [layout_append]; exact List.mem_append_left _ hmem⟩

/-- The heap extension of `mm_malloc` and `mm_realloc` in a well-formed heap: either
`sbrk` rejects and nothing but the call count changes, or the heap ends with a free
block that can hold the adjusted size `a`, and `extend_heap` returns its address. -/
theorem extend_WF {s : Heap} {cs : Blocks} {L : List Nat} {a : Nat} (hinv : Inv s L cs)
    (ha8 : a % 8 = 0) (halt : a < 4294967296) :
    (¬ Grants s (ext_bytes (MAX a E_SIZE / W_SIZE)) ∧
      extend_heap s (MAX a E_SIZE / W_SIZE) = (0, { s with sbrk_calls := s.sbrk_calls + 1 })) ∨
    (Grants s (ext_bytes (MAX a E_SIZE / W_SIZE)) ∧
      (extend_heap s (MAX a E_SIZE / W_SIZE)).1 ≠ 0 ∧
      ∃ pre S, Inv (extend_heap s (MAX a E_SIZE / W_SIZE)).2 L (pre ++ (S, 0) :: []) ∧
        pre ≠ [] ∧ (extend_heap s (MAX a E_SIZE / W_SIZE)).1 = s.heap_head + total pre ∧
        a ≤ S ∧ (extend_heap s (MAX a E_SIZE / W_SIZE)).2.heap_head = s.heap_head ∧
        ((NoAdj cs → NoAdj (pre ++ (S, 0) :: [])) ∧
          (BigAlloc cs → BigAlloc (pre ++ (S, 0) :: []))) ∧
        ∀ y, y + 4 < (extend_heap s (MAX a E_SIZE / W_SIZE)).1 →
          (extend_heap s (MAX a E_SIZE / W_SIZE)).2.mem y = s.mem y) := by
  obtain ⟨hwf, hlim, hlive⟩ := hinv
  by_cases hg : Grants s (ext_bytes (MAX a E_SIZE / W_SIZE))
  · right
    obtain ⟨bs, hbs⟩ := WF_nonempty hwf
    rcases List.eq_nil_or_concat cs with hnil | ⟨pre, pb, hcs⟩
    · rw [hnil] at hbs; simp at hbs
    rw [List.concat_eq_append] at hcs
    obtain ⟨e1, e2, e3⟩ := ext_bytes_MAX ha8 halt
    have hbrk := hwf.2.2.2.1
    have hhh := hwf.2.2.2.2.1
    have hG := hg
    unfold Grants at hG
    obtain ⟨k1, k2, k3, k4, k5, k6⟩ := extend_heap_chain hwf hcs hg (by omega)
      (by unfold UINT at hlim; omega)
    have hpbsz := (Seg_sizes hwf.2.1 pb (by rw [hcs]; simp))
    have htot : total cs = total pre + pb.1 := by
      rw [hcs, total_append, total_cons, total_nil]; omega
    have hpf := prevFree_le pb
    have hcl : coalesceL pre pb (ext_bytes (MAX a E_SIZE / W_SIZE)) [] =
        (pre ++ if pb.2 = 0 then [] else [pb]) ++
          (prevFree pb + ext_bytes (MAX a E_SIZE / W_SIZE), 0) :: [] := by
      simp [coalesceL, nextFree, restAfter]
    have hpre1 : (pre ++ if pb.2 = 0 then [] else [pb]) ≠ [] := by
      by_cases hp : pb.2 = 0
      · simp only [hp, if_true, List.append_nil]
        rintro rfl
        rw [hcs] at hbs
        simp only [List.nil_append, List.cons.injEq] at hbs
        rw [hbs.1] at hp
        simp at hp
      · simp [hp]
    have htot1 : s.heap_head + total (pre ++ if pb.2 = 0 then [] else [pb]) =
        s.brk - prevFree pb := by
      rw [total_append]
      unfold prevFree
      split
      · simp only [total_nil]; omega
      · simp only [total_cons, total_nil]; omega
    refine ⟨hg, by rw [k1]; omega, _, _, ⟨by rw [← hcl]; exact k2, by rw [k4, k3]; exact hlim, ?_⟩,
      hpre1, by rw [k1, htot1], ?_, k3, ?_, ?_⟩
    · intro q hq
      rw [k3, ← hcl]
      have hl := hlive q hq
      have hlt := LiveIn_lt hwf.2.1 hl
      rw [hcs] at hl
      have := LiveIn_snoc (ext_bytes (MAX a E_SIZE / W_SIZE), 0) hl
      rw [List.append_assoc] at this
      exact LiveIn_coalesceL this (by intro h; simp at h)
    · omega
    · refine ⟨fun hna => ?_, fun hbig => ?_⟩
      · rw [← hcl]
        rw [hcs] at hna
        have : NoAdj (pre ++ pb :: (ext_bytes (MAX a E_SIZE / W_SIZE), 1) :: []) := by
          have h2 := NoAdj_snoc_alloc (y := (ext_bytes (MAX a E_SIZE / W_SIZE), 1)) hna (by simp)
          simpa using h2
        exact NoAdj_coalesceL this
      · rw [← hcl]
        rw [hcs] at hbig
        have hhd : (pre ++ [pb]).head? = some (8, 1) := by rw [← hcs]; exact hwf.1
        have := BigAlloc_snoc_free (ext_bytes (MAX a E_SIZE / W_SIZE)) (by simp) hbig
        rw [List.append_assoc] at this
        exact BigAlloc_coalesceL hhd this
    · intro y hy
      rw [k1] at hy
      exact k6 y hy
  · left
    exact ⟨hg, extend_heap_reject hg⟩

/-- Placing an allocation in a free block keeps the invariant; the block becomes
live. -/
theorem place_Inv {s : Heap} {cs pre post : Blocks} {L : List Nat} {S a : Nat}
    (hinv : Inv s L cs) (hcs : cs = pre ++ (S, 0) :: post) (hpre : pre ≠ [])
    (ha8 : a % 8 = 0) (ha : 8 ≤ a) (haS : a ≤ S) :
    Inv { s with mem := place s.mem (s.heap_head + total pre) a }
      ((s.heap_head + total pre) :: L) (pre ++ placeL S a ++ post) ∧
    ((NoAdj cs → NoAdj (pre ++ placeL S a ++ post)) ∧
      (16 ≤ a → BigAlloc cs → BigAlloc (pre ++ placeL S a ++ post))) := by
  obtain ⟨hwf, hlim, hlive⟩ := hinv
  obtain ⟨k1, _⟩ := place_WF hwf hcs hpre ha8 ha haS
  have hsegpre : Seg s.mem s.heap_head pre := by
    have := hwf.2.1
    rw [hcs, Seg_append] at this
    exact this.1
  have hpos := total_pos_of_Seg hsegpre hpre
  refine ⟨⟨k1, hlim, ?_⟩, ?_, ?_⟩
  · intro q hq
    show LiveIn s.heap_head _ q
    rcases List.mem_cons.1 hq with rfl | hq
    · exact LiveIn_place_new (by omega)
    · have := hlive q hq
      rw [hcs] at this
      exact LiveIn_place haS this
  · intro hna
    rw [hcs] at hna
    exact NoAdj_placeL hna
  · intro h16 hbig
    rw [hcs] at hbig
    exact BigAlloc_placeL hpre hbig h16 haS

theorem mm_malloc_step {fuel : Nat} {h h' : Heap} {L : List Nat} {cs : Blocks} {n p : Nat}
    (hinv : Inv h L cs) (hn : n + 16 ≤ 4294967296) (hm : mm_malloc fuel h n = some (p, h')) :
    ∃ cs', Inv h' (if p = 0 then L else p :: L) cs' ∧ (NoAdj cs → NoAdj cs') ∧
      (BigAlloc cs → BigAlloc cs') := by
  obtain ⟨a1, a2, a3, a4, _, _⟩ := adjusted_props hn
  rcases mm_malloc_cases hm with ⟨_, rfl, rfl⟩ | ⟨_, hf, hp, rfl⟩ | ⟨_, _, he, rfl, rfl⟩ |
    ⟨_, _, he, rfl, rfl⟩
  · exact ⟨cs, by simpa using hinv, id, id⟩
  · obtain ⟨pre, S, post, e1, e2, e3, e4, _⟩ := find_first_WF hinv.1 hf hp
    obtain ⟨k1, k2⟩ := place_Inv hinv e1 e2 a1 (by omega) e4
    rw [if_neg hp, e3]
    exact ⟨_, k1, k2.1, k2.2 a2⟩
  · rcases extend_WF (a := adjusted n) hinv a1 a3 with ⟨_, hr⟩ | ⟨_, hne, _⟩
    · rw [hr]
      exact ⟨cs, by simpa [Inv, WF] using hinv, id, id⟩
    · exact absurd he hne
  · rcases extend_WF (a := adjusted n) hinv a1 a3 with ⟨_, hr⟩ | ⟨_, hne, pre, S, i1, i2, i3, i4,
      i5, i6, _⟩
    · rw [hr] at he; exact absurd rfl he
    · obtain ⟨k1, k2⟩ := place_Inv i1 rfl i2 a1 (by omega) i4
      rw [if_neg he]
      have e : (extend_heap h (MAX (adjusted n) E_SIZE / W_SIZE)).2.heap_head + total pre =
          (extend_heap h (MAX (adjusted n) E_SIZE / W_SIZE)).1 := by rw [i5, i3]
      rw [e] at k1
      exact ⟨_, k1, fun hna => k2.1 (i6.1 hna), fun hb => k2.2 a2 (i6.2 hb)⟩

theorem mem_removePtr {L : List Nat} {p q : Nat} : q ∈ removePtr L p ↔ q ∈ L ∧ q ≠ p := by
  unfold removePtr
  simp [List.mem_filter]

/-- Freeing a live block keeps the invariant. -/
theorem mm_free_step {h : Heap} {L : List Nat} {cs : Blocks} {p : Nat} (hinv : Inv h L cs)
    (hp : LiveIn h.heap_head cs p) :
    ∃ cs', Inv (mm_free h p) (removePtr L p) cs' ∧ (NoAdj cs → NoAdj cs') ∧
      (BigAlloc cs → BigAlloc cs') := by
  obtain ⟨hwf, hlim, hlive⟩ := hinv
  obtain ⟨pre, pb, S, rest, hcs, rfl⟩ := LiveIn_split hp
  obtain ⟨k1, _⟩ := mm_free_chain hwf hcs
  refine ⟨_, ⟨k1, hlim, ?_⟩, ?_, ?_⟩
  · intro q hq
    obtain ⟨hq1, hq2⟩ := mem_removePtr.1 hq
    have := hlive q hq1
    rw [hcs] at this
    exact LiveIn_coalesceL this (fun _ => hq2)
  · intro hna
    rw [hcs] at hna
    exact NoAdj_coalesceL hna
  · intro hbig
    have hhd : (pre ++ [pb]).head? = some (8, 1) := by
      have := hwf.1
      rw [hcs, head_prefix] at this
      exact this
    rw [hcs] at hbig
    exact BigAlloc_coalesceL hhd hbig

/-- Writes into the payload of one block keep the heap well formed. -/
theorem WF_payload {s : Heap} {cs pre post : Blocks} {S x : Nat} {m' : Mem} (hwf : WF s cs)
    (hcs : cs = pre ++ (S, x) :: post)
    (hm : ∀ y, (y < s.heap_head + total pre ∨ s.heap_head + total pre + S - 8 ≤ y) →
      m' y = s.mem y) :
    WF { s with mem := m' } cs := by
  subst hcs
  obtain ⟨w1, w2, w3, w4, w5, w6⟩ := hwf
  have hseg := w2
  rw [Seg_append] at hseg
  obtain ⟨hp, c1, c2, c3, c4, c5, hpost⟩ := hseg
  dsimp only at c1 c2 c3 c4 c5 hpost
  simp only [total_append, total_cons] at w4
  refine ⟨w1, ?_, ?_, w4 ▸ ?_, w5, w6⟩
  · show Seg m' s.heap_head _
    rw [Seg_append]
    refine ⟨Seg_frame hp ?_, c1, c2, c3, ?_, ?_, Seg_frame hpost ?_⟩
    · intro y h1 h2; exact hm y (by omega)
    · rw [GET_congr (hm _ (by omega))]; exact c4
    · rw [GET_congr (hm _ (by omega))]; exact c5
    · intro y h1 h2; exact hm y (by omega)
  · show GET m' (s.brk - 4) = 1
    rw [GET_congr (hm _ (by omega))]; exact w3
  · simp only [total_append, total_cons]

theorem memcpy_outside {m : Mem} {dst src n y : Nat} (h : y < dst ∨ dst + n ≤ y) :
    memcpy m dst src n y = m y := by
  unfold memcpy
  rw [if_neg (by omega)]

theorem memcpy_inside {m : Mem} {dst src n y : Nat} (h1 : dst ≤ y) (h2 : y < dst + n) :
    memcpy m dst src n y = m (src + (y - dst)) := by
  unfold memcpy
  rw [if_pos ⟨h1, h2⟩]

theorem placeL_head (S a : Nat) (haS : a ≤ S) :
    ∃ a' tl, placeL S a = (a', 1) :: tl ∧ a ≤ a' := by
  unfold placeL
  split
  · exact ⟨a, _, rfl, Nat.le_refl a⟩
  · exact ⟨S, _, rfl, haS⟩

/-- The header of a live block. -/
theorem LiveIn_header {s : Heap} {cs pre rest : Blocks} {pb : Nat × Nat} {S x : Nat}
    (hwf : WF s cs) (hcs : cs = pre ++ pb :: (S, x) :: rest) :
    GET s.mem (s.heap_head + total pre + pb.1 - 4) = S + x ∧ 8 ≤ S ∧ S % 8 = 0 ∧ x ≤ 1 ∧
    S < 4294967296 ∧ 8 ≤ pb.1 := by
  have hseg := hwf.2.1
  have hT := hwf.2.2.2.2.2
  rw [hcs] at hT
  rw [hcs, Seg_append] at hseg
  obtain ⟨_, b1, _, _, _, _, c1, c2, c3, c4, _⟩ := hseg
  simp only [total_append, total_cons, UINT] at hT
  exact ⟨c4, c1, c2, c3, by omega, b1⟩

/-- The relocation of `mm_realloc`: the new block is placed, the old payload copied,
the old block freed. -/
theorem realloc_move_Inv {s : Heap} {L : List Nat} {cs pre post : Blocks} {S2 a p S : Nat}
    (hinv : Inv s L cs) (hcs : cs = pre ++ (S2, 0) :: post) (hpre : pre ≠ [])
    (ha8 : a % 8 = 0) (ha : 8 ≤ a) (haS2 : a ≤ S2) (hp : p ∈ L)
    (hS : GET s.mem (p - 4) = S + 1) (hS8 : S % 8 = 0) (hSa : S < a) (hS0 : 8 ≤ S) :
    ∃ cs', Inv (realloc_move s (s.heap_head + total pre) p a S).2
      ((s.heap_head + total pre) :: removePtr L p) cs' ∧ (NoAdj cs → NoAdj cs') ∧
      (16 ≤ a → BigAlloc cs → BigAlloc cs') := by
  obtain ⟨k1, kna⟩ := place_Inv hinv hcs hpre ha8 ha haS2
  -- the new block and the old one are different blocks
  have hqp : s.heap_head + total pre ≠ p := by
    intro h
    have hseg := hinv.1.2.1
    rw [hcs, Seg_append] at hseg
    obtain ⟨_, _, c2, _, c4, _⟩ := hseg
    dsimp only at c2 c4
    rw [h, hS] at c4
    omega
  obtain ⟨a', tl, e1, e2⟩ := placeL_head S2 a haS2
  have hsz : (S + UINT - 2 * W_SIZE) % UINT = S - 8 := by
    have := hinv.1.2.2.2.2.2
    unfold UINT W_SIZE
    have hlt : S < 4294967296 := by
      have hG := GET_lt s.mem (p - 4)
      omega
    omega
  -- the copy writes into the payload of the new block only
  have hwf3 : WF { s with mem := (memcpy (place s.mem (s.heap_head + total pre) a)
      (s.heap_head + total pre) p (S - 8)) } (pre ++ placeL S2 a ++ post) := by
    have hcs2 : pre ++ placeL S2 a ++ post = pre ++ (a', 1) :: (tl ++ post) := by
      rw [e1]; simp
    refine WF_payload (s := { s with mem := place s.mem (s.heap_head + total pre) a })
      k1.1 hcs2 ?_
    intro y hy
    exact memcpy_outside (by dsimp only at hy ⊢; omega)
  have hinv3 : Inv { s with mem := (memcpy (place s.mem (s.heap_head + total pre) a)
      (s.heap_head + total pre) p (S - 8)) } ((s.heap_head + total pre) :: L)
      (pre ++ placeL S2 a ++ post) := ⟨hwf3, k1.2.1, k1.2.2⟩
  obtain ⟨cs', k3, kna2⟩ := mm_free_step hinv3 (hinv3.2.2 p (List.mem_cons_of_mem _ hp))
  refine ⟨cs', ?_, fun h => kna2.1 (kna.1 h), fun h16 hb => kna2.2 (kna.2 h16 hb)⟩
  have hrm : removePtr ((s.heap_head + total pre) :: L) p =
      (s.heap_head + total pre) :: removePtr L p := by
    unfold removePtr
    rw [List.filter_cons_of_pos (by simpa using hqp)]
  rw [hrm] at k3
  unfold realloc_move
  rw [hsz]
  exact k3

/-- Growing a block in place: the free successor is absorbed, then the block is
placed. -/
theorem grow_WF {s : Heap} {cs pre post : Blocks} {S ns a : Nat} (hwf : WF s cs)
    (hcs : cs = pre ++ (S, 1) :: (ns, 0) :: post) (hpre : pre ≠ []) (ha8 : a % 8 = 0)
    (ha : 8 ≤ a) (haS : a ≤ S + ns) :
    WF { s with mem := (place (PUT s.mem (s.heap_head + total pre - 4) (S + ns))
      (s.heap_head + total pre) a) } (pre ++ placeL (S + ns) a ++ post) ∧
    ∀ y, y ≠ s.heap_head + total pre - 4 →
      (y < s.heap_head + total pre + a - 8 ∨ s.heap_head + total pre + S + ns - 8 < y) →
      place (PUT s.mem (s.heap_head + total pre - 4) (S + ns)) (s.heap_head + total pre) a y
        = s.mem y := by
  subst hcs
  obtain ⟨w1, w2, w3, w4, w5, w6⟩ := hwf
  have hseg := w2
  rw [Seg_append] at hseg
  obtain ⟨hp, c1, c2, c3, c4, c5, d1, d2, d3, d4, d5, hpost⟩ := hseg
  dsimp only at c1 c2 c3 c4 c5 d1 d2 d3 d4 d5 hpost
  simp only [total_append, total_cons, UINT] at w4 w6
  have hpre1 : Seg (PUT s.mem (s.heap_head + total pre - 4) (S + ns)) s.heap_head pre := by
    refine Seg_frame hp ?_
    intro y h1 h2
    exact PUT_ne (by omega)
  have hpost1 : Seg (PUT s.mem (s.heap_head + total pre - 4) (S + ns))
      (s.heap_head + total pre + (S + ns)) post := by
    rw [← Nat.add_assoc]
    refine Seg_frame hpost ?_
    intro y h1 h2
    exact PUT_ne (by omega)
  have hhd : GET (PUT s.mem (s.heap_head + total pre - 4) (S + ns))
      (s.heap_head + total pre - 4) = (S + ns) + 0 := by
    rw [GET_PUT_same (by omega)]; rfl
  obtain ⟨k1, k2⟩ := place_chain hpre1 hhd (by omega) (by omega) (by omega) hpost1 ha8 ha haS
    (by omega)
  have k3 : ∀ y, y ≠ s.heap_head + total pre - 4 →
      (y < s.heap_head + total pre + a - 8 ∨ s.heap_head + total pre + S + ns - 8 < y) →
      place (PUT s.mem (s.heap_head + total pre - 4) (S + ns)) (s.heap_head + total pre) a y
        = s.mem y := by
    intro y h1 h2
    rw [k2 y h1 (by omega), PUT_ne h1]
  refine ⟨⟨?_, k1, ?_, ?_, w5, ?_⟩, k3⟩
  · cases pre with
    | nil => exact absurd rfl hpre
    | cons b bs => simpa using w1
  · show GET (place _ _ a) (s.brk - 4) = 1
    rw [GET_congr (k3 _ (by omega) (by omega))]; exact w3
  · show s.heap_head + total (pre ++ placeL (S + ns) a ++ post) = s.brk
    rw [total_append, total_append, total_placeL haS]; omega
  · show total (pre ++ placeL (S + ns) a ++ post) < UINT
    rw [total_append, total_append, total_placeL haS]; unfold UINT; omega

theorem LiveIn_pos {m : Mem} {base q : Nat} {cs : Blocks} (hseg : Seg m base cs)
    (h : LiveIn base cs q) : base + 8 ≤ q := by
  obtain ⟨pre, pb, S, rest, hcs, rfl⟩ := LiveIn_split h
  have := (Seg_sizes hseg pb (by rw [hcs]; simp)).1
  omega

theorem LiveIn_init {base q S : Nat} {xs : Blocks} (h : LiveIn base (xs ++ (S, 0) :: []) q) :
    LiveIn base xs q := by
  obtain ⟨hne, S1, hmem⟩ := h
  refine ⟨hne, S1, ?_⟩
  rw [layout_append, List.mem_append] at hmem
  rcases hmem with hmem | hmem
  · exact hmem
  · simp [layout_cons, layout_nil] at hmem

theorem mm_realloc_step {fuel : Nat} {h h' : Heap} {L : List Nat} {cs : Blocks} {p n q : Nat}
    (hinv : Inv h L cs) (hp : p ∈ L) (hn0 : n ≠ 0) (hn : n + 16 ≤ 4294967296)
    (hm : mm_realloc fuel h p n = some (q, h')) :
    ∃ cs', Inv h' (if q = 0 then L else q :: removePtr L p) cs' ∧
      (GET_SIZE h.mem (HD p) ≤ adjusted n → NoAdj cs → NoAdj cs') ∧
      (BigAlloc cs → BigAlloc cs') := by
  obtain ⟨a1, a2, a3, a4, _, _⟩ := adjusted_props hn
  have hlive := hinv.2.2 p hp
  have hppos := LiveIn_pos hinv.1.2.1 hlive
  have hp0 : p ≠ 0 := by omega
  obtain ⟨pre, pb, S, rest, hcs, hpeq⟩ := LiveIn_split hlive
  obtain ⟨g1, g2, g3, _, g5, g6⟩ := LiveIn_header hinv.1 hcs
  rw [← hpeq] at g1
  have hsize : GET_SIZE h.mem (HD p) = S := GET_SIZE_of g1 g3 (Nat.le_refl 1)
  -- the live pointers when the block stays where it is
  have hstay : ∀ {s : Heap} {cs' : Blocks}, WF s cs' → s.limit = h.limit →
      s.heap_head = h.heap_head → (∀ x, LiveIn h.heap_head cs x → LiveIn h.heap_head cs' x) →
      Inv s (if p = 0 then L else p :: removePtr L p) cs' := by
    intro s cs' hw hl hh hall
    refine ⟨hw, by rw [hl, hh]; exact hinv.2.1, ?_⟩
    intro x hx
    rw [if_neg hp0] at hx
    rw [hh]
    rcases List.mem_cons.1 hx with rfl | hx
    · exact hall _ hlive
    · exact hall _ (hinv.2.2 x (mem_removePtr.1 hx).1)
  have hcs2 : cs = (pre ++ [pb]) ++ (S, 1) :: rest := by rw [hcs]; simp
  have htot2 : h.heap_head + total (pre ++ [pb]) = p := by
    rw [hpeq, total_append, total_cons, total_nil]; omega
  rcases mm_realloc_cases hp0 hn0 hm with ⟨_, hqe, rfl⟩ | ⟨hlt, hqe, rfl⟩ |
    ⟨hgt, hfree, hsum, hqe, rfl⟩ | ⟨hrel, hf, hq, rfl⟩ | ⟨_, _, he, rfl, rfl⟩ |
    ⟨hrel, _, he, rfl, rfl⟩
  · rw [hqe]
    exact ⟨cs, hstay hinv.1 rfl rfl (fun _ hx => hx), fun _ h => h, fun h => h⟩
  · -- shrink in place
    rw [hqe]
    obtain ⟨k1, _⟩ := place_WF hinv.1 hcs2 (by simp) a1 (by omega)
      (by rw [hsize] at hlt; exact Nat.le_of_lt hlt)
    rw [htot2] at k1
    refine ⟨_, hstay k1 rfl rfl ?_, fun hle => absurd hlt (by omega), fun hb => ?_⟩
    · intro x hx
      rw [hcs2] at hx
      exact LiveIn_place (by rw [hsize] at hlt; exact Nat.le_of_lt hlt) hx
    · rw [hcs2] at hb
      exact BigAlloc_placeL (by simp) hb a2 (by rw [hsize] at hlt; exact Nat.le_of_lt hlt)
  · -- grow in place
    rw [hqe]
    rw [hsize] at hgt hsum
    have hnp : NEXT_PLACE h.mem p = p + S := by
      unfold NEXT_PLACE W_SIZE
      have := hsize
      unfold HD W_SIZE at this
      rw [this]
    rw [hnp] at hfree hsum
    have hseg := hinv.1.2.1
    rw [hcs, Seg_append] at hseg
    obtain ⟨_, _, _, _, _, _, _, _, _, _, _, hrest⟩ := hseg
    dsimp only at hrest
    rw [← hpeq] at hrest
    have hepi := WF_epi hinv.1
    have hT := hinv.1.2.2.2.2.2
    rw [hcs] at hepi hT
    simp only [total_append, total_cons, UINT] at hepi hT
    have hepi' : GET h.mem (p + S + total rest - 4) = 1 := by
      rw [← hepi]; congr 1; omega
    rcases next_cases hrest hepi' with ⟨_, _, ns, n3, n4⟩ |
      ⟨ns, post, n0, _, _, n3, n4, n5, _, _⟩
    · have : GET_ALLOC h.mem (HD (p + S)) = 1 := GET_ALLOC_of n4 n3 (Nat.le_refl 1)
      omega
    · subst n0
      simp only [total_cons] at hT
      have hns : GET_SIZE h.mem (HD (p + S)) = ns :=
        GET_SIZE_of (a := 0) (by rw [Nat.add_zero]; exact n5) n4 (by omega)
      rw [hns] at hsum
      have hsm : (ns + S) % UINT = S + ns := by unfold UINT; omega
      rw [hsm] at hsum
      have hcs3 : cs = (pre ++ [pb]) ++ (S, 1) :: (ns, 0) :: post := by rw [hcs]; simp
      obtain ⟨k1, _⟩ := grow_WF hinv.1 hcs3 (by simp) a1 (by omega) hsum
      rw [htot2] at k1
      rw [hnp, hns, hsize, hsm, PACK_zero]
      have hhd : HD p = p - 4 := rfl
      rw [hhd]
      refine ⟨_, hstay k1 rfl rfl ?_, fun _ hna => ?_, fun hb => ?_⟩
      · intro x hx
        rw [hcs3] at hx
        exact LiveIn_grow hsum hx
      · rw [hcs3] at hna
        exact NoAdj_grow hna
      · rw [hcs3] at hb
        exact BigAlloc_grow (by simp) hb a2 hsum
  · -- relocation into a free block
    obtain ⟨pre2, S2, post2, e1, e2, e3, e4, _⟩ := find_first_WF hinv.1 hf hq
    rw [if_neg hq, hsize, e3]
    have hSa : S < adjusted n := by rw [← hsize]; exact hrel.1
    obtain ⟨cs', m1, m2⟩ := realloc_move_Inv hinv e1 e2 a1 (by omega) e4 hp g1 g3 hSa g2
    exact ⟨cs', m1, fun _ => m2.1, m2.2 a2⟩
  · -- relocation fails
    rcases extend_WF (a := adjusted n) hinv a1 a3 with ⟨_, hr⟩ | ⟨_, hne, _⟩
    · rw [hr]
      exact ⟨cs, by simpa [Inv, WF] using hinv, fun _ h => h, fun h => h⟩
    · exact absurd he hne
  · -- relocation into the extended heap
    rcases extend_WF (a := adjusted n) hinv a1 a3 with ⟨_, hr⟩ | ⟨_, hne, pre2, S2, i1, i2, i3,
      i4, i5, i6, i7⟩
    · rw [hr] at he; exact absurd rfl he
    · rw [if_neg he, hsize]
      have e : (extend_heap h (MAX (adjusted n) E_SIZE / W_SIZE)).1 =
          (extend_heap h (MAX (adjusted n) E_SIZE / W_SIZE)).2.heap_head + total pre2 := by
        rw [i5, i3]
      -- the header of the old block is not touched by the extension
      have hseg2 := i1.1.2.1
      rw [Seg_append] at hseg2
      have hlt := LiveIn_lt hseg2.1 (LiveIn_init (i1.2.2 p hp))
      rw [i5] at hlt
      have g1' : GET (extend_heap h (MAX (adjusted n) E_SIZE / W_SIZE)).2.mem (p - 4) = S + 1 := by
        rw [GET_congr (i7 _ (by rw [i3]; omega))]; exact g1
      have hSa : S < adjusted n := by rw [← hsize]; exact hrel.1
      obtain ⟨cs', m1, m2⟩ := realloc_move_Inv i1 rfl i2 a1 (by omega) i4 hp g1' g3 hSa g2
      rw [← e] at m1
      exact ⟨cs', m1, fun _ hna => m2.1 (i6.1 hna), fun hb => m2.2 a2 (i6.2 hb)⟩

theorem mm_init_Inv {h0 h : Heap} (hi : mm_init h0 = (0, h))
    (hlim : h0.limit ≤ h0.brk + 4294967296) : Inv h [] [(8, 1), (4096, 0)] := by
  unfold mm_init at hi
  have e16 : 4 * W_SIZE = 16 := rfl
  have eb : ext_bytes (E_SIZE / 4) = 4096 := by decide
  have e9 : PACK D_SIZE 1 = 9 := rfl
  have e1 : PACK 0 1 = 1 := rfl
  rw [e16] at hi
  by_cases hg : Grants h0 16
  · rw [sbrk_grant hg] at hi
    simp only [e9, e1, W_SIZE, Nat.reduceMul] at hi
    split at hi
    · simp at hi
    · rename_i hne
      simp only [Prod.mk.injEq, true_and] at hi
      have hwf1 : WF (⟨PUT (PUT (PUT (PUT h0.mem h0.brk 0) (h0.brk + 4) 9)
          (h0.brk + 8) 9) (h0.brk + 12) 1, h0.brk + 16, h0.limit,
          h0.brk + 8, h0.sbrk_calls + 1⟩ : Heap) [(8, 1)] := by
        refine ⟨rfl, ⟨by omega, by omega, by omega, ?_, ?_, trivial⟩, ?_, ?_, ?_, ?_⟩
        · show GET _ (h0.brk + 8 - 4) = 8 + 1
          have : h0.brk + 8 - 4 = h0.brk + 4 := by omega
          rw [this, GET_PUT_ne (by omega), GET_PUT_ne (by omega), GET_PUT_same (by omega)]
        · show GET _ (h0.brk + 8 + 8 - 8) = 8 + 1
          have : h0.brk + 8 + 8 - 8 = h0.brk + 8 := by omega
          rw [this, GET_PUT_ne (by omega), GET_PUT_same (by omega)]
        · show GET _ (h0.brk + 16 - 4) = 1
          have : h0.brk + 16 - 4 = h0.brk + 12 := by omega
          rw [this, GET_PUT_same (by omega)]
        · show h0.brk + 8 + total [(8, 1)] = h0.brk + 16
          simp only [total_cons, total_nil]
        · show 8 ≤ h0.brk + 8
          omega
        · simp only [total_cons, total_nil, UINT]; omega
      by_cases hg2 : Grants (⟨PUT (PUT (PUT (PUT h0.mem h0.brk 0) (h0.brk + 4) 9)
          (h0.brk + 8) 9) (h0.brk + 12) 1, h0.brk + 16, h0.limit,
          h0.brk + 8, h0.sbrk_calls + 1⟩ : Heap)
          (ext_bytes (E_SIZE / 4))
      · obtain ⟨k1, k2, k3, k4, k5, k6⟩ := @extend_heap_chain _ _ [] (8, 1) _ hwf1 rfl hg2
          (by rw [eb]; omega) (by rw [eb]; simp only [total_cons, total_nil]; omega)
        rw [hi] at k2 k3 k4
        have hcl : coalesceL [] (8, 1) (ext_bytes (E_SIZE / 4)) [] = [(8, 1), (4096, 0)] := by
          rw [eb]; rfl
        rw [hcl] at k2
        refine ⟨k2, ?_, by simp⟩
        rw [k3, k4]
        show h0.limit + 8 ≤ h0.brk + 8 + UINT
        unfold UINT; omega
      · rw [extend_heap_reject hg2] at hne
        exact absurd rfl hne
  · rw [sbrk_reject hg] at hi
    simp at hi

/-- The invariant of the reachable states, with the sizes of the allocated blocks. -/
theorem Reachable_Inv_big {h0 : Heap} {maxReq : Nat} {shrink : Bool} {h : Heap} {L : List Nat}
    (hlim : h0.limit ≤ h0.brk + 4294967296) (hmax : maxReq + 16 ≤ 4294967296)
    (hr : Reachable h0 maxReq shrink h L) :
    ∃ cs, Inv h L cs ∧ (shrink = false → NoAdj cs) ∧ BigAlloc cs := by
  induction hr with
  | init hi =>
    refine ⟨_, mm_init_Inv hi hlim, fun _ => ?_, ?_⟩
    · unfold NoAdj
      simp
    · unfold BigAlloc
      simp
  | malloc _ hn hm ih =>
    obtain ⟨cs, i1, i2, i3⟩ := ih
    obtain ⟨cs', k1, k2⟩ := mm_malloc_step i1 (by omega) hm
    exact ⟨cs', k1, fun hre => k2.1 (i2 hre), k2.2 i3⟩
  | free _ hp ih =>
    obtain ⟨cs, i1, i2, i3⟩ := ih
    obtain ⟨cs', k1, k2⟩ := mm_free_step i1 (i1.2.2 _ hp)
    exact ⟨cs', k1, fun hre => k2.1 (i2 hre), k2.2 i3⟩
  | realloc_null _ hn hm ih =>
    obtain ⟨cs, i1, i2, i3⟩ := ih
    rw [mm_realloc_null] at hm
    obtain ⟨cs', k1, k2⟩ := mm_malloc_step i1 (by omega) hm
    exact ⟨cs', k1, fun hre => k2.1 (i2 hre), k2.2 i3⟩
  | @store h1 L1 p y v _ hp hy1 hy2 ih =>
    obtain ⟨cs, i1, i2, i3⟩ := ih
    refine ⟨cs, ⟨?_, i1.2.1, i1.2.2⟩, i2, i3⟩
    obtain ⟨pre, pb, S, rest, hcs, hpeq⟩ := LiveIn_split (i1.2.2 p hp)
    obtain ⟨g1, _, g3, _, _, _⟩ := LiveIn_header i1.1 hcs
    rw [← hpeq] at g1
    have hsize : GET_SIZE h1.mem (HD p) = S := GET_SIZE_of g1 g3 (Nat.le_refl 1)
    rw [hsize] at hy2
    have hcs2 : cs = (pre ++ [pb]) ++ (S, 1) :: rest := by rw [hcs]; simp
    refine WF_payload i1.1 hcs2 ?_
    intro z hz
    rw [total_append, total_cons, total_nil] at hz
    exact PUT_ne (by omega)
  | @realloc h1 h2 L1 fuel p n q _ hp hn hs hm ih =>
    obtain ⟨cs, i1, i2, i3⟩ := ih
    by_cases hn0 : n = 0
    · subst hn0
      have hp0 : p ≠ 0 := by
        have := LiveIn_pos i1.1.2.1 (i1.2.2 p hp)
        omega
      rw [mm_realloc_zero fuel h1 hp0] at hm
      simp only [Option.some.injEq, Prod.mk.injEq] at hm
      obtain ⟨rfl, rfl⟩ := hm
      obtain ⟨cs', k1, k2⟩ := mm_free_step i1 (i1.2.2 _ hp)
      exact ⟨cs', by simpa using k1, fun hre => k2.1 (i2 hre), k2.2 i3⟩
    · obtain ⟨cs', k1, k2⟩ := mm_realloc_step i1 hp hn0 (by omega) hm
      refine ⟨cs', by simpa [hn0] using k1, fun hre => ?_, k2.2 i3⟩
      rcases hs with hs | hs | hs
      · rw [hre] at hs; cases hs
      · exact absurd hs hn0
      · exact k2.1 hs (i2 hre)

theorem Reachable_Inv {h0 : Heap} {maxReq : Nat} {shrink : Bool} {h : Heap} {L : List Nat}
    (hlim : h0.limit ≤ h0.brk + 4294967296) (hmax : maxReq + 16 ≤ 4294967296)
    (hr : Reachable h0 maxReq shrink h L) :
    ∃ cs, Inv h L cs ∧ (shrink = false → NoAdj cs) := by
  obtain ⟨cs, i1, i2, _⟩ := Reachable_Inv_big hlim hmax hr
  exact ⟨cs, i1, i2⟩

/-! ## The forward scan -/

theorem scanBlocks_Seg (m : Mem) :
    ∀ (fuel p : Nat) (cs : Blocks), Seg m p cs → GET m (p + total cs - 4) = 1 →
      cs.length < fuel → scanBlocks fuel m p = some ((layout p cs).map (fun e => e.1)) := by
  intro fuel
  induction fuel with
  | zero => intro p cs _ _ h; omega
  | succ k ih =>
    intro p cs hseg hepi hlen
    simp only [scanBlocks, HD, W_SIZE, GET_SIZE_eq]
    cases cs with
    | nil =>
      simp only [total_nil, Nat.add_zero] at hepi
      rw [hepi]
      simp [layout_nil]
    | cons b bs =>
      obtain ⟨h1, h2, h3, h4, h5, h6⟩ := hseg
      obtain ⟨d1, _⟩ := tag_decode h4 h2 h3
      rw [d1, if_pos (by omega)]
      have hnp : NEXT_PLACE m p = p + b.1 := by
        unfold NEXT_PLACE W_SIZE; rw [GET_SIZE_eq, d1]
      rw [hnp, ih (p + b.1) bs h6 (by
        simp only [total_cons] at hepi
        rw [← hepi]; congr 1; omega) (by simp only [List.length_cons] at hlen; omega)]
      simp [layout_cons]

theorem layout_tags {m : Mem} {p q S a : Nat} {cs : Blocks} (hseg : Seg m p cs)
    (h : (q, S, a) ∈ layout p cs) :
    GET m (q - 4) = S + a ∧ GET m (q + S - 8) = S + a ∧ 8 ≤ S ∧ S % 8 = 0 ∧ a ≤ 1 := by
  obtain ⟨pre, post, e1, e2⟩ := mem_layout h
  rw [e1, Seg_append] at hseg
  obtain ⟨_, c1, c2, c3, c4, c5, _⟩ := hseg
  rw [e2]
  exact ⟨c4, c5, c1, c2, c3⟩

theorem layout_next {m : Mem} {p q S a : Nat} {cs : Blocks} (hseg : Seg m p cs)
    (hepi : GET m (p + total cs - 4) = 1) (hna : NoAdj cs) (h : (q, S, a) ∈ layout p cs) :
    a = 0 → GET m (q + S - 4) % 2 = 1 := by
  intro ha
  obtain ⟨pre, post, e1, e2⟩ := mem_layout h
  rw [e1, Seg_append] at hseg
  obtain ⟨_, c1, c2, c3, c4, c5, hpost⟩ := hseg
  dsimp only at c1 hpost
  rw [e1] at hna hepi
  cases post with
  | nil =>
    simp only [total_append, total_cons, total_nil, Nat.add_zero] at hepi
    have : q + S - 4 = p + (total pre + S) - 4 := by omega
    rw [this, hepi]
  | cons c post =>
    obtain ⟨d1, d2, d3, d4, _⟩ := hpost
    have hnc := (List.chain'_cons.1 ((NoAdj_split _ _ _).1 hna).2).1
    dsimp only at hnc
    have : q + S - 4 = p + total pre + S - 4 := by omega
    rw [this, d4]
    have : c.2 ≠ 0 := fun h0 => hnc ⟨ha, h0⟩
    omega

/-- The scan of a well-formed heap visits exactly the blocks of its sequence. -/
theorem heapBlocks_WF {s : Heap} {cs : Blocks} {fuel : Nat} (hwf : WF s cs)
    (hfuel : s.brk ≤ fuel) :
    ∃ ps, heapBlocks fuel s = some ps ∧
      ∀ p ∈ ps, ∃ S a, (p, S, a) ∈ layout s.heap_head cs := by
  have hlen := Seg_length_le hwf.2.1
  have h4 := hwf.2.2.2.1
  have h5 := hwf.2.2.2.2.1
  have hscan := scanBlocks_Seg s.mem fuel s.heap_head cs hwf.2.1 (WF_epi hwf) (by omega)
  refine ⟨((layout s.heap_head cs).map (fun e => e.1)).tail, ?_, ?_⟩
  · unfold heapBlocks; rw [hscan]; rfl
  · intro p hp
    have := List.mem_of_mem_tail hp
    obtain ⟨e, he, rfl⟩ := List.mem_map.1 this
    exact ⟨e.2.1, e.2.2, he⟩

/-- The header `place` leaves, whatever the state of the heap. -/
theorem place_header (m : Mem) {bp a : Nat} (ha8 : a % 8 = 0) (ha : 8 ≤ a)
    (halt : a < 4294967296) (hbp : bp ≠ 0) : GET (place m bp a) (bp - 4) = a + 1 := by
  have hS8 := GET_SIZE_mod8 m (bp - 4)
  have hSlt : GET_SIZE m (bp - 4) < 4294967296 := by
    rw [GET_SIZE_eq]; have := GET_lt m (bp - 4); omega
  unfold place
  simp only [HD, W_SIZE, UINT]
  generalize GET_SIZE m (bp - 4) = S at *
  split
  · rename_i hc
    rw [PACK_one ha8, PACK_zero]
    have e1 : FT (PUT m (bp - 4) (a + 1)) bp = bp + a - 8 := by
      unfold FT HD W_SIZE D_SIZE
      rw [GET_SIZE_of (GET_PUT_same (by omega)) ha8 (Nat.le_refl 1)]
    rw [e1]
    have e2 : NEXT_PLACE (PUT (PUT m (bp - 4) (a + 1)) (bp + a - 8) (a + 1)) bp = bp + a := by
      unfold NEXT_PLACE W_SIZE
      rw [GET_SIZE_of (a := 1) (by rw [GET_PUT_ne (by omega), GET_PUT_same (by omega)]) ha8
        (Nat.le_refl 1)]
    rw [e2]
    have e3 : FT (PUT (PUT (PUT m (bp - 4) (a + 1)) (bp + a - 8) (a + 1)) (bp + a - 4)
        ((S + 4294967296 - a) % 4294967296)) (bp + a) =
        bp + a + (S + 4294967296 - a) % 4294967296 - 8 := by
      unfold FT HD W_SIZE D_SIZE
      rw [GET_SIZE_of (a := 0) (s := (S + 4294967296 - a) % 4294967296)
        (by rw [GET_PUT_same (by omega)]; rfl) (by omega) (by omega)]
    rw [e3, GET_PUT_ne (by omega), GET_PUT_ne (by omega), GET_PUT_ne (by omega),
      GET_PUT_same (by omega)]
  · rename_i hc
    have hSa : S = a := by omega
    subst hSa
    rw [PACK_one ha8]
    have e1 : FT (PUT m (bp - 4) (S + 1)) bp = bp + S - 8 := by
      unfold FT HD W_SIZE D_SIZE
      rw [GET_SIZE_of (GET_PUT_same (by omega)) ha8 (Nat.le_refl 1)]
    rw [e1, GET_PUT_ne (by omega), GET_PUT_same (by omega)]

/-! ## Payload contents across `mm_realloc` -/

theorem layout_ge {p q S a : Nat} {cs : Blocks} (h : (q, S, a) ∈ layout p cs) :
    p ≤ q ∧ q + S ≤ p + total cs := by
  obtain ⟨pre, post, e1, e2⟩ := mem_layout h
  rw [e1, total_append, total_cons, e2]
  exact ⟨by omega, by dsimp only; omega⟩

theorem layout_disjoint {m : Mem} {p q1 S1 a1 q2 S2 a2 : Nat} {cs : Blocks}
    (hseg : Seg m p cs) (h1 : (q1, S1, a1) ∈ layout p cs) (h2 : (q2, S2, a2) ∈ layout p cs)
    (hne : a1 ≠ a2) : q1 + S1 ≤ q2 ∨ q2 + S2 ≤ q1 := by
  induction cs generalizing p with
  | nil => simp [layout_nil] at h1
  | cons b bs ih =>
    rw [layout_cons] at h1 h2
    rcases List.mem_cons.1 h1 with h1 | h1 <;> rcases List.mem_cons.1 h2 with h2 | h2
    · simp only [Prod.mk.injEq] at h1 h2
      omega
    · simp only [Prod.mk.injEq] at h1
      have := (layout_ge h2).1
      omega
    · simp only [Prod.mk.injEq] at h2
      have := (layout_ge h1).1
      omega
    · exact ih hseg.2.2.2.2.2 h1 h2

/-- A live block with its size, read off its header. -/
theorem LiveIn_entry {s : Heap} {cs : Blocks} {p S : Nat} (hwf : WF s cs)
    (hp : LiveIn s.heap_head cs p) (hS : GET s.mem (p - 4) = S + 1) (hS8 : S % 8 = 0) :
    (p, S, 1) ∈ layout s.heap_head cs := by
  obtain ⟨_, S0, hmem⟩ := hp
  obtain ⟨t1, _, _, t4, _⟩ := layout_tags hwf.2.1 hmem
  have : S0 = S := by rw [hS] at t1; omega
  rw [← this]; exact hmem

/-- The words of the old payload arrive in the new block: the relocation of
`mm_realloc` copies them and frees the old block without touching them again. -/
theorem realloc_move_words {s : Heap} {L : List Nat} {cs pre post : Blocks} {S2 a p S : Nat}
    (hinv : Inv s L cs) (hcs : cs = pre ++ (S2, 0) :: post) (hpre : pre ≠ [])
    (ha8 : a % 8 = 0) (ha : 8 ≤ a) (haS2 : a ≤ S2) (hp : p ∈ L)
    (hS : GET s.mem (p - 4) = S + 1) (hS8 : S % 8 = 0) (hSa : S < a) (hS0 : 8 ≤ S) :
    ∀ w, w + 8 < S →
      (realloc_move s (s.heap_head + total pre) p a S).2.mem (s.heap_head + total pre + w) =
        s.mem (p + w) := by
  intro w hw
  have hhh := hinv.1.2.2.2.2.1
  -- the two blocks in the heap before the call
  have hpe : (p, S, 1) ∈ layout s.heap_head cs := LiveIn_entry hinv.1 (hinv.2.2 p hp) hS hS8
  have hqe : (s.heap_head + total pre, S2, 0) ∈ layout s.heap_head cs := by
    rw [hcs]; exact mem_layout_mid _ _ _ _ _
  have hD := layout_disjoint hinv.1.2.1 hpe hqe (by decide)
  have hSlt : S < 4294967296 := by
    have hG := GET_lt s.mem (p - 4)
    omega
  have hsz : (S + UINT - 2 * W_SIZE) % UINT = S - 8 := by
    unfold UINT W_SIZE; omega
  -- placing the new block
  obtain ⟨k1, _⟩ := place_Inv hinv hcs hpre ha8 ha haS2
  obtain ⟨_, kf⟩ := place_WF hinv.1 hcs hpre ha8 ha haS2
  obtain ⟨a', tl, e1, e2⟩ := placeL_head S2 a haS2
  have hcs2 : pre ++ placeL S2 a ++ post = pre ++ (a', 1) :: (tl ++ post) := by
    rw [e1]; simp
  -- the copy
  obtain ⟨m3, hm3⟩ : ∃ m3 : Mem, m3 = memcpy (place s.mem (s.heap_head + total pre) a)
      (s.heap_head + total pre) p (S - 8) := ⟨_, rfl⟩
  have hwf3 : WF { s with mem := m3 } (pre ++ placeL S2 a ++ post) := by
    refine WF_payload (s := { s with mem := place s.mem (s.heap_head + total pre) a })
      k1.1 hcs2 ?_
    intro y hy
    rw [hm3]
    exact memcpy_outside (by dsimp only at hy ⊢; omega)
  have hp3 : LiveIn s.heap_head (pre ++ placeL S2 a ++ post) p :=
    k1.2.2 p (List.mem_cons_of_mem _ hp)
  have hhd3 : GET m3 (p - 4) = S + 1 := by
    have hpos := LiveIn_pos hinv.1.2.1 (hinv.2.2 p hp)
    rw [hm3, GET_congr (memcpy_outside (by omega)), GET_congr (kf _ (by omega) (by omega))]
    exact hS
  have hpe3 : (p, S, 1) ∈ layout s.heap_head (pre ++ placeL S2 a ++ post) :=
    LiveIn_entry (s := { s with mem := m3 }) hwf3 hp3 hhd3 hS8
  have hqe3 : (s.heap_head + total pre, a', 1) ∈
      layout s.heap_head (pre ++ placeL S2 a ++ post) := by
    rw [hcs2]; exact mem_layout_mid _ _ _ _ _
  -- freeing the old block
  obtain ⟨pre', pb', S', rest', hcs3, hpeq⟩ := LiveIn_split hp3
  have hS' : S' = S := by
    have := (LiveIn_header hwf3 hcs3).1
    rw [← hpeq] at this
    rw [hhd3] at this
    omega
  subst hS'
  obtain ⟨kw, kfree⟩ := mm_free_chain hwf3 hcs3
  rw [← hpeq] at kw kfree
  have hqp : s.heap_head + total pre ≠ p := by
    intro h
    have := (layout_tags hinv.1.2.1 hqe).1
    rw [h, hS] at this
    omega
  have hqe4 : (s.heap_head + total pre, a', 1) ∈
      layout s.heap_head (coalesceL pre' pb' S' rest') := by
    rw [hcs3] at hqe3
    exact mem_layout_coalesceL hqe3 (fun _ => by rw [← hpeq]; exact hqp)
  have hpb' := (LiveIn_header hwf3 hcs3).2.2.2.2.2
  have hpf' := prevFree_le pb'
  have hst : s.heap_head + total (pre' ++ if pb'.2 = 0 then [] else [pb']) =
      p - prevFree pb' := by
    rw [total_append, hpeq]
    unfold prevFree
    split
    · simp only [total_nil]; omega
    · simp only [total_cons, total_nil]; omega
  have hme4 : (p - prevFree pb', prevFree pb' + S' + nextFree rest', 0) ∈
      layout s.heap_head (coalesceL pre' pb' S' rest') := by
    unfold coalesceL
    rw [← hst]
    exact mem_layout_mid s.heap_head _ _ _ _
  have hD4 := layout_disjoint kw.2.1 hqe4 hme4 (by decide)
  have hfin : (realloc_move s (s.heap_head + total pre) p a S').2.mem
      (s.heap_head + total pre + w) = m3 (s.heap_head + total pre + w) := by
    dsimp only [realloc_move]
    rw [hsz, ← hm3]
    exact kfree _ (by omega) (by omega) (by omega) (by omega)
  rw [hfin, hm3, memcpy_inside (by omega) (by omega)]
  have : p + (s.heap_head + total pre + w - (s.heap_head + total pre)) = p + w := by omega
  rw [this]
  exact kf _ (by omega) (by omega)

/-- The words of the payload that `mm_realloc` promises to keep, in a well-formed
heap. -/
theorem realloc_words {fuel : Nat} {s s' : Heap} {L : List Nat} {cs : Blocks}
    {p n q old : Nat} (hinv : Inv s L cs) (hp : p ∈ L) (hn0 : n ≠ 0)
    (hn : n + 16 ≤ 4294967296) (hold : old + 8 ≤ GET_SIZE s.mem (HD p))
    (hm : mm_realloc fuel s p n = some (q, s')) (hq : q ≠ 0) :
    ∀ w, w < old → w < n → s'.mem (q + w) = s.mem (p + w) := by
  intro w hw1 hw2
  obtain ⟨a1, a2, a3, a4, _, _⟩ := adjusted_props hn
  have hlive := hinv.2.2 p hp
  have hppos := LiveIn_pos hinv.1.2.1 hlive
  have hp0 : p ≠ 0 := by omega
  obtain ⟨pre, pb, S, rest, hcs, hpeq⟩ := LiveIn_split hlive
  obtain ⟨g1, g2, g3, _, g5, g6⟩ := LiveIn_header hinv.1 hcs
  rw [← hpeq] at g1
  have hsize : GET_SIZE s.mem (HD p) = S := GET_SIZE_of g1 g3 (Nat.le_refl 1)
  rw [hsize] at hold
  have hcs2 : cs = (pre ++ [pb]) ++ (S, 1) :: rest := by rw [hcs]; simp
  have htot2 : s.heap_head + total (pre ++ [pb]) = p := by
    rw [hpeq, total_append, total_cons, total_nil]; omega
  rcases mm_realloc_cases hp0 hn0 hm with ⟨_, hqe, rfl⟩ | ⟨hlt, hqe, rfl⟩ |
    ⟨hgt, hfree, hsum, hqe, rfl⟩ | ⟨hrel, hf, _, rfl⟩ | ⟨_, _, _, h0, _⟩ |
    ⟨hrel, _, he, rfl, rfl⟩
  · rw [hqe]
  · -- shrink in place
    rw [hqe]
    rw [hsize] at hlt
    obtain ⟨_, kf⟩ := place_WF hinv.1 hcs2 (by simp) a1 (by omega) (Nat.le_of_lt hlt)
    rw [htot2] at kf
    exact kf _ (by omega) (by omega)
  · -- grow in place
    rw [hqe]
    rw [hsize] at hgt hsum
    have hnp : NEXT_PLACE s.mem p = p + S := by
      unfold NEXT_PLACE W_SIZE
      have := hsize
      unfold HD W_SIZE at this
      rw [this]
    rw [hnp] at hfree hsum
    have hseg := hinv.1.2.1
    rw [hcs, Seg_append] at hseg
    obtain ⟨_, _, _, _, _, _, _, _, _, _, _, hrest⟩ := hseg
    dsimp only at hrest
    rw [← hpeq] at hrest
    have hepi := WF_epi hinv.1
    have hT := hinv.1.2.2.2.2.2
    rw [hcs] at hepi hT
    simp only [total_append, total_cons, UINT] at hepi hT
    have hepi' : GET s.mem (p + S + total rest - 4) = 1 := by
      rw [← hepi]; congr 1; omega
    rcases next_cases hrest hepi' with ⟨_, _, ns, n3, n4⟩ |
      ⟨ns, post, n0, _, _, n3, n4, n5, _, _⟩
    · have : GET_ALLOC s.mem (HD (p + S)) = 1 := GET_ALLOC_of n4 n3 (Nat.le_refl 1)
      omega
    · subst n0
      simp only [total_cons] at hT
      have hns : GET_SIZE s.mem (HD (p + S)) = ns :=
        GET_SIZE_of (a := 0) (by rw [Nat.add_zero]; exact n5) n4 (by omega)
      rw [hns] at hsum
      have hsm : (ns + S) % UINT = S + ns := by unfold UINT; omega
      rw [hsm] at hsum
      have hcs3 : cs = (pre ++ [pb]) ++ (S, 1) :: (ns, 0) :: post := by rw [hcs]; simp
      obtain ⟨_, kf⟩ := grow_WF hinv.1 hcs3 (by simp) a1 (by omega) hsum
      rw [htot2] at kf
      show place _ p (adjusted n) (p + w) = s.mem (p + w)
      rw [hnp, hns, hsize, hsm, PACK_zero]
      exact kf _ (by omega) (by omega)
  · -- relocation into a free block
    obtain ⟨pre2, S2, post2, e1, e2, e3, e4, _⟩ := find_first_WF hinv.1 hf hq
    have hSa : S < adjusted n := by rw [← hsize]; exact hrel.1
    rw [hsize, e3]
    exact realloc_move_words hinv e1 e2 a1 (by omega) e4 hp g1 g3 hSa g2 w (by omega)
  · exact absurd h0 hq
  · -- relocation into the extended heap
    rcases extend_WF (a := adjusted n) hinv a1 a3 with ⟨_, hr⟩ | ⟨_, hne, pre2, S2, i1, i2, i3,
      i4, i5, _, i7⟩
    · rw [hr] at he; exact absurd rfl he
    · rw [hsize]
      have e : (extend_heap s (MAX (adjusted n) E_SIZE / W_SIZE)).1 =
          (extend_heap s (MAX (adjusted n) E_SIZE / W_SIZE)).2.heap_head + total pre2 := by
        rw [i5, i3]
      have hseg2 := i1.1.2.1
      rw [Seg_append] at hseg2
      have hlive2 := LiveIn_init (i1.2.2 p hp)
      have hlt := LiveIn_lt hseg2.1 hlive2
      rw [i5] at hlt
      have g1' : GET (extend_heap s (MAX (adjusted n) E_SIZE / W_SIZE)).2.mem (p - 4) = S + 1 := by
        rw [GET_congr (i7 _ (by rw [i3]; omega))]; exact g1
      -- the old block lies before the block the extension returns
      obtain ⟨_, S1, hmem⟩ := hlive2
      obtain ⟨t1, _⟩ := layout_tags hseg2.1 hmem
      have hS1 : S1 = S := by rw [g1'] at t1; omega
      have hge := (layout_ge hmem).2
      rw [hS1, i5] at hge
      have hSa : S < adjusted n := by rw [← hsize]; exact hrel.1
      have := realloc_move_words i1 rfl i2 a1 (by omega) i4 hp g1' g3 hSa g2 w (by omega)
      rw [← e] at this
      rw [this]
      exact i7 _ (by rw [i3]; omega)

theorem byteAt_congr {m m' : Mem} {p q k : Nat} (hp : p % 4 = 0) (hq : q % 4 = 0)
    (h : m' (q + (k - k % 4)) = m (p + (k - k % 4))) :
    byteAt m' (q + k) = byteAt m (p + k) := by
  unfold byteAt GET
  have e1 : (q + k) % 4 = k % 4 := by omega
  have e2 : (p + k) % 4 = k % 4 := by omega
  have e3 : q + k - k % 4 = q + (k - k % 4) := by omega
  have e4 : p + k - k % 4 = p + (k - k % 4) := by omega
  rw [e1, e2, e3, e4, h]

/-! ## Reachable test states -/

theorem demo1_reachable (M : Nat) (shrink : Bool) : Reachable demo0 M shrink demo1 [] :=
  Reachable.init rfl

theorem demo3_reachable (M : Nat) (hM : 16 ≤ M) (shrink : Bool) :
    Reachable demo0 M shrink demo3 [4136, 4112] :=
  @Reachable.malloc demo0 M shrink demo2 demo3 [4112] 4 16 4136
    (@Reachable.malloc demo0 M shrink demo1 demo2 [] 3 16 4112 (demo1_reachable M shrink) hM rfl)
    hM rfl

theorem tagsMatch_of {m : Mem} {p q S a : Nat} {cs : Blocks} (hseg : Seg m p cs)
    (h : (q, S, a) ∈ layout p cs) : tagsMatch m q := by
  obtain ⟨h1, h2, h3, h4, h5⟩ := layout_tags hseg h
  have e1 : GET_SIZE m (HD q) = S := GET_SIZE_of h1 h4 h5
  have e2 : FT m q = q + S - 8 := by unfold FT D_SIZE; rw [e1]
  unfold tagsMatch
  rw [e2, e1, GET_SIZE_of h2 h4 h5]
  exact ⟨rfl, by rw [GET_ALLOC_of h2 h4 h5]; exact GET_ALLOC_of h1 h4 h5⟩

theorem demo11_reachable (M : Nat) (hM : 16 ≤ M) (shrink : Bool) :
    Reachable demo0 M shrink demo11 [4136, 4112] :=
  Reachable.store (p := 4112) (y := 4112) (v := 305419896) (demo3_reachable M hM shrink)
    (by decide) (by decide) (by decide)

theorem demo3_WF : WF demo3 [(8, 1), (24, 1), (24, 1), (4048, 0)] := by
  refine ⟨rfl, ?_, by decide, by decide, by decide, by decide⟩
  simp only [Seg]
  decide

/-! ## Lemmas for the operations taken one by one -/

theorem find_first_loop_at (m : Mem) (a : Nat) :
    ∀ (pre : Blocks) (fuel p S : Nat) (post : Blocks), Seg m p (pre ++ (S, 0) :: post) → a ≤ S →
      (∀ b ∈ pre, ¬ (b.2 = 0 ∧ a ≤ b.1)) → pre.length < fuel →
      find_first_loop fuel m p a = some (p + total pre) := by
  intro pre
  induction pre with
  | nil =>
    intro fuel p S post hseg haS _ hf
    obtain ⟨f, rfl⟩ : ∃ f, fuel = f + 1 := ⟨fuel - 1, by simp at hf; omega⟩
    rw [List.nil_append, Seg_cons] at hseg
    obtain ⟨s1, s2, _, s4, _, _⟩ := hseg
    dsimp only at s1 s2 s4
    have e1 : GET_SIZE m (HD p) = S := GET_SIZE_of s4 s2 (Nat.zero_le 1)
    have e2 : GET_ALLOC m (HD p) = 0 := GET_ALLOC_of s4 s2 (Nat.zero_le 1)
    unfold find_first_loop
    rw [e1, e2]
    simp only [total_nil, Nat.add_zero]
    rw [if_pos (by omega), if_pos ⟨trivial, haS⟩]
  | cons b pre ih =>
    intro fuel p S post hseg haS hno hf
    obtain ⟨f, rfl⟩ : ∃ f, fuel = f + 1 := ⟨fuel - 1, by simp at hf; omega⟩
    rw [List.cons_append, Seg_cons] at hseg
    obtain ⟨s1, s2, s3, s4, _, s6⟩ := hseg
    have e1 : GET_SIZE m (HD p) = b.1 := GET_SIZE_of s4 s2 s3
    have e2 : GET_ALLOC m (HD p) = b.2 := GET_ALLOC_of s4 s2 s3
    have e3 : NEXT_PLACE m p = p + b.1 := by
      unfold NEXT_PLACE
      have : GET_SIZE m (p - W_SIZE) = b.1 := e1
      rw [this]
    unfold find_first_loop
    rw [e1, e2, e3]
    rw [if_pos (by omega), if_neg (hno b (by simp))]
    rw [ih f (p + b.1) S post s6 haS (fun c hc => hno c (by simp [hc])) (by simp at hf; omega)]
    rw [total_cons]
    congr 1
    omega


theorem mem_of_layout {p q S a : Nat} {cs : Blocks} (h : (q, S, a) ∈ layout p cs) :
    (S, a) ∈ cs := by
  obtain ⟨pre, post, rfl, _⟩ := mem_layout h
  simp

theorem mm_init_reject1 {h0 : Heap} (hg : ¬ Grants h0 16) :
    mm_init h0 =
      (-1, { h0 with sbrk_calls := h0.sbrk_calls + 1, heap_head := 18446744073709551615 }) := by
  unfold mm_init
  have e16 : 4 * W_SIZE = 16 := rfl
  rw [e16, sbrk_reject hg]

theorem mm_init_grant1 {h0 : Heap} (hg : Grants h0 16) :
    mm_init h0 = (if (extend_heap (init_mid h0) (E_SIZE / W_SIZE)).1 = 0
      then (-1, (extend_heap (init_mid h0) (E_SIZE / W_SIZE)).2)
      else (0, (extend_heap (init_mid h0) (E_SIZE / W_SIZE)).2)) := by
  unfold mm_init
  have e16 : 4 * W_SIZE = 16 := rfl
  rw [e16, sbrk_grant hg]
  rfl

theorem init_mid_WF (h0 : Heap) : WF (init_mid h0) [(8, 1)] := by
  unfold init_mid
  refine ⟨rfl, ⟨by omega, by omega, by omega, ?_, ?_, trivial⟩, ?_, ?_, ?_, ?_⟩
  · show GET _ (h0.brk + 8 - 4) = 8 + 1
    have : h0.brk + 8 - 4 = h0.brk + 4 := by omega
    rw [this, GET_PUT_ne (by omega), GET_PUT_ne (by omega), GET_PUT_same (by omega)]
  · show GET _ (h0.brk + 8 + 8 - 8) = 8 + 1
    have : h0.brk + 8 + 8 - 8 = h0.brk + 8 := by omega
    rw [this, GET_PUT_ne (by omega), GET_PUT_same (by omega)]
  · show GET _ (h0.brk + 16 - 4) = 1
    have : h0.brk + 16 - 4 = h0.brk + 12 := by omega
    rw [this, GET_PUT_same (by omega)]
  · show h0.brk + 8 + total [(8, 1)] = h0.brk + 16
    simp only [total_cons, total_nil]
  · show 8 ≤ h0.brk + 8
    omega
  · simp only [total_cons, total_nil, UINT]; omega

theorem mm_init_WF {h0 h : Heap} (hi : mm_init h0 = (0, h)) :
    WF h [(8, 1), (4096, 0)] ∧ h.heap_head = h0.brk + 8 ∧ h.brk = h0.brk + 4112 ∧
    h.sbrk_calls = h0.sbrk_calls + 2 := by
  have eb : ext_bytes (E_SIZE / W_SIZE) = 4096 := by decide
  by_cases hg : Grants h0 16
  · rw [mm_init_grant1 hg] at hi
    by_cases hg2 : Grants (init_mid h0) (ext_bytes (E_SIZE / W_SIZE))
    · obtain ⟨k1, k2, k3, k4, k5, k6⟩ := @extend_heap_chain _ _ [] (8, 1) _ (init_mid_WF h0) rfl
        hg2 (by rw [eb]; omega) (by rw [eb]; simp only [total_cons, total_nil]; omega)
      have hne : (extend_heap (init_mid h0) (E_SIZE / W_SIZE)).1 ≠ 0 := by
        rw [k1]
        show h0.brk + 16 - prevFree (8, 1) ≠ 0
        simp [prevFree]
      rw [if_neg hne] at hi
      simp only [Prod.mk.injEq, true_and] at hi
      have hcl : coalesceL [] (8, 1) (ext_bytes (E_SIZE / W_SIZE)) [] = [(8, 1), (4096, 0)] := by
        rw [eb]; rfl
      rw [hcl, hi] at k2
      rw [hi] at k3 k5
      refine ⟨k2, k3, ?_, ?_⟩
      · rw [k5, eb]; rfl
      · rw [← hi, extend_heap_grant hg2]; rfl
    · rw [extend_heap_reject hg2] at hi
      simp at hi
  · rw [mm_init_reject1 hg] at hi
    simp at hi


theorem sbrk_grant_fields {s : Heap} {n : Nat} (h : Grants s n) :
    (sbrk s n).2.brk = s.brk + n ∧ (sbrk s n).2.limit = s.limit := by
  rw [sbrk_grant h]; exact ⟨rfl, rfl⟩

theorem mm_malloc_at {s : Heap} {cs pre post : Blocks} {S n fuel : Nat} (hwf : WF s cs)
    (hcs : cs = pre ++ (S, 0) :: post) (hpre : pre ≠ []) (hn : n ≠ 0) (haS : adjusted n ≤ S)
    (hno : ∀ b ∈ pre, ¬ (b.2 = 0 ∧ adjusted n ≤ b.1)) (hf : pre.length < fuel) :
    mm_malloc fuel s n = some (s.heap_head + total pre,
      { s with mem := place s.mem (s.heap_head + total pre) (adjusted n) }) := by
  have hseg := hwf.2.1
  rw [hcs] at hseg
  have hff : find_first fuel s (adjusted n) = some (s.heap_head + total pre) :=
    find_first_loop_at s.mem _ pre fuel s.heap_head S post hseg haS hno hf
  rw [Seg_append] at hseg
  have hpos := total_pos_of_Seg hseg.1 hpre
  have hne : s.heap_head + total pre ≠ 0 := by omega
  unfold mm_malloc
  rw [if_neg hn]
  simp only [hff, hne, ne_eq, not_false_eq_true, if_true]

theorem scanStop_Seg (m : Mem) :
    ∀ (fuel p : Nat) (cs : Blocks), Seg m p cs → GET m (p + total cs - 4) = 1 →
      cs.length < fuel → scanStop fuel m p = some (p + total cs) := by
  intro fuel
  induction fuel with
  | zero => intro p cs _ _ h; omega
  | succ k ih =>
    intro p cs hseg hepi hlen
    simp only [scanStop, HD, W_SIZE, GET_SIZE_eq]
    cases cs with
    | nil =>
      simp only [total_nil, Nat.add_zero] at hepi
      rw [hepi]
      simp [total_nil]
    | cons b bs =>
      obtain ⟨h1, h2, h3, h4, h5, h6⟩ := hseg
      obtain ⟨d1, _⟩ := tag_decode h4 h2 h3
      rw [d1, if_pos (by omega)]
      have hnp : NEXT_PLACE m p = p + b.1 := by
        unfold NEXT_PLACE W_SIZE; rw [GET_SIZE_eq, d1]
      rw [hnp, ih (p + b.1) bs h6 (by
        simp only [total_cons] at hepi
        rw [← hepi]; congr 1; omega) (by simp only [List.length_cons] at hlen; omega)]
      simp only [total_cons]
      congr 1
      omega

theorem adjusted_mod8 (n : Nat) : adjusted n % 8 = 0 ∧ adjusted n < 4294967296 := by
  unfold adjusted D_SIZE UINT
  split
  · omega
  · constructor
    · omega
    · exact Nat.mod_lt _ (by omega)

theorem grow_list {S F a : Nat} (ha8 : a % 8 = 0) (hS8 : S % 8 = 0) (hF8 : F % 8 = 0)
    (haS : a ≤ S + F) :
    placeL (S + F) a = (a, 1) :: (if a < S + F then [(S + F - a, 0)] else []) := by
  unfold placeL
  by_cases h : a < S + F
  · rw [if_pos (by omega), if_pos h]
  · rw [if_neg (by omega), if_neg h]
    have : S + F = a := by omega
    rw [this]

theorem extend_heap_below {s : Heap} {cs pre : Blocks} {pb : Nat × Nat} {words : Nat}
    (ht : Tagged s cs) (hcs : cs = pre ++ [pb]) (hg : Grants s (ext_bytes words))
    (h8 : 8 ≤ ext_bytes words) (hb : pb.2 = 0 → pb.1 + ext_bytes words < 4294967296) :
    (extend_heap s words).1 = s.brk - prevFree pb ∧
    GET (extend_heap s words).2.mem (s.brk - prevFree pb - 4) = prevFree pb + ext_bytes words ∧
    ∀ y, y + 4 < s.brk - prevFree pb → (extend_heap s words).2.mem y = s.mem y := by
  subst hcs
  obtain ⟨w1, w2, w3, w4, w5⟩ := ht
  have hseg := w2
  rw [Seg_append] at hseg
  obtain ⟨hpre, ⟨b1, b2, b3, b4, b5, _⟩⟩ := hseg
  simp only [total_append, total_cons, total_nil, Nat.add_zero] at w4
  have hs8 := ext_bytes_mod8 words
  have hlt : ext_bytes words < 2147483648 := hg.1
  have hbrk : s.brk = s.heap_head + total pre + pb.1 := by omega
  rw [extend_heap_grant hg, ext_mem_eq h8 hs8 (by omega) (by omega)]
  dsimp only
  generalize ext_bytes words = size at *
  rw [hbrk]
  obtain ⟨m3, hm3⟩ : ∃ m3 : Mem, m3 = PUT (PUT (PUT s.mem (s.heap_head + total pre + pb.1 - 4) size)
      (s.heap_head + total pre + pb.1 + size - 8) size)
      (s.heap_head + total pre + pb.1 + size - 4) 1 := ⟨_, rfl⟩
  rw [← hm3]
  have hpf : GET m3 (s.heap_head + total pre + pb.1 - 8) = pb.1 + pb.2 := by
    rw [hm3, GET_PUT_ne (by omega), GET_PUT_ne (by omega), GET_PUT_ne (by omega), b5]
  have hph : GET m3 (s.heap_head + total pre + pb.1 - pb.1 - 4) = pb.1 + pb.2 := by
    have : s.heap_head + total pre + pb.1 - pb.1 - 4 = s.heap_head + total pre - 4 := by omega
    rw [this, hm3, GET_PUT_ne (by omega), GET_PUT_ne (by omega), GET_PUT_ne (by omega), b4]
  have hch : GET m3 (s.heap_head + total pre + pb.1 - 4) = size := by
    rw [hm3, GET_PUT_ne (by omega), GET_PUT_ne (by omega), GET_PUT_same (by omega)]
  have hnh : GET m3 (s.heap_head + total pre + pb.1 + size - 4) = 0 + 1 := by
    rw [hm3, GET_PUT_same (by omega)]
  have hfr : ∀ y, y + 4 < s.heap_head + total pre + pb.1 → m3 y = s.mem y := by
    intro y hy
    rw [hm3, PUT_ne (by omega), PUT_ne (by omega), PUT_ne (by omega)]
  have hpa : pb.2 = 0 ∨ pb.2 = 1 := by omega
  rcases hpa with hpa | hpa
  · rw [hpa, Nat.add_zero] at hpf hph
    have hpfr : prevFree pb = pb.1 := by simp [prevFree, hpa]
    have hbb := hb hpa
    rw [coalesce_01 hpf hph b2 b1 (by omega) hch hs8 h8 hnh (by decide) hbb, hpfr]
    dsimp only
    refine ⟨rfl, ?_, ?_⟩
    · rw [GET_PUT_same (by omega)]
    · intro y hy
      rw [PUT_ne (by omega), PUT_ne (by omega)]
      exact hfr y (by omega)
  · rw [hpa] at hpf hph
    have hpfr : prevFree pb = 0 := by simp [prevFree, hpa]
    rw [coalesce_11 hpf hph b2 b1 (by omega) hch hs8 hnh (by decide), hpfr]
    dsimp only
    refine ⟨rfl, ?_, ?_⟩
    · rw [Nat.sub_zero, Nat.zero_add]; exact hch
    · intro y hy
      exact hfr y (by omega)

theorem layout_apart {m : Mem} {p q1 S1 a1 q2 S2 a2 : Nat} {cs : Blocks}
    (hseg : Seg m p cs) (h1 : (q1, S1, a1) ∈ layout p cs) (h2 : (q2, S2, a2) ∈ layout p cs)
    (hne : q1 ≠ q2) : q1 + S1 ≤ q2 ∨ q2 + S2 ≤ q1 := by
  induction cs generalizing p with
  | nil => simp [layout_nil] at h1
  | cons b bs ih =>
    rw [layout_cons] at h1 h2
    rcases List.mem_cons.1 h1 with h1 | h1 <;> rcases List.mem_cons.1 h2 with h2 | h2
    · simp only [Prod.mk.injEq] at h1 h2
      omega
    · simp only [Prod.mk.injEq] at h1
      have := (layout_ge h2).1
      omega
    · simp only [Prod.mk.injEq] at h2
      have := (layout_ge h1).1
      omega
    · exact ih hseg.2.2.2.2.2 h1 h2


theorem kept_of_frame {m m' : Mem} {p q S : Nat} {cs : Blocks} (hseg : Seg m p cs)
    (hmem : (q, S, 1) ∈ layout p cs)
    (hf : ∀ y, q - 4 ≤ y → y + 4 < q + S → m' y = m y) : BlockKept m m' q S := by
  obtain ⟨t1, t2, t3, t4, _⟩ := layout_tags hseg hmem
  have h1 : GET m' (q - 4) = S + 1 := by
    rw [GET_congr (hf _ (Nat.le_refl _) (by omega))]; exact t1
  have h2 : GET m' (q + S - 8) = S + 1 := by
    rw [GET_congr (hf _ (by omega) (by omega))]; exact t2
  have hsz : GET_SIZE m' (HD q) = S := GET_SIZE_of h1 t4 (Nat.le_refl 1)
  refine ⟨by rw [PACK_one t4]; exact h1, ?_, ?_, ?_⟩
  · rw [PACK_one t4]
    show GET m' (q + GET_SIZE m' (HD q) - 8) = _
    rw [hsz]; exact h2
  · intro y hy1 hy2
    exact hf y (by omega) (by omega)
  · intro hq k hk
    exact byteAt_congr hq hq (hf _ (by omega) (by omega))

theorem layout_mid_free (p : Nat) (pre post : Blocks) (pb : Nat × Nat) (h0 : pb.2 = 0) :
    (p + total pre, pb.1, 0) ∈ layout p (pre ++ pb :: post) := by
  obtain ⟨ps, pa⟩ := pb
  dsimp only at h0 ⊢
  subst h0
  exact mem_layout_mid _ _ _ _ _

theorem layout_snoc_le {p q S : Nat} {pre : Blocks} {pb : Nat × Nat}
    (h : (q, S, 1) ∈ layout p (pre ++ [pb])) : q + S + prevFree pb ≤ p + total pre + pb.1 := by
  rw [layout_append, List.mem_append] at h
  have := prevFree_le pb
  rcases h with h | h
  · have := (layout_ge h).2
    omega
  · rw [layout_cons, layout_nil, List.mem_singleton] at h
    simp only [Prod.mk.injEq] at h
    obtain ⟨e1, e2, e3⟩ := h
    have : prevFree pb = 0 := by simp [prevFree, ← e3]
    omega


theorem demo2_WF : WF demo2 [(8, 1), (24, 1), (4072, 0)] := by
  refine ⟨rfl, ?_, by decide, by decide, by decide, by decide⟩
  simp only [Seg]
  decide

theorem WF_of_Tagged {s : Heap} {cs : Blocks} (ht : Tagged s cs)
    (hb : total cs < 4294967296) : WF s cs :=
  ⟨ht.1, ht.2.1, ht.2.2.1, ht.2.2.2.1, ht.2.2.2.2, hb⟩

theorem Tagged_of_WF {s : Heap} {cs : Blocks} (h : WF s cs) : Tagged s cs :=
  ⟨h.1, h.2.1, h.2.2.1, h.2.2.2.1, h.2.2.2.2.1⟩

theorem heapBlocks_tail {s : Heap} {cs : Blocks} {fuel : Nat} (hwf : WF s cs)
    (hfuel : s.brk ≤ fuel) :
    ∃ ps, heapBlocks fuel s = some ps ∧
      ∀ p ∈ ps, ∃ S a, (p, S, a) ∈ layout s.heap_head cs ∧ (S, a) ∈ cs.tail := by
  have hlen := Seg_length_le hwf.2.1
  have h4 := hwf.2.2.2.1
  have h5 := hwf.2.2.2.2.1
  have hscan := scanBlocks_Seg s.mem fuel s.heap_head cs hwf.2.1 (WF_epi hwf) (by omega)
  obtain ⟨bs, hbs⟩ := WF_nonempty hwf
  refine ⟨((layout s.heap_head cs).map (fun e => e.1)).tail, ?_, ?_⟩
  · unfold heapBlocks; rw [hscan]; rfl
  · intro p hp
    rw [hbs, layout_cons] at hp
    simp only [List.map_cons, List.tail_cons] at hp
    obtain ⟨e, he, rfl⟩ := List.mem_map.1 hp
    obtain ⟨q, S, a⟩ := e
    refine ⟨S, a, ?_, ?_⟩
    · rw [hbs, layout_cons]
      exact List.mem_cons_of_mem _ he
    · rw [hbs]
      exact mem_of_layout he

theorem big4_tagged : Tagged big4 [(8, 1), (2147483008, 1), (2147487104, 0)] := by
  refine ⟨rfl, ?_, by decide, by decide, by decide⟩
  simp only [Seg]
  decide

theorem big8_tagged : Tagged big8 [(8, 1), (16, 1), (2147483008, 1), (2147484288, 0)] := by
  refine ⟨rfl, ?_, by decide, by decide, by decide⟩
  simp only [Seg]
  decide

theorem big4_reachable : Reachable big0 2147483647 true big4
    (removePtr [2147487120, 4112] 2147487120) :=
  @Reachable.free big0 2147483647 true big3 [2147487120, 4112] 2147487120
    (@Reachable.malloc big0 2147483647 true big2 big3 [4112] 4 2147483000 2147487120
      (@Reachable.malloc big0 2147483647 true big1 big2 [] 3 2147483000 4112
        (Reachable.init rfl) (by decide) rfl) (by decide) rfl) (by decide)

theorem big8_reachable : Reachable big0 2147483647 true big8
    (removePtr [2147487136, 4128, 4112] 2147487136) :=
  @Reachable.free big0 2147483647 true big7 [2147487136, 4128, 4112] 2147487136
    (@Reachable.malloc big0 2147483647 true big6 big7 [4128, 4112] 5 2147480200 2147487136
      (@Reachable.malloc big0 2147483647 true big5 big6 [4112] 4 2147483000 4128
        (@Reachable.malloc big0 2147483647 true big1 big5 [] 3 8 4112
          (Reachable.init rfl) (by decide) rfl) (by decide) rfl) (by decide) rfl) (by decide)

/-! ## Operations on heaps of any size -/

theorem Tagged_nonempty {s : Heap} {cs : Blocks} (h : Tagged s cs) : ∃ bs, cs = (8, 1) :: bs := by
  obtain ⟨h1, _⟩ := h
  cases cs with
  | nil => simp at h1
  | cons b bs =>
    simp only [List.head?_cons, Option.some.injEq] at h1
    exact ⟨bs, by rw [h1]⟩

theorem Tagged_epi {s : Heap} {cs : Blocks} (h : Tagged s cs) :
    GET s.mem (s.heap_head + total cs - 4) = 1 := by
  rw [h.2.2.2.1]; exact h.2.2.1

theorem find_first_Tagged {s : Heap} {cs : Blocks} {fuel a r : Nat} (ht : Tagged s cs)
    (hf : find_first fuel s a = some r) (hr : r ≠ 0) :
    ∃ pre S post, cs = pre ++ (S, 0) :: post ∧ pre ≠ [] ∧ r = s.heap_head + total pre ∧
      a ≤ S ∧ ∀ b ∈ pre, ¬ (b.2 = 0 ∧ a ≤ b.1) := by
  rcases find_first_loop_spec s.mem a fuel s.heap_head cs r ht.2.1 (Tagged_epi ht) hf with
    ⟨h0, _⟩ | ⟨pre, S, post, e1, e2, e3, e4⟩
  · exact absurd h0 hr
  · refine ⟨pre, S, post, e1, ?_, e2, e3, e4⟩
    rintro rfl
    obtain ⟨bs, hbs⟩ := Tagged_nonempty ht
    rw [e1] at hbs
    simp at hbs

theorem find_first_Tagged_none {s : Heap} {cs : Blocks} {fuel a : Nat} (ht : Tagged s cs)
    (hf : find_first fuel s a = some 0) : ∀ b ∈ cs, ¬ (b.2 = 0 ∧ a ≤ b.1) := by
  rcases find_first_loop_spec s.mem a fuel s.heap_head cs 0 ht.2.1 (Tagged_epi ht) hf with
    ⟨_, h⟩ | ⟨pre, S, post, e1, e2, e3, e4⟩
  · exact h
  · have := ht.2.2.2.2
    omega

theorem place_frame_Tagged {s : Heap} {cs pre post : Blocks} {S x a : Nat} (ht : Tagged s cs)
    (hcs : cs = pre ++ (S, x) :: post) (ha8 : a % 8 = 0) (ha : 8 ≤ a) (haS : a ≤ S) :
    ∀ y, y ≠ s.heap_head + total pre - 4 →
      (y < s.heap_head + total pre + a - 8 ∨ s.heap_head + total pre + S - 8 < y) →
      place s.mem (s.heap_head + total pre) a y = s.mem y := by
  subst hcs
  obtain ⟨w1, w2, w3, w4, w5⟩ := ht
  have hseg := w2
  rw [Seg_append] at hseg
  obtain ⟨hp, c1, c2, c3, c4, c5, hpost⟩ := hseg
  dsimp only at c1 c2 c3 c4 c5 hpost
  have hlt := GET_lt s.mem (s.heap_head + total pre - 4)
  rw [c4] at hlt
  exact (place_chain hp c4 c3 c2 (by omega) hpost ha8 ha haS (by omega)).2

theorem coalesce_fit {m : Mem} {p0 : Nat} {pre : Blocks} {pb : Nat × Nat} {S : Nat}
    {rest : Blocks}
    (hseg : Seg m p0 (pre ++ pb :: (S, 0) :: rest))
    (hepi : GET m (p0 + total (pre ++ pb :: (S, 0) :: rest) - 4) = 1)
    (hp0 : 4 ≤ p0) (hb : prevFree pb + S + nextFree rest < 4294967296) :
    (coalesce m (p0 + total pre + pb.1)).1 = p0 + total pre + pb.1 - prevFree pb ∧
    Seg (coalesce m (p0 + total pre + pb.1)).2 p0 (coalesceL pre pb S rest) ∧
    (∀ y, y ≠ p0 + total pre + pb.1 - prevFree pb - 4 →
      y ≠ p0 + total pre + pb.1 + S + nextFree rest - 8 →
      (coalesce m (p0 + total pre + pb.1)).2 y = m y) := by
  rw [Seg_append] at hseg
  obtain ⟨hpre, ⟨b1, b2, b3, b4, b5, c1, c2, _, c4, c5, hrest⟩⟩ := hseg
  simp only [total_append, total_cons] at hepi
  simp only [Nat.add_zero] at c4 c5
  dsimp only at c1 c2 hrest
  have hepi' : GET m (p0 + total pre + pb.1 + S + total rest - 4) = 1 := by
    rw [← hepi]; congr 1; omega
  have hph : GET m (p0 + total pre + pb.1 - pb.1 - 4) = pb.1 + pb.2 := by
    rw [← b4]; congr 1; omega
  have hpa : pb.2 = 0 ∨ pb.2 = 1 := by omega
  rcases next_cases hrest hepi' with ⟨n1, n2, ns, n3, n4⟩ |
      ⟨ns, post, n0, n1, n2, n3, n4, n5, n6, n7⟩
  · rcases hpa with hpa | hpa
    · -- predecessor free, successor allocated
      rw [hpa, Nat.add_zero] at b5 hph
      have hpf : prevFree pb = pb.1 := by simp [prevFree, hpa]
      have hcl : coalesceL pre pb S rest = pre ++ (pb.1 + S, 0) :: rest := by
        simp [coalesceL, hpa, hpf, n1, n2]
      rw [coalesce_01 b5 hph b2 b1 (by omega) c4 c2 c1 n4 n3 (by omega), hpf, hcl, n1]
      dsimp only
      refine ⟨rfl, ?_, ?_⟩
      · rw [Seg_append]
        refine ⟨Seg_frame hpre ?_, ⟨by omega, by omega, by omega, ?_, ?_, Seg_frame (m := m) ?_ ?_⟩⟩
        · intro y h1 h2
          rw [PUT_ne (by omega), PUT_ne (by omega)]
        · show GET _ _ = pb.1 + S + 0
          have : p0 + total pre - 4 = p0 + total pre + pb.1 - pb.1 - 4 := by omega
          rw [this, GET_PUT_same (by omega)]; rfl
        · show GET _ (p0 + total pre + (pb.1 + S) - 8) = pb.1 + S + 0
          have : p0 + total pre + (pb.1 + S) - 8 = p0 + total pre + pb.1 + S - 8 := by omega
          rw [this, GET_PUT_ne (by omega), GET_PUT_same (by omega)]; rfl
        · have : p0 + total pre + (pb.1 + S) = p0 + total pre + pb.1 + S := by omega
          show Seg m (p0 + total pre + (pb.1 + S)) rest
          rw [this]; exact hrest
        · intro y h1 h2
          dsimp only at h1 h2
          rw [PUT_ne (by omega), PUT_ne (by omega)]
      · intro y h1 h2
        rw [PUT_ne h1, PUT_ne (by omega)]
    · -- both neighbours allocated
      rw [hpa] at b5 hph
      have hpf : prevFree pb = 0 := by simp [prevFree, hpa]
      have hcl : coalesceL pre pb S rest = pre ++ pb :: (S, 0) :: rest := by
        simp [coalesceL, hpa, hpf, n1, n2]
      rw [coalesce_11 b5 hph b2 b1 (by omega) c4 c2 n4 n3, hpf, hcl]
      refine ⟨rfl, ?_, fun _ _ _ => rfl⟩
      rw [Seg_append]
      exact ⟨hpre, ⟨b1, b2, b3, b4, by rw [hpa]; exact b5, c1, c2, by omega, c4, c5, hrest⟩⟩
  · subst n0
    rcases hpa with hpa | hpa
    · -- both neighbours free
      rw [hpa, Nat.add_zero] at b5 hph
      have hpf : prevFree pb = pb.1 := by simp [prevFree, hpa]
      have hcl : coalesceL pre pb S ((ns, 0) :: post) = pre ++ (pb.1 + S + ns, 0) :: post := by
        simp [coalesceL, hpa, hpf, n1, n2]
      have n6' : GET m (p0 + total pre + pb.1 + S + ns - 8) = ns := n6
      rw [coalesce_00 b5 hph b2 b1 (by omega) c4 c2 c1 n5 n4 n6' (by omega), hpf, hcl, n1]
      dsimp only
      refine ⟨rfl, ?_, ?_⟩
      · rw [Seg_append]
        refine ⟨Seg_frame hpre ?_, ⟨by omega, by omega, by omega, ?_, ?_, Seg_frame (m := m) ?_ ?_⟩⟩
        · intro y h1 h2
          rw [PUT_ne (by omega), PUT_ne (by omega)]
        · show GET _ _ = pb.1 + S + ns + 0
          have : p0 + total pre - 4 = p0 + total pre + pb.1 - pb.1 - 4 := by omega
          rw [this, GET_PUT_ne (by omega), GET_PUT_same (by omega)]; rfl
        · show GET _ (p0 + total pre + (pb.1 + S + ns) - 8) = pb.1 + S + ns + 0
          have : p0 + total pre + (pb.1 + S + ns) - 8 = p0 + total pre + pb.1 + S + ns - 8 := by
            omega
          rw [this, GET_PUT_same (by omega)]; rfl
        · have : p0 + total pre + (pb.1 + S + ns) = p0 + total pre + pb.1 + S + ns := by omega
          show Seg m (p0 + total pre + (pb.1 + S + ns)) post
          rw [this]; exact n7
        · intro y h1 h2
          dsimp only at h1 h2
          rw [PUT_ne (by omega), PUT_ne (by omega)]
      · intro y h1 h2
        rw [PUT_ne h2, PUT_ne h1]
    · -- predecessor allocated, successor free
      rw [hpa] at b5 hph
      have hpf : prevFree pb = 0 := by simp [prevFree, hpa]
      have hcl : coalesceL pre pb S ((ns, 0) :: post) = pre ++ pb :: (S + ns, 0) :: post := by
        simp [coalesceL, hpa, hpf, n1, n2]
      rw [coalesce_10 b5 hph b2 b1 (by omega) c4 c2 n5 n4 (by omega), hpf, hcl, n1]
      dsimp only
      refine ⟨rfl, ?_, ?_⟩
      · rw [Seg_append]
        refine ⟨Seg_frame hpre ?_, ⟨b1, b2, b3, ?_, ?_, by omega, by omega, by omega, ?_, ?_,
          Seg_frame (m := m) ?_ ?_⟩⟩
        · intro y h1 h2
          rw [PUT_ne (by omega), PUT_ne (by omega)]
        · rw [GET_PUT_ne (by omega), GET_PUT_ne (by omega), b4]
        · rw [GET_PUT_ne (by omega), GET_PUT_ne (by omega), hpa, b5]
        · show GET _ _ = S + ns + 0
          rw [GET_PUT_ne (by omega), GET_PUT_same (by omega)]; rfl
        · show GET _ (p0 + total pre + pb.1 + (S + ns) - 8) = S + ns + 0
          have : p0 + total pre + pb.1 + (S + ns) - 8 = p0 + total pre + pb.1 + S + ns - 8 := by
            omega
          rw [this, GET_PUT_same (by omega)]; rfl
        · have : p0 + total pre + pb.1 + (S + ns) = p0 + total pre + pb.1 + S + ns := by omega
          show Seg m (p0 + total pre + pb.1 + (S + ns)) post
          rw [this]; exact n7
        · intro y h1 h2
          dsimp only at h1 h2
          rw [PUT_ne (by omega), PUT_ne (by omega)]
      · intro y h1 h2
        rw [PUT_ne h2, PUT_ne (by omega)]

theorem mm_free_fit {s : Heap} {cs pre rest : Blocks} {pb : Nat × Nat} {S : Nat}
    (ht : Tagged s cs) (hcs : cs = pre ++ pb :: (S, 1) :: rest)
    (hb : prevFree pb + S + nextFree rest < 4294967296) :
    Tagged (mm_free s (s.heap_head + total pre + pb.1)) (coalesceL pre pb S rest) ∧
    ∀ y, y ≠ s.heap_head + total pre + pb.1 - 4 → y ≠ s.heap_head + total pre + pb.1 + S - 8 →
      y ≠ s.heap_head + total pre + pb.1 - prevFree pb - 4 →
      y ≠ s.heap_head + total pre + pb.1 + S + nextFree rest - 8 →
      (mm_free s (s.heap_head + total pre + pb.1)).mem y = s.mem y := by
  subst hcs
  obtain ⟨w1, w2, w3, w4, w5⟩ := ht
  have hseg := w2
  rw [Seg_append] at hseg
  obtain ⟨hpre, ⟨b1, b2, b3, b4, b5, c1, c2, _, c4, c5, hrest⟩⟩ := hseg
  dsimp only at c1 c2 c4 c5 hrest
  simp only [total_append, total_cons] at w4
  have e1 : GET_SIZE s.mem (s.heap_head + total pre + pb.1 - 4) = S :=
    GET_SIZE_of c4 c2 (Nat.le_refl 1)
  have e2 : FT (PUT s.mem (s.heap_head + total pre + pb.1 - 4) S)
      (s.heap_head + total pre + pb.1) = s.heap_head + total pre + pb.1 + S - 8 := by
    unfold FT HD W_SIZE D_SIZE
    rw [GET_SIZE_of (a := 0) (by rw [GET_PUT_same (by omega), Nat.add_zero]) c2 (by omega)]
  have hm : (mm_free s (s.heap_head + total pre + pb.1)).mem =
      (coalesce (PUT (PUT s.mem (s.heap_head + total pre + pb.1 - 4) S)
        (s.heap_head + total pre + pb.1 + S - 8) S) (s.heap_head + total pre + pb.1)).2 := by
    unfold mm_free
    simp only [HD, W_SIZE, e1, PACK_zero, e2]
  have hseg2 : Seg (PUT (PUT s.mem (s.heap_head + total pre + pb.1 - 4) S)
      (s.heap_head + total pre + pb.1 + S - 8) S) s.heap_head
      (pre ++ pb :: (S, 0) :: rest) := by
    rw [Seg_append]
    refine ⟨Seg_frame hpre ?_, ⟨b1, b2, b3, ?_, ?_, c1, c2, by omega, ?_, ?_,
      Seg_frame hrest ?_⟩⟩
    · intro y h1 h2
      rw [PUT_ne (by omega), PUT_ne (by omega)]
    · rw [GET_PUT_ne (by omega), GET_PUT_ne (by omega), b4]
    · rw [GET_PUT_ne (by omega), GET_PUT_ne (by omega), b5]
    · show GET _ _ = S + 0
      rw [GET_PUT_ne (by omega), GET_PUT_same (by omega)]; rfl
    · show GET _ _ = S + 0
      rw [GET_PUT_same (by omega)]; rfl
    · intro y h1 h2
      rw [PUT_ne (by omega), PUT_ne (by omega)]
  have hepi2 : GET (PUT (PUT s.mem (s.heap_head + total pre + pb.1 - 4) S)
      (s.heap_head + total pre + pb.1 + S - 8) S)
      (s.heap_head + total (pre ++ pb :: (S, 0) :: rest) - 4) = 1 := by
    simp only [total_append, total_cons]
    rw [GET_PUT_ne (by omega), GET_PUT_ne (by omega), ← w3, ← w4]
  obtain ⟨k1, k2, k3⟩ := coalesce_fit hseg2 hepi2 (by omega) hb
  have hnf := nextFree_le rest
  have hpf := prevFree_le pb
  refine ⟨⟨coalesceL_head (by rw [← head_prefix]; exact w1), ?_, ?_, ?_, w5⟩, ?_⟩
  · rw [hm]; exact k2
  · show GET (mm_free s _).mem (s.brk - 4) = 1
    rw [hm, GET_congr (k3 _ (by omega) (by omega)), GET_PUT_ne (by omega), GET_PUT_ne (by omega)]
    exact w3
  · show s.heap_head + total (coalesceL pre pb S rest) = s.brk
    rw [coalesceL_total pre pb S 1 rest]
    simp only [total_append, total_cons]; omega
  · intro y h1 h2 h3 h4
    rw [hm, k3 y h3 h4, PUT_ne h2, PUT_ne h1]

theorem grow_fit {s : Heap} {cs pre post : Blocks} {S ns a : Nat} (ht : Tagged s cs)
    (hcs : cs = pre ++ (S, 1) :: (ns, 0) :: post) (hpre : pre ≠ []) (ha8 : a % 8 = 0)
    (ha : 8 ≤ a) (haS : a ≤ S + ns) (hb : S + ns < 4294967296) :
    Tagged { s with mem := (place (PUT s.mem (s.heap_head + total pre - 4) (S + ns))
      (s.heap_head + total pre) a) } (pre ++ placeL (S + ns) a ++ post) ∧
    ∀ y, y ≠ s.heap_head + total pre - 4 →
      (y < s.heap_head + total pre + a - 8 ∨ s.heap_head + total pre + S + ns - 8 < y) →
      place (PUT s.mem (s.heap_head + total pre - 4) (S + ns)) (s.heap_head + total pre) a y
        = s.mem y := by
  subst hcs
  obtain ⟨w1, w2, w3, w4, w5⟩ := ht
  have hseg := w2
  rw [Seg_append] at hseg
  obtain ⟨hp, c1, c2, c3, c4, c5, d1, d2, d3, d4, d5, hpost⟩ := hseg
  dsimp only at c1 c2 c3 c4 c5 d1 d2 d3 d4 d5 hpost
  simp only [total_append, total_cons] at w4
  have hpre1 : Seg (PUT s.mem (s.heap_head + total pre - 4) (S + ns)) s.heap_head pre := by
    refine Seg_frame hp ?_
    intro y h1 h2
    exact PUT_ne (by omega)
  have hpost1 : Seg (PUT s.mem (s.heap_head + total pre - 4) (S + ns))
      (s.heap_head + total pre + (S + ns)) post := by
    rw [← Nat.add_assoc]
    refine Seg_frame hpost ?_
    intro y h1 h2
    exact PUT_ne (by omega)
  have hhd : GET (PUT s.mem (s.heap_head + total pre - 4) (S + ns))
      (s.heap_head + total pre - 4) = (S + ns) + 0 := by
    rw [GET_PUT_same (by omega)]; rfl
  obtain ⟨k1, k2⟩ := place_chain hpre1 hhd (by omega) (by omega) (by omega) hpost1 ha8 ha haS
    (by omega)
  have k3 : ∀ y, y ≠ s.heap_head + total pre - 4 →
      (y < s.heap_head + total pre + a - 8 ∨ s.heap_head + total pre + S + ns - 8 < y) →
      place (PUT s.mem (s.heap_head + total pre - 4) (S + ns)) (s.heap_head + total pre) a y
        = s.mem y := by
    intro y h1 h2
    rw [k2 y h1 (by omega), PUT_ne h1]
  refine ⟨⟨?_, k1, ?_, ?_, w5⟩, k3⟩
  · cases pre with
    | nil => exact absurd rfl hpre
    | cons b bs => simpa using w1
  · show GET (place _ _ a) (s.brk - 4) = 1
    rw [GET_congr (k3 _ (by omega) (by omega))]; exact w3
  · show s.heap_head + total (pre ++ placeL (S + ns) a ++ post) = s.brk
    rw [total_append, total_append, total_placeL haS]; omega

/-! ## The claims -/

/-- C1: when the first break handed to `mm_init` is a multiple of 8, then in every
state reachable by valid calls of `mm_malloc`, `mm_free` and `mm_realloc` (any
request sizes, shrinking or not), every address `mm_malloc` or `mm_realloc` returns is a multiple of
8 (`NULL` is the address 0). -/
theorem alignment (h0 : Heap) (maxReq : Nat) (shrink : Bool) (h : Heap) (L : List Nat)
    (hb : h0.brk % 8 = 0) (hr : Reachable h0 maxReq shrink h L) :
    (∀ fuel n p h', mm_malloc fuel h n = some (p, h') → p % 8 = 0) ∧
    (∀ fuel ptr n p h', (ptr = 0 ∨ ptr ∈ L) → mm_realloc fuel h ptr n = some (p, h') →
      p % 8 = 0) := by
  obtain ⟨a1, a2, a3⟩ := Reachable_aligned hb hr
  refine ⟨fun fuel n p h' hm => (mm_malloc_aligned a1 a2 hm).1, ?_⟩
  intro fuel ptr n p h' hptr hm
  refine (mm_realloc_aligned a1 a2 ?_ hm).1
  rcases hptr with rfl | hptr
  · rfl
  · exact a3 _ hptr

/-- Witness of C1: the first allocation after `mm_init` at break 4096. -/
theorem alignment_witness :
    demo0.brk % 8 = 0 ∧ mm_malloc 3 demo1 16 = some (4112, demo2) ∧ 4112 % 8 = 0 :=
  ⟨by decide, rfl,
    (alignment demo0 4294967295 true demo1 [] (by decide) (Reachable.init rfl)).1
      3 16 4112 demo2 rfl⟩

/-- C4: when the scan of `find_first` has found no fit and `sbrk` rejects the
request of `extend_heap`, `mm_malloc(n)` returns `NULL`, and so does `mm_realloc(p, n)`
on its relocation branch; the state they leave is the state before the call (memory,
break, `heap_head`), with one more call of `sbrk` counted. -/
theorem sbrk_rejection_changes_nothing (fuel : Nat) (s : Heap) (p n : Nat) (hn : n ≠ 0)
    (hscan : find_first fuel s (adjusted n) = some 0)
    (hrej : ¬ Grants s (ext_bytes (MAX (adjusted n) E_SIZE / W_SIZE))) :
    mm_malloc fuel s n = some (0, { s with sbrk_calls := s.sbrk_calls + 1 }) ∧
    (p ≠ 0 → Relocates s p n →
      mm_realloc fuel s p n = some (0, { s with sbrk_calls := s.sbrk_calls + 1 })) := by
  constructor
  · simp [mm_malloc, hn, hscan, extend_heap_reject hrej]
  · intro hp hr
    obtain ⟨h1, h2⟩ := hr
    have h3 : ¬ adjusted n = GET_SIZE s.mem (HD p) := by omega
    have h4 : ¬ adjusted n < GET_SIZE s.mem (HD p) := by omega
    simp only [mm_realloc, hp, hn, h3, h4, h2, hscan, extend_heap_reject hrej, if_true, if_false]

/-- Witness of C4: with the break limited to 9000, a request of 5000 bytes cannot
be served. -/
theorem sbrk_rejection_changes_nothing_witness :
    mm_malloc 5 demo3 5000 = some (0, { demo3 with sbrk_calls := demo3.sbrk_calls + 1 }) ∧
    mm_realloc 5 demo3 4112 5000 =
      some (0, { demo3 with sbrk_calls := demo3.sbrk_calls + 1 }) :=
  ⟨(sbrk_rejection_changes_nothing 5 demo3 4112 5000 (by decide) (by decide) (by decide)).1,
   (sbrk_rejection_changes_nothing 5 demo3 4112 5000 (by decide) (by decide) (by decide)).2
     (by decide) (by decide)⟩

/-- C9: `mm_realloc(NULL, n)` is `mm_malloc(n)`, result and state; and for a
non-null pointer `p`, `mm_realloc(p, 0)` returns `NULL` and leaves the state of
`mm_free(p)`. -/
theorem realloc_degenerate_cases (fuel : Nat) (s : Heap) (p n : Nat) (hp : p ≠ 0) :
    mm_realloc fuel s 0 n = mm_malloc fuel s n ∧
    mm_realloc fuel s p 0 = some (0, mm_free s p) :=
  ⟨mm_realloc_null fuel s n, mm_realloc_zero fuel s hp⟩

/-- Witness of C9: the live pointer 4112 of `demo3`. -/
theorem realloc_degenerate_cases_witness :
    (4112 : Nat) ≠ 0 ∧ mm_realloc 5 demo3 0 100 = mm_malloc 5 demo3 100 ∧
    mm_realloc 5 demo3 4112 0 = some (0, mm_free demo3 4112) :=
  ⟨by decide, realloc_degenerate_cases 5 demo3 4112 100 (by decide)⟩

/-- C10: `mm_malloc(0)` returns `NULL` and leaves the whole state as it is: memory,
break and `heap_head`; the count of `sbrk` calls does not move, no call is made. -/
theorem malloc_zero (fuel : Nat) (s : Heap) :
    mm_malloc fuel s 0 = some (0, s) ∧
    ∀ r, mm_malloc fuel s 0 = some r → r.2.sbrk_calls = s.sbrk_calls := by
  have h : mm_malloc fuel s 0 = some (0, s) := by simp [mm_malloc]
  refine ⟨h, ?_⟩
  intro r hr
  rw [h] at hr
  cases hr
  rfl

/-- C6 (amended): in every state reachable from a successful `mm_init` by valid
calls of `mm_malloc`, `mm_free` and `mm_realloc` whose request sizes are at most
`2^32 - 16` (the adjusted size does not wrap), when the kernel keeps the break within
`2^32` bytes of its first value, the scan from the first block reaches the epilogue
and every block it visits has a header and a footer that decode to the same size and
the same allocated bit. -/
theorem tags_consistent (h0 : Heap) (maxReq : Nat) (shrink : Bool) (h : Heap) (L : List Nat)
    (hlim : h0.limit ≤ h0.brk + 4294967296) (hmax : maxReq + 16 ≤ 4294967296)
    (hr : Reachable h0 maxReq shrink h L) :
    ∃ ps, heapBlocks h.brk h = some ps ∧ ∀ p ∈ ps, tagsMatch h.mem p := by
  obtain ⟨cs, hinv, _⟩ := Reachable_Inv hlim hmax hr
  obtain ⟨ps, h1, h2⟩ := heapBlocks_WF hinv.1 (Nat.le_refl _)
  refine ⟨ps, h1, ?_⟩
  intro p hp
  obtain ⟨S, a, hmem⟩ := h2 p hp
  exact tagsMatch_of hinv.1.2.1 hmem

/-- Witness of C6 (amended): the state after two allocations of 16 bytes. -/
theorem tags_consistent_witness :
    demo0.limit ≤ demo0.brk + 4294967296 ∧ 4294967280 + 16 ≤ 4294967296 ∧
    Reachable demo0 4294967280 true demo3 [4136, 4112] ∧
    ∃ ps, heapBlocks demo3.brk demo3 = some ps ∧ ∀ p ∈ ps, tagsMatch demo3.mem p :=
  ⟨by decide, by decide, demo3_reachable _ (by decide) true,
    tags_consistent demo0 4294967280 true demo3 [4136, 4112] (by decide) (by decide)
      (demo3_reachable _ (by decide) true)⟩

/-- Counterexample to C6 as stated: after `mm_init(); mm_malloc(8);
mm_malloc(4294967281)` the adjusted size of the second request wraps to 0, `place`
writes a footer of size 0 into the last word of the first block, and the block at
4112 has header (16, allocated) and footer (0, allocated). -/
theorem tags_consistent_counterexample :
    Reachable demo0 4294967295 true demo7 [4128, 4112] ∧
    heapBlocks demo7.brk demo7 = some [4112, 4128] ∧ ¬ tagsMatch demo7.mem 4112 :=
  ⟨@Reachable.malloc demo0 4294967295 true demo6 demo7 [4112] 4 4294967281 4128
      (@Reachable.malloc demo0 4294967295 true demo1 demo6 [] 3 8 4112 (demo1_reachable _ true)
        (by decide) rfl) (by decide) rfl,
    by decide, by unfold tagsMatch; decide⟩

/-- C7 (amended): in every state reachable from a successful `mm_init` by valid
calls of `mm_malloc`, `mm_free` and `mm_realloc` whose request sizes are at most
`2^32 - 16`, when the kernel keeps the break within `2^32` bytes of its first value,
the scan from the first block reaches the epilogue and every block it visits has a
size that is a multiple of 8; the size is at least 16 when the block is allocated,
and at least 8 (a header and a footer) when it is free. -/
theorem sizes_valid (h0 : Heap) (maxReq : Nat) (shrink : Bool) (h : Heap) (L : List Nat)
    (hlim : h0.limit ≤ h0.brk + 4294967296) (hmax : maxReq + 16 ≤ 4294967296)
    (hr : Reachable h0 maxReq shrink h L) :
    ∃ ps, heapBlocks h.brk h = some ps ∧
      ∀ p ∈ ps, GET_SIZE h.mem (HD p) % 8 = 0 ∧ 8 ≤ GET_SIZE h.mem (HD p) ∧
        (GET_ALLOC h.mem (HD p) = 1 → 16 ≤ GET_SIZE h.mem (HD p)) := by
  obtain ⟨cs, hinv, _, hbig⟩ := Reachable_Inv_big hlim hmax hr
  obtain ⟨ps, h1, h2⟩ := heapBlocks_tail hinv.1 (Nat.le_refl _)
  refine ⟨ps, h1, ?_⟩
  intro p hp
  obtain ⟨S, a, hmem, htl⟩ := h2 p hp
  obtain ⟨t1, _, t3, t4, t5⟩ := layout_tags hinv.1.2.1 hmem
  have e1 : GET_SIZE h.mem (HD p) = S := GET_SIZE_of t1 t4 t5
  have e2 : GET_ALLOC h.mem (HD p) = a := GET_ALLOC_of t1 t4 t5
  rw [e1, e2]
  exact ⟨t4, t3, fun ha => hbig (S, a) htl ha⟩

/-- Witness of C7 (amended): the state after two allocations of 16 bytes. -/
theorem sizes_valid_witness :
    demo0.limit ≤ demo0.brk + 4294967296 ∧ 4294967280 + 16 ≤ 4294967296 ∧
    Reachable demo0 4294967280 true demo3 [4136, 4112] ∧
    ∃ ps, heapBlocks demo3.brk demo3 = some ps ∧
      ∀ p ∈ ps, GET_SIZE demo3.mem (HD p) % 8 = 0 ∧ 8 ≤ GET_SIZE demo3.mem (HD p) ∧
        (GET_ALLOC demo3.mem (HD p) = 1 → 16 ≤ GET_SIZE demo3.mem (HD p)) :=
  ⟨by decide, by decide, demo3_reachable _ (by decide) true,
    sizes_valid demo0 4294967280 true demo3 [4136, 4112] (by decide) (by decide)
      (demo3_reachable _ (by decide) true)⟩

/-- Counterexample to C7 as stated: after `mm_init(); mm_malloc(4080)` the free
block of 4096 bytes is split into an allocated block of 4088 bytes and a free block
of 8 bytes, at 8200: `place` splits as soon as the remainder reaches `2 * W_SIZE`. -/
theorem sizes_valid_counterexample :
    Reachable demo0 4294967295 true demo8 [4112] ∧
    heapBlocks demo8.brk demo8 = some [4112, 8200] ∧
    GET_ALLOC demo8.mem (HD 8200) = 0 ∧ GET_SIZE demo8.mem (HD 8200) = 8 ∧
    ¬ (16 ≤ GET_SIZE demo8.mem (HD 8200)) :=
  ⟨@Reachable.malloc demo0 4294967295 true demo1 demo8 [] 3 4080 4112 (demo1_reachable _ true)
      (by decide) rfl,
    by decide, by decide, by decide, by decide⟩

/-- C5 (amended): in every state reachable from a successful `mm_init` by valid
calls of `mm_malloc`, `mm_free` and `mm_realloc`, none of them a call of `mm_realloc`
that shrinks its block in place, with request sizes at most `2^32 - 16` and the break
kept within `2^32` bytes of its first value, the scan from the first block reaches the
epilogue and never finds a free block followed by a free block. -/
theorem no_adjacent_free (h0 : Heap) (maxReq : Nat) (h : Heap) (L : List Nat)
    (hlim : h0.limit ≤ h0.brk + 4294967296) (hmax : maxReq + 16 ≤ 4294967296)
    (hr : Reachable h0 maxReq false h L) :
    ∃ ps, heapBlocks h.brk h = some ps ∧ ∀ p ∈ ps, ¬ bothFree h.mem p := by
  obtain ⟨cs, hinv, hna⟩ := Reachable_Inv hlim hmax hr
  obtain ⟨ps, h1, h2⟩ := heapBlocks_WF hinv.1 (Nat.le_refl _)
  refine ⟨ps, h1, ?_⟩
  intro p hp hbf
  obtain ⟨S, a, hmem⟩ := h2 p hp
  obtain ⟨t1, _, _, t4, t5⟩ := layout_tags hinv.1.2.1 hmem
  have e1 : GET_SIZE h.mem (HD p) = S := GET_SIZE_of t1 t4 t5
  have e2 : GET_ALLOC h.mem (HD p) = a := GET_ALLOC_of t1 t4 t5
  have e3 : NEXT_PLACE h.mem p = p + S := by
    unfold NEXT_PLACE
    have : GET_SIZE h.mem (p - W_SIZE) = S := e1
    rw [this]
  obtain ⟨b1, b2⟩ := hbf
  rw [e3, GET_ALLOC_eq] at b2
  rw [e2] at b1
  have := layout_next hinv.1.2.1 (WF_epi hinv.1) (hna rfl) hmem b1
  have e4 : HD (p + S) = p + S - 4 := rfl
  rw [e4] at b2
  omega

/-- Witness of C5 (amended): the state after two allocations of 16 bytes. -/
theorem no_adjacent_free_witness :
    demo0.limit ≤ demo0.brk + 4294967296 ∧ 4294967280 + 16 ≤ 4294967296 ∧
    Reachable demo0 4294967280 false demo3 [4136, 4112] ∧
    ∃ ps, heapBlocks demo3.brk demo3 = some ps ∧ ∀ p ∈ ps, ¬ bothFree demo3.mem p :=
  ⟨by decide, by decide, demo3_reachable _ (by decide) false,
    no_adjacent_free demo0 4294967280 demo3 [4136, 4112] (by decide) (by decide)
      (demo3_reachable _ (by decide) false)⟩

/-- Counterexample to C5 as stated: after `mm_init(); p = mm_malloc(100);
mm_realloc(p, 10)` the block of 112 bytes is split in place into 24 allocated bytes
and 88 free bytes, and the free remainder at 4136 is followed by the free block at
4224: the shrinking branch of `mm_realloc` does not coalesce. -/
theorem no_adjacent_free_counterexample :
    Reachable demo0 4294967295 true demo5 [4112] ∧
    heapBlocks demo5.brk demo5 = some [4112, 4136, 4224] ∧ bothFree demo5.mem 4136 :=
  ⟨@Reachable.realloc demo0 4294967295 true demo4 demo5 [4112] 3 4112 10 4112
      (@Reachable.malloc demo0 4294967295 true demo1 demo4 [] 3 100 4112 (demo1_reachable _ true)
        (by decide) rfl) (by decide) (by decide) (Or.inl rfl) rfl,
    by decide, by unfold bothFree; decide⟩

/-- C2 (amended): for every request size `n` with `0 < n ≤ 2^32 - 16` and every heap
state, when `mm_malloc(n)` returns a non-null address `p`, the header of the block at
`p` is marked allocated and holds the adjusted size of `n`: 16 when `n ≤ 8`, and
otherwise the least multiple of 8 that is at least `n + 8`; the payload (size minus
8) holds at least `n` bytes. -/
theorem malloc_block_size (fuel : Nat) (s s' : Heap) (n p : Nat) (hn0 : 0 < n)
    (hn : n + 16 ≤ 4294967296) (hm : mm_malloc fuel s n = some (p, s')) (hp : p ≠ 0) :
    GET_ALLOC s'.mem (HD p) = 1 ∧
    (n ≤ 8 → GET_SIZE s'.mem (HD p) = 16) ∧
    (8 < n → GET_SIZE s'.mem (HD p) % 8 = 0 ∧ n + 8 ≤ GET_SIZE s'.mem (HD p) ∧
      ∀ k, k % 8 = 0 → n + 8 ≤ k → GET_SIZE s'.mem (HD p) ≤ k) ∧
    n ≤ GET_SIZE s'.mem (HD p) - 8 := by
  obtain ⟨a1, a2, a3, a4, a5, a6⟩ := adjusted_props hn
  have hhd : GET s'.mem (HD p - 0) = adjusted n + 1 := by
    rcases mm_malloc_cases hm with ⟨h0, _, _⟩ | ⟨_, _, _, rfl⟩ | ⟨_, _, _, h0, _⟩ |
      ⟨_, _, he, rfl, rfl⟩
    · omega
    · exact place_header s.mem a1 (by omega) a3 hp
    · exact absurd h0 hp
    · exact place_header _ a1 (by omega) a3 hp
  rw [Nat.sub_zero] at hhd
  have e1 : GET_SIZE s'.mem (HD p) = adjusted n := GET_SIZE_of hhd a1 (Nat.le_refl 1)
  have e2 : GET_ALLOC s'.mem (HD p) = 1 := GET_ALLOC_of hhd a1 (Nat.le_refl 1)
  rw [e1]
  refine ⟨e2, a6, fun h8 => ⟨a1, a4, ?_⟩, by omega⟩
  intro k hk1 hk2
  have := a5 h8
  omega

/-- Witness of C2 (amended): the first allocation of 16 bytes after `mm_init`. -/
theorem malloc_block_size_witness :
    mm_malloc 3 demo1 16 = some (4112, demo2) ∧
    GET_ALLOC demo2.mem (HD 4112) = 1 ∧ 16 ≤ GET_SIZE demo2.mem (HD 4112) - 8 :=
  ⟨rfl, (malloc_block_size 3 demo1 demo2 16 4112 (by decide) (by decide) rfl (by decide)).1,
    (malloc_block_size 3 demo1 demo2 16 4112 (by decide) (by decide) rfl (by decide)).2.2.2⟩

/-- Counterexample to C2 as stated: for `n = 2^32 - 1` the sum `n + 15` wraps, the
adjusted size is 8, and `mm_malloc` returns the non-null address 4112 of a block of
size 8, whose payload holds no byte at all. -/
theorem malloc_block_size_counterexample :
    Reachable demo0 4294967295 true demo1 [] ∧
    mm_malloc 3 demo1 4294967295 = some (4112, demo9) ∧ (4112 : Nat) ≠ 0 ∧
    GET_SIZE demo9.mem (HD 4112) = 8 ∧
    ¬ (4294967295 + 8 ≤ GET_SIZE demo9.mem (HD 4112)) ∧
    ¬ (4294967295 ≤ GET_SIZE demo9.mem (HD 4112) - 8) :=
  ⟨demo1_reachable _ true, rfl, by decide, by decide, by decide, by decide⟩

/-- C8 (amended): in a well-formed heap of any size, let the allocated block of size
`S` at `p` lie between the predecessor `pb` and the blocks `rest`, and let `S` plus the
sizes of those of its two neighbours that are free be less than `2^32` (the merged size
fits the tag; this holds in every heap of less than `2^32` bytes).  Then `mm_free(p)`
leaves a well-formed heap in which the block covering `p` is free, starts at the
predecessor when the predecessor was free and at `p` otherwise, has for size `S` plus
the size of the predecessor if it was free plus the size of the successor if it was
free, and carries that size in its header and in its footer; when both neighbours
were allocated (the successor may be the epilogue), only the header and the footer of
`p` change: they keep the size `S` and lose the allocated bit. -/
theorem free_coalesces (s : Heap) (cs pre rest : Blocks) (pb : Nat × Nat) (S : Nat)
    (ht : Tagged s cs) (hcs : cs = pre ++ pb :: (S, 1) :: rest)
    (hb : prevFree pb + S + nextFree rest < 4294967296) :
    Tagged (mm_free s (s.heap_head + total pre + pb.1)) (coalesceL pre pb S rest) ∧
    GET (mm_free s (s.heap_head + total pre + pb.1)).mem
      (s.heap_head + total pre + pb.1 - prevFree pb - 4) = prevFree pb + S + nextFree rest ∧
    GET (mm_free s (s.heap_head + total pre + pb.1)).mem
      (s.heap_head + total pre + pb.1 - prevFree pb + (prevFree pb + S + nextFree rest) - 8)
      = prevFree pb + S + nextFree rest ∧
    (pb.2 = 1 → (∀ b ∈ rest.head?, b.2 = 1) →
      GET (mm_free s (s.heap_head + total pre + pb.1)).mem (s.heap_head + total pre + pb.1 - 4)
        = S ∧
      GET (mm_free s (s.heap_head + total pre + pb.1)).mem
        (s.heap_head + total pre + pb.1 + S - 8) = S ∧
      ∀ y, y ≠ s.heap_head + total pre + pb.1 - 4 → y ≠ s.heap_head + total pre + pb.1 + S - 8 →
        (mm_free s (s.heap_head + total pre + pb.1)).mem y = s.mem y) := by
  obtain ⟨k1, k2⟩ := mm_free_fit ht hcs hb
  have hseg := k1.2.1
  unfold coalesceL at hseg
  rw [Seg_append] at hseg
  obtain ⟨_, _, _, _, c4, c5, _⟩ := hseg
  dsimp only at c4 c5
  have hpb := (Seg_sizes ht.2.1 pb (by rw [hcs]; simp)).1
  have htot : (mm_free s (s.heap_head + total pre + pb.1)).heap_head +
      total (pre ++ if pb.2 = 0 then [] else [pb]) =
      s.heap_head + total pre + pb.1 - prevFree pb := by
    show s.heap_head + _ = _
    rw [total_append]
    unfold prevFree
    split
    · simp only [total_nil]; omega
    · simp only [total_cons, total_nil]; omega
  rw [htot] at c4 c5
  refine ⟨k1, c4, c5, ?_⟩
  intro hp hr
  have h1 : prevFree pb = 0 := by simp [prevFree, hp]
  have h2 : nextFree rest = 0 := by
    cases rest with
    | nil => rfl
    | cons b bs =>
      have := hr b (by simp)
      simp [nextFree, this]
  rw [h1, h2] at c4 c5
  simp only [Nat.sub_zero, Nat.zero_add, Nat.add_zero] at c4 c5
  refine ⟨c4, c5, ?_⟩
  · intro y hy1 hy2
    exact k2 y hy1 hy2 (by rw [h1]; exact hy1) (by rw [h2]; exact hy2)

/-- C3 (amended): in every state reachable from a successful `mm_init` (first break a
multiple of 8, break kept within `2^32` bytes of it) by valid calls with request
sizes of at most `2^32 - 16`, for every live block `p` whose payload holds `old_size`
bytes and every `n` with `0 < n ≤ 2^32 - 16`: when `mm_realloc(p, n)` returns a
non-null address `q`, the bytes at `q` offsets `[0, old_size)` are the bytes that were
at `p` when `n ≥ old_size`, and so are the bytes at offsets `[0, n)` when
`n < old_size`. -/
theorem realloc_keeps_content (h0 : Heap) (maxReq : Nat) (shrink : Bool) (h : Heap)
    (L : List Nat) (fuel p n q : Nat) (h' : Heap) (old_size : Nat)
    (hal : h0.brk % 8 = 0) (hlim : h0.limit ≤ h0.brk + 4294967296)
    (hmax : maxReq + 16 ≤ 4294967296) (hr : Reachable h0 maxReq shrink h L) (hp : p ∈ L)
    (hold : old_size + 8 ≤ GET_SIZE h.mem (HD p)) (hn0 : 0 < n) (hn : n ≤ maxReq)
    (hm : mm_realloc fuel h p n = some (q, h')) (hq : q ≠ 0) :
    (old_size ≤ n → ∀ k, k < old_size → byteAt h'.mem (q + k) = byteAt h.mem (p + k)) ∧
    (n < old_size → ∀ k, k < n → byteAt h'.mem (q + k) = byteAt h.mem (p + k)) := by
  obtain ⟨cs, hinv, _⟩ := Reachable_Inv hlim hmax hr
  obtain ⟨b1, b2, b3⟩ := Reachable_aligned hal hr
  have hp8 := b3 p hp
  have hq8 := (mm_realloc_aligned b1 b2 hp8 hm).1
  have hw := realloc_words hinv hp (by omega) (by omega) hold hm hq
  constructor
  · intro _ k hk
    exact byteAt_congr (by omega) (by omega) (hw _ (by omega) (by omega))
  · intro _ k hk
    exact byteAt_congr (by omega) (by omega) (hw _ (by omega) (by omega))

/-- Witness of C3 (amended): the block at 4112 holds 16 bytes, the first of them
`0x78`; `mm_realloc(4112, 100)` moves it to 4160. -/
theorem realloc_keeps_content_witness :
    demo0.brk % 8 = 0 ∧ mm_realloc 5 demo11 4112 100 = some (4160, demo12) ∧
    byteAt demo12.mem (4160 + 0) = byteAt demo11.mem (4112 + 0) ∧
    byteAt demo11.mem (4112 + 0) = 120 :=
  ⟨by decide, rfl,
    (realloc_keeps_content demo0 4294967280 true demo11 [4136, 4112] 5 4112 100 4160 demo12 16
      (by decide) (by decide) (by decide) (demo11_reachable _ (by decide) true) (by decide)
      (by decide) (by decide) (by decide) rfl (by decide)).1 (by decide) 0 (by decide),
    by decide⟩

/-- Counterexample to C3 as stated: the block at 4112 was obtained by `mm_malloc(8)`;
for `n = 2^32 - 1` the adjusted size wraps to 8, `mm_realloc(4112, n)` splits the block
of 16 bytes in place and writes the footer of the new 8-byte block into the first
payload word: the call returns 4112 and byte 0 of the payload has changed, although
`n ≥ 8`. -/
theorem realloc_keeps_content_counterexample :
    Reachable demo0 4294967295 true demo6 [4112] ∧
    mm_malloc 3 demo1 8 = some (4112, demo6) ∧
    mm_realloc 3 demo6 4112 4294967295 = some (4112, demo10) ∧ (4112 : Nat) ≠ 0 ∧
    8 ≤ 4294967295 ∧ byteAt demo10.mem (4112 + 0) ≠ byteAt demo6.mem (4112 + 0) :=
  ⟨@Reachable.malloc demo0 4294967295 true demo1 demo6 [] 3 8 4112 (demo1_reachable _ true)
      (by decide) rfl,
    rfl, rfl, by decide, by decide, by decide⟩

/-- Witness of C8 (amended): in `demo3` the block at 4136 lies between an allocated
block and the free block of 4048 bytes; freed, it absorbs the free block. -/
theorem free_coalesces_witness :
    Tagged demo3 [(8, 1), (24, 1), (24, 1), (4048, 0)] ∧
    prevFree (24, 1) + 24 + nextFree [(4048, 0)] < 4294967296 ∧
    Tagged (mm_free demo3 4136) [(8, 1), (24, 1), (4072, 0)] ∧
    GET (mm_free demo3 4136).mem 4132 = 4072 ∧ GET (mm_free demo3 4136).mem 8200 = 4072 :=
  ⟨Tagged_of_WF demo3_WF, by decide,
    (free_coalesces demo3 _ [(8, 1)] [(4048, 0)] (24, 1) 24 (Tagged_of_WF demo3_WF) rfl
      (by decide)).1,
    (free_coalesces demo3 _ [(8, 1)] [(4048, 0)] (24, 1) 24 (Tagged_of_WF demo3_WF) rfl
      (by decide)).2.1,
    (free_coalesces demo3 _ [(8, 1)] [(4048, 0)] (24, 1) 24 (Tagged_of_WF demo3_WF) rfl
      (by decide)).2.2.1⟩

/-- Counterexample to C8 as stated: with a kernel that grants enough memory,
`mm_init(); X = mm_malloc(2147483000); Y = mm_malloc(2147483000); mm_free(Y)` leaves a
well-formed heap of more than `2^32` bytes in which the allocated block `X` at 4112,
of 2147483008 bytes, is followed by a free block of 2147487104 bytes.  `mm_free(X)`
adds the two sizes in 32 bits: the header of the freed block holds 2816, not
4294970112, and the block no longer reaches the epilogue. -/
theorem free_coalesces_counterexample :
    Reachable big0 2147483647 true big4 (removePtr [2147487120, 4112] 2147487120) ∧
    Tagged big4 [(8, 1), (2147483008, 1), (2147487104, 0)] ∧
    big4.heap_head + total [] + 8 = 4112 ∧
    ¬ (prevFree (8, 1) + 2147483008 + nextFree [(2147487104, 0)] < 4294967296) ∧
    GET (mm_free big4 4112).mem (HD 4112) = PACK 2816 0 ∧
    (2816 : Nat) ≠ 2147483008 + 2147487104 ∧
    NEXT_PLACE (mm_free big4 4112).mem 4112 ≠ big4.brk :=
  ⟨big4_reachable, big4_tagged, by decide, by decide, by decide, by decide, by decide⟩

/-! ## The claims on the single operations -/

/-- C11 (amended): in a well-formed heap of any size, let the allocated block of size
`S` at `p` be followed by a free block of size `F` with `S + F < 2^32` (the sum fits 32
bits; this holds in every heap of less than `2^32` bytes), and let `n > 0` have an
adjusted size `A` with `S < A ≤ S + F`.  Then `mm_realloc(p, n)` returns `p` (whatever
the fuel: it does not scan), makes no call of `sbrk` and leaves the break where it is;
the heap is well formed again, with the block at `p` allocated with size exactly `A`,
followed by a free block of size `S + F - A` when `S + F > A` and directly by the next
block otherwise; no word of the old payload of `p` changes, nor any word in front of
the header of `p` or behind the footer of the absorbed block. -/
theorem realloc_grows_in_place (fuel : Nat) (s : Heap) (cs pre post : Blocks) (S F n : Nat)
    (ht : Tagged s cs) (hcs : cs = pre ++ (S, 1) :: (F, 0) :: post) (hpre : pre ≠ [])
    (hn : 0 < n) (hS : S < adjusted n) (hfit : adjusted n ≤ S + F)
    (hb : S + F < 4294967296) :
    ∃ s', mm_realloc fuel s (s.heap_head + total pre) n = some (s.heap_head + total pre, s') ∧
      s'.sbrk_calls = s.sbrk_calls ∧ s'.brk = s.brk ∧ s'.heap_head = s.heap_head ∧
      Tagged s' (pre ++ (adjusted n, 1) ::
        (if adjusted n < S + F then [(S + F - adjusted n, 0)] else []) ++ post) ∧
      GET s'.mem (HD (s.heap_head + total pre)) = PACK (adjusted n) 1 ∧
      (∀ y, s.heap_head + total pre ≤ y → y + 8 < s.heap_head + total pre + S →
        s'.mem y = s.mem y) ∧
      (∀ y, y + 4 < s.heap_head + total pre → s'.mem y = s.mem y) ∧
      (∀ y, s.heap_head + total pre + S + F - 8 < y → s'.mem y = s.mem y) := by
  obtain ⟨a8, alt⟩ := adjusted_mod8 n
  have hseg := ht.2.1
  rw [hcs, Seg_append, Seg_cons, Seg_cons] at hseg
  obtain ⟨spre, s1, s2, _, s4, _, f1, f2, _, f4, _, _⟩ := hseg
  dsimp only at s1 s2 s4 f1 f2 f4
  have hpos := total_pos_of_Seg spre hpre
  have hh8 := ht.2.2.2.2
  have hp0 : s.heap_head + total pre ≠ 0 := by omega
  have hn0 : n ≠ 0 := by omega
  have e1 : GET_SIZE s.mem (HD (s.heap_head + total pre)) = S :=
    GET_SIZE_of s4 s2 (Nat.le_refl 1)
  have e2 : NEXT_PLACE s.mem (s.heap_head + total pre) = s.heap_head + total pre + S := by
    unfold NEXT_PLACE
    have : GET_SIZE s.mem (s.heap_head + total pre - W_SIZE) = S := e1
    rw [this]
  have e3 : GET_SIZE s.mem (HD (s.heap_head + total pre + S)) = F :=
    GET_SIZE_of f4 f2 (Nat.zero_le 1)
  have e4 : GET_ALLOC s.mem (HD (s.heap_head + total pre + S)) = 0 :=
    GET_ALLOC_of f4 f2 (Nat.zero_le 1)
  have e5 : (F + S) % UINT = S + F := by
    unfold UINT
    rw [Nat.mod_eq_of_lt (by omega)]
    omega
  have hcall : mm_realloc fuel s (s.heap_head + total pre) n =
      some (s.heap_head + total pre, { s with mem := (place (PUT s.mem
        (s.heap_head + total pre - 4) (S + F)) (s.heap_head + total pre) (adjusted n)) }) := by
    unfold mm_realloc
    rw [if_neg hp0, if_neg hn0]
    simp only [e1, e2, e3, e4, e5, PACK_zero]
    rw [if_neg (by omega), if_neg (by omega), if_pos ⟨trivial, by omega⟩]
    rfl
  obtain ⟨g1, g2⟩ := grow_fit ht hcs hpre a8 (by omega) hfit hb
  rw [grow_list a8 s2 f2 hfit] at g1
  refine ⟨_, hcall, rfl, rfl, rfl, ?_, ?_, ?_, ?_, ?_⟩
  · rw [List.append_assoc] at g1
    rw [List.append_assoc]
    exact g1
  · have := g1.2.1
    rw [Seg_append, Seg_append] at this
    have h1 := this.1.2
    rw [Seg_cons] at h1
    rw [PACK_one a8]
    exact h1.2.2.2.1
  · intro y hy1 hy2
    exact g2 y (by omega) (Or.inl (by omega))
  · intro y hy
    exact g2 y (by omega) (Or.inl (by omega))
  · intro y hy
    exact g2 y (by omega) (Or.inr hy)

/-- Witness of C11 (amended): in `demo2` the block of 24 bytes at 4112 is followed by
the free block of 4072 bytes; a request of 100 bytes has adjusted size 112. -/
theorem realloc_grows_in_place_witness :
    Tagged demo2 [(8, 1), (24, 1), (4072, 0)] ∧ 24 + 4072 < 4294967296 ∧
    24 < adjusted 100 ∧ adjusted 100 ≤ 24 + 4072 ∧
    ∃ s', mm_realloc 0 demo2 4112 100 = some (4112, s') ∧ s'.sbrk_calls = demo2.sbrk_calls ∧
      GET s'.mem (HD 4112) = PACK 112 1 :=
  ⟨Tagged_of_WF demo2_WF, by decide, by decide, by decide,
    (realloc_grows_in_place 0 demo2 _ [(8, 1)] [] 24 4072 100 (Tagged_of_WF demo2_WF)
      rfl (by simp) (by decide) (by decide) (by decide) (by decide)).imp
      (fun _ h => ⟨h.1, h.2.1, h.2.2.2.2.2.1⟩)⟩

/-- Counterexample to C11 as stated: in the well-formed heap `big4`, of more than
`2^32` bytes, the allocated block at 4112 has `S` = 2147483008 bytes and is followed
by a free block of `F` = 2147487104 bytes; the request 2147483640 has the adjusted size
`A` = 2147483648, with `S < A ≤ S + F`.  `mm_realloc` adds `F` and `S` in 32 bits, finds
2816, smaller than `A`, and relocates the block: the call returns 2147487120, not
4112. -/
theorem realloc_grows_in_place_counterexample :
    Reachable big0 2147483647 true big4 (removePtr [2147487120, 4112] 2147487120) ∧
    (4112 : Nat) ∈ removePtr [2147487120, 4112] 2147487120 ∧
    Tagged big4 [(8, 1), (2147483008, 1), (2147487104, 0)] ∧
    big4.heap_head + total [(8, 1)] = 4112 ∧ 0 < 2147483640 ∧
    2147483008 < adjusted 2147483640 ∧ adjusted 2147483640 ≤ 2147483008 + 2147487104 ∧
    ¬ (2147483008 + 2147487104 < 4294967296) ∧
    (mm_realloc 4 big4 4112 2147483640).map Prod.fst = some 2147487120 ∧
    (2147487120 : Nat) ≠ 4112 :=
  ⟨big4_reachable, by decide, big4_tagged, by decide, by decide, by decide, by decide,
    by decide, by decide, by decide⟩

/-- C13 (amended): after a successful `mm_init` at the break `b`, `A = mm_malloc(1)` is
`b + 16` and occupies a block of 16 bytes, `B = mm_malloc(20)` is `b + 32` and occupies
the block of 32 bytes right after it; once `A` and `B` are both freed, in either
order, the heap is the prologue followed by one free block that starts at `A` and has
4096 bytes: the two blocks are merged with each other and with the free remainder
(4048 bytes) of the chunk `mm_init` obtained. -/
theorem free_both_scenario (h0 h1 : Heap) (fuel : Nat) (hi : mm_init h0 = (0, h1))
    (hf : 3 ≤ fuel) :
    ∃ h2 h3, mm_malloc fuel h1 1 = some (h0.brk + 16, h2) ∧
      GET h2.mem (HD (h0.brk + 16)) = PACK 16 1 ∧
      mm_malloc fuel h2 20 = some (h0.brk + 32, h3) ∧
      GET h3.mem (HD (h0.brk + 16)) = PACK 16 1 ∧
      GET h3.mem (HD (h0.brk + 32)) = PACK 32 1 ∧
      WF (mm_free (mm_free h3 (h0.brk + 16)) (h0.brk + 32)) [(8, 1), (4096, 0)] ∧
      WF (mm_free (mm_free h3 (h0.brk + 32)) (h0.brk + 16)) [(8, 1), (4096, 0)] ∧
      GET (mm_free (mm_free h3 (h0.brk + 16)) (h0.brk + 32)).mem (HD (h0.brk + 16))
        = PACK 4096 0 ∧
      GET (mm_free (mm_free h3 (h0.brk + 32)) (h0.brk + 16)).mem (HD (h0.brk + 16))
        = PACK 4096 0 := by
  obtain ⟨w1, e1, _, _⟩ := mm_init_WF hi
  have a1 : adjusted 1 = 16 := by decide
  have a2 : adjusted 20 = 32 := by decide
  -- first allocation
  have m1 := @mm_malloc_at h1 _ [(8, 1)] [] 4096 1 fuel w1 rfl (by simp) (by decide)
    (by rw [a1]; omega) (by simp) (by simpa using (by omega : 1 < fuel))
  have w2 := (@place_WF h1 _ [(8, 1)] [] 4096 0 (adjusted 1) w1 rfl (by simp) (by decide)
    (by decide) (by decide)).1
  have t1 : h1.heap_head + total [(8, 1)] = h0.brk + 16 := by
    simp only [total_cons, total_nil]; omega
  rw [t1] at m1 w2
  have p1 : [(8, 1)] ++ placeL 4096 (adjusted 1) ++ [] = [(8, 1), (16, 1), (4080, 0)] := by
    decide
  rw [p1] at w2
  obtain ⟨h2, hh2⟩ : ∃ h2 : Heap, h2 = { h1 with mem := place h1.mem (h0.brk + 16) (adjusted 1) } :=
    ⟨_, rfl⟩
  rw [← hh2] at m1 w2
  have e2 : h2.heap_head = h0.brk + 8 := by rw [hh2]; exact e1
  -- second allocation
  have m2 := @mm_malloc_at h2 _ [(8, 1), (16, 1)] [] 4080 20 fuel w2 rfl (by simp) (by decide)
    (by rw [a2]; omega) (by simp) (by simpa using (by omega : 2 < fuel))
  have w3 := (@place_WF h2 _ [(8, 1), (16, 1)] [] 4080 0 (adjusted 20) w2 rfl (by simp)
    (by decide) (by decide) (by decide)).1
  have t2 : h2.heap_head + total [(8, 1), (16, 1)] = h0.brk + 32 := by
    simp only [total_cons, total_nil]; omega
  rw [t2] at m2 w3
  have p2 : [(8, 1), (16, 1)] ++ placeL 4080 (adjusted 20) ++ [] =
      [(8, 1), (16, 1), (32, 1), (4048, 0)] := by decide
  rw [p2] at w3
  obtain ⟨h3, hh3⟩ : ∃ h3 : Heap, h3 = { h2 with mem := place h2.mem (h0.brk + 32) (adjusted 20) } :=
    ⟨_, rfl⟩
  rw [← hh3] at m2 w3
  have e3 : h3.heap_head = h0.brk + 8 := by rw [hh3]; exact e2
  -- A first, then B
  have f1 := (@mm_free_chain h3 _ [] [(32, 1), (4048, 0)] (8, 1) 16 w3 rfl).1
  have u1 : h3.heap_head + total [] + ((8, 1) : Nat × Nat).1 = h0.brk + 16 := by
    simp only [total_nil]; omega
  have c1 : coalesceL [] (8, 1) 16 [(32, 1), (4048, 0)] = [(8, 1), (16, 0), (32, 1), (4048, 0)] := by
    decide
  rw [u1, c1] at f1
  have f2 := (@mm_free_chain (mm_free h3 (h0.brk + 16)) _ [(8, 1)] [(4048, 0)] (16, 0) 32 f1
    rfl).1
  have u2 : (mm_free h3 (h0.brk + 16)).heap_head + total [(8, 1)] + ((16, 0) : Nat × Nat).1 =
      h0.brk + 32 := by
    show h3.heap_head + _ + _ = _
    simp only [total_cons, total_nil]; omega
  have c2 : coalesceL [(8, 1)] (16, 0) 32 [(4048, 0)] = [(8, 1), (4096, 0)] := by decide
  rw [u2, c2] at f2
  -- B first, then A
  have g1 := (@mm_free_chain h3 _ [(8, 1)] [(4048, 0)] (16, 1) 32 w3 rfl).1
  have v1 : h3.heap_head + total [(8, 1)] + ((16, 1) : Nat × Nat).1 = h0.brk + 32 := by
    simp only [total_cons, total_nil]; omega
  have d1 : coalesceL [(8, 1)] (16, 1) 32 [(4048, 0)] = [(8, 1), (16, 1), (4080, 0)] := by decide
  rw [v1, d1] at g1
  have g2 := (@mm_free_chain (mm_free h3 (h0.brk + 32)) _ [] [(4080, 0)] (8, 1) 16 g1 rfl).1
  have v2 : (mm_free h3 (h0.brk + 32)).heap_head + total [] + ((8, 1) : Nat × Nat).1 =
      h0.brk + 16 := by
    show h3.heap_head + _ + _ = _
    simp only [total_nil]; omega
  have d2 : coalesceL [] (8, 1) 16 [(4080, 0)] = [(8, 1), (4096, 0)] := by decide
  rw [v2, d2] at g2
  -- the tag words
  have hd : ∀ {s : Heap} {cs : Blocks} {S x : Nat}, WF s ((8, 1) :: (S, x) :: cs) →
      s.heap_head = h0.brk + 8 → GET s.mem (HD (h0.brk + 16)) = S + x := by
    intro s cs S x hw he
    have := hw.2.1
    simp only [Seg_cons] at this
    obtain ⟨_, _, _, _, _, _, _, _, q, _⟩ := this
    rw [he] at q
    exact q
  have hd2 : ∀ {s : Heap} {cs : Blocks} {b : Nat × Nat} {S x : Nat},
      WF s ((8, 1) :: b :: (S, x) :: cs) → b.1 = 16 →
      s.heap_head = h0.brk + 8 → GET s.mem (HD (h0.brk + 32)) = S + x := by
    intro s cs b S x hw hb he
    have := hw.2.1
    simp only [Seg_cons] at this
    obtain ⟨_, _, _, _, _, _, _, _, _, _, _, _, _, q, _⟩ := this
    rw [he, hb] at q
    exact q
  refine ⟨h2, h3, m1, hd w2 e2, m2, hd w3 e3, hd2 w3 rfl e3, f2, g2, hd f2 e3, hd g2 e3⟩

/-- Witness of C13 (amended): the scenario at the break 4096. -/
theorem free_both_scenario_witness :
    mm_init demo0 = (0, demo1) ∧
    ∃ h2 h3, mm_malloc 3 demo1 1 = some (demo0.brk + 16, h2) ∧
      mm_malloc 3 h2 20 = some (demo0.brk + 32, h3) ∧
      WF (mm_free (mm_free h3 (demo0.brk + 16)) (demo0.brk + 32)) [(8, 1), (4096, 0)] ∧
      WF (mm_free (mm_free h3 (demo0.brk + 32)) (demo0.brk + 16)) [(8, 1), (4096, 0)] :=
  ⟨rfl, (free_both_scenario demo0 demo1 3 rfl (by decide)).imp
    (fun _ h2 => h2.imp (fun _ h => ⟨h.1, h.2.2.1, h.2.2.2.2.2.1, h.2.2.2.2.2.2.1⟩))⟩

/-- Counterexample to C13 as stated: at the break 4096, `A` is 4112 with a block of 16
bytes and `B` is 4128 with a block of 32 bytes; after the two frees, in either order,
the free block that starts at `A` has 4096 bytes, not 48. -/
theorem free_both_scenario_counterexample :
    mm_init demo0 = (0, demo1) ∧
    mm_malloc 3 demo1 1 = some (4112, demo15) ∧ GET_SIZE demo15.mem (HD 4112) = 16 ∧
    mm_malloc 4 demo15 20 = some (4128, demo16) ∧ GET_SIZE demo16.mem (HD 4128) = 32 ∧
    NEXT_PLACE demo16.mem 4112 = 4128 ∧
    GET_SIZE demo17.mem (HD 4112) = 4096 ∧ GET_ALLOC demo17.mem (HD 4112) = 0 ∧
    GET_SIZE demo18.mem (HD 4112) = 4096 ∧ GET_ALLOC demo18.mem (HD 4112) = 0 ∧
    (4096 : Nat) ≠ 16 + 32 :=
  ⟨rfl, rfl, by decide, rfl, by decide, by decide, by decide, by decide, by decide, by decide,
    by decide⟩

/-- C14: `mm_init` returns -1 when `sbrk` rejects the first request (16 bytes), and
when `sbrk` grants it and rejects the second (4096 bytes); when both are granted it
returns 0, `heap_head` is the old break plus 8 and points at the prologue, whose header
and footer hold (8, allocated); the block after it, at the old break plus 16, is free,
has 4096 bytes and the same header and footer; the word after it, the last one before
the new break, is the epilogue header (0, allocated).  The scan from `heap_head` meets
that free block as its only real block, and `find_first` returns it for every size up
to 4096. -/
theorem mm_init_result (h0 : Heap) :
    (¬ Grants h0 16 → (mm_init h0).1 = -1) ∧
    (Grants h0 16 → ¬ Grants (sbrk h0 16).2 4096 → (mm_init h0).1 = -1) ∧
    (Grants h0 16 → Grants (sbrk h0 16).2 4096 →
      (mm_init h0).1 = 0 ∧
      (mm_init h0).2.heap_head = h0.brk + 8 ∧ (mm_init h0).2.brk = h0.brk + 16 + 4096 ∧
      WF (mm_init h0).2 [(8, 1), (4096, 0)] ∧
      GET (mm_init h0).2.mem (HD (h0.brk + 8)) = PACK 8 1 ∧
      GET (mm_init h0).2.mem (FT (mm_init h0).2.mem (h0.brk + 8)) = PACK 8 1 ∧
      NEXT_PLACE (mm_init h0).2.mem (h0.brk + 8) = h0.brk + 16 ∧
      GET (mm_init h0).2.mem (HD (h0.brk + 16)) = PACK 4096 0 ∧
      GET (mm_init h0).2.mem (FT (mm_init h0).2.mem (h0.brk + 16)) = PACK 4096 0 ∧
      NEXT_PLACE (mm_init h0).2.mem (h0.brk + 16) = (mm_init h0).2.brk ∧
      GET (mm_init h0).2.mem ((mm_init h0).2.brk - 4) = PACK 0 1 ∧
      (∀ fuel, 3 ≤ fuel → heapBlocks fuel (mm_init h0).2 = some [h0.brk + 16]) ∧
      (∀ fuel a, 2 ≤ fuel → a ≤ 4096 → find_first fuel (mm_init h0).2 a = some (h0.brk + 16))) := by
  have eb : ext_bytes (E_SIZE / W_SIZE) = 4096 := by decide
  refine ⟨fun hg => by rw [mm_init_reject1 hg], fun hg hg2 => ?_, fun hg hg2 => ?_⟩
  · have hg2' : ¬ Grants (init_mid h0) (ext_bytes (E_SIZE / W_SIZE)) := by
      rw [eb]
      intro hc
      apply hg2
      obtain ⟨f1, f2⟩ := sbrk_grant_fields hg
      unfold Grants at hc ⊢
      rw [f1, f2]
      exact hc
    rw [mm_init_grant1 hg, extend_heap_reject hg2']
    rfl
  · have hg2' : Grants (init_mid h0) (ext_bytes (E_SIZE / W_SIZE)) := by
      rw [eb]
      obtain ⟨f1, f2⟩ := sbrk_grant_fields hg
      unfold Grants at hg2 ⊢
      rw [f1, f2] at hg2
      exact hg2
    obtain ⟨k1, _⟩ := @extend_heap_chain _ _ [] (8, 1) _ (init_mid_WF h0) rfl
      hg2' (by rw [eb]; omega) (by rw [eb]; simp only [total_cons, total_nil]; omega)
    have hne : (extend_heap (init_mid h0) (E_SIZE / W_SIZE)).1 ≠ 0 := by
      rw [k1]
      show h0.brk + 16 - prevFree (8, 1) ≠ 0
      simp [prevFree]
    have hi : mm_init h0 = (0, (mm_init h0).2) := by
      rw [mm_init_grant1 hg, if_neg hne]
    obtain ⟨w, e1, e2, _⟩ := mm_init_WF hi
    have hseg := w.2.1
    have hepi := w.2.2.1
    rw [e1] at hseg
    simp only [Seg] at hseg
    obtain ⟨_, _, _, s4, s5, _, _, _, s9, s10, _⟩ := hseg
    have a1 : GET (mm_init h0).2.mem (HD (h0.brk + 8)) = 8 + 1 := s4
    have a2 : GET (mm_init h0).2.mem (HD (h0.brk + 16)) = 4096 + 0 := s9
    have z1 : GET_SIZE (mm_init h0).2.mem (HD (h0.brk + 8)) = 8 :=
      GET_SIZE_of a1 (by decide) (by decide)
    have z2 : GET_SIZE (mm_init h0).2.mem (HD (h0.brk + 16)) = 4096 :=
      GET_SIZE_of a2 (by decide) (by decide)
    have n1 : NEXT_PLACE (mm_init h0).2.mem (h0.brk + 8) = h0.brk + 16 := by
      show h0.brk + 8 + GET_SIZE _ (HD (h0.brk + 8)) = _
      rw [z1]
    have n2 : NEXT_PLACE (mm_init h0).2.mem (h0.brk + 16) = (mm_init h0).2.brk := by
      show h0.brk + 16 + GET_SIZE _ (HD (h0.brk + 16)) = _
      rw [z2, e2]
    refine ⟨by rw [hi], e1, e2, w, s4, ?_, n1, s9, ?_, n2, hepi, ?_, ?_⟩
    · show GET _ (h0.brk + 8 + GET_SIZE _ (HD (h0.brk + 8)) - 8) = _
      rw [z1]; exact s5
    · show GET _ (h0.brk + 16 + GET_SIZE _ (HD (h0.brk + 16)) - 8) = _
      rw [z2]; exact s10
    · intro fuel hf
      have := scanBlocks_Seg (mm_init h0).2.mem fuel (mm_init h0).2.heap_head _ w.2.1 (WF_epi w)
        (by simpa using hf)
      unfold heapBlocks
      rw [this, e1]
      rfl
    · intro fuel a hf ha
      have := find_first_loop_at (mm_init h0).2.mem a [(8, 1)] fuel (mm_init h0).2.heap_head 4096
        [] w.2.1 ha (by simp) (by simpa using hf)
      unfold find_first
      rw [this, e1]
      rfl

/-- Witness of C14: the start state `demo0`, in which both requests are granted. -/
theorem mm_init_result_witness :
    Grants demo0 16 ∧ Grants (sbrk demo0 16).2 4096 ∧ (mm_init demo0).1 = 0 ∧
    (mm_init demo0).2.heap_head = demo0.brk + 8 ∧
    WF (mm_init demo0).2 [(8, 1), (4096, 0)] :=
  ⟨by decide, by decide,
    ((mm_init_result demo0).2.2 (by decide) (by decide)).1,
    ((mm_init_result demo0).2.2 (by decide) (by decide)).2.1,
    ((mm_init_result demo0).2.2 (by decide) (by decide)).2.2.2.1⟩

/-- C15 (amended): let the block at `bp` have the header (`S`, free), and let `A` be a
multiple of 8 with `8 ≤ A ≤ S`.  When the remainder `S - A` is at least 8 (the room of a
header and a footer, `2 * W_SIZE`), `place(bp, A)` writes four words: header and
footer of an allocated block of size `A` at `bp`, header and footer of a free block of
size `S - A` right after it.  When the remainder is smaller, that is when `A = S`, it
writes two words, the header and the footer of the block of size `S`, now allocated,
and creates no block. -/
theorem place_splits (m : Mem) (bp S A : Nat) (hbp : 4 ≤ bp) (hh : GET m (HD bp) = PACK S 0)
    (hS8 : S % 8 = 0) (hA8 : A % 8 = 0) (hA : 8 ≤ A) (hAS : A ≤ S) :
    (8 ≤ S - A →
      place m bp A = PUT (PUT (PUT (PUT m (bp - 4) (PACK A 1)) (bp + A - 8) (PACK A 1))
        (bp + A - 4) (PACK (S - A) 0)) (bp + S - 8) (PACK (S - A) 0) ∧
      Seg (place m bp A) bp [(A, 1), (S - A, 0)]) ∧
    (S - A < 8 →
      place m bp A = PUT (PUT m (bp - 4) (PACK S 1)) (bp + S - 8) (PACK S 1) ∧
      Seg (place m bp A) bp [(S, 1)]) := by
  have hh' : GET m (bp - 4) = S + 0 := by rw [PACK_zero] at hh; exact hh
  have hSlt : S < 4294967296 := by have := GET_lt m (bp - 4); omega
  have hsp := (place_spec hh' (Nat.zero_le 1) hS8 hSlt hA8 hA hAS hbp).1
  constructor
  · intro h8
    have := place_split_eq hh' (Nat.zero_le 1) hS8 hSlt hA8 hA (by omega) hbp
    rw [PACK_one hA8, PACK_zero]
    refine ⟨this, ?_⟩
    unfold placeL at hsp
    rwa [if_pos h8] at hsp
  · intro h8
    have := place_whole_eq (a := A) hh' (Nat.zero_le 1) hS8 hSlt hAS (by omega)
    rw [PACK_one hS8]
    refine ⟨this, ?_⟩
    unfold placeL at hsp
    rwa [if_neg (by omega)] at hsp

/-- Witness of C15 (amended): the free block of 4096 bytes of `demo1` and the adjusted
size 16. -/
theorem place_splits_witness :
    GET demo1.mem (HD 4112) = PACK 4096 0 ∧ 8 ≤ 4096 - 16 ∧
    Seg (place demo1.mem 4112 16) 4112 [(16, 1), (4096 - 16, 0)] :=
  ⟨by decide, by decide,
    ((place_splits demo1.mem 4112 4096 16 (by decide) (by decide) (by decide) (by decide)
      (by decide) (by decide)).1 (by decide)).2⟩

/-- Counterexample to C15 as stated: in `demo1` the block at 4112 is free and has 4096
bytes; for the adjusted size 4088 the remainder is 8, smaller than 16, and yet
`place(4112, 4088)` does not mark the whole block allocated: it leaves an allocated
block of 4088 bytes and creates a free block of 8 bytes at 8200. -/
theorem place_splits_counterexample :
    GET_SIZE demo1.mem (HD 4112) = 4096 ∧ GET_ALLOC demo1.mem (HD 4112) = 0 ∧
    GET demo1.mem (FT demo1.mem 4112) = GET demo1.mem (HD 4112) ∧
    4088 % 8 = 0 ∧ 4088 ≤ 4096 ∧ 4096 - 4088 < 16 ∧
    GET_SIZE demo14 (HD 4112) = 4088 ∧ GET_SIZE demo14 (HD 8200) = 8 ∧
    GET_ALLOC demo14 (HD 8200) = 0 ∧ GET demo14 (FT demo14 8200) = GET demo14 (HD 8200) := by
  decide

/-- C17 (amended): in a well-formed heap of any size, for every request
`n ≤ 2^32 - 16` (the adjusted size does not wrap), whatever `mm_malloc(n)` returns,
every allocated block of the heap is kept: same address, header and footer still
(size, allocated), payload words and bytes identical.  When the call returns a
non-null `p`, the block at `p` was a free block before the call or starts at the old
break, it is now allocated with the adjusted size of `n`, and it does not overlap any
block that was allocated.  And `mm_free(p)`, for an allocated block `p` of size `S`
other than the prologue, keeps every allocated block other than `p` in the same way,
provided `S` plus the sizes of the free neighbours of `p` is less than `2^32` (the
merged size fits the tag; this holds in every heap of less than `2^32` bytes). -/
theorem other_blocks_untouched (s : Heap) (cs : Blocks) (ht : Tagged s cs) :
    (∀ fuel n p s', n + 16 ≤ 4294967296 → mm_malloc fuel s n = some (p, s') →
      (p ≠ 0 → ((∃ S0, (p, S0, 0) ∈ layout s.heap_head cs) ∨ p = s.brk) ∧
        GET s'.mem (HD p) = PACK (adjusted n) 1 ∧
        ∀ q S, (q, S, 1) ∈ layout s.heap_head cs → q + S ≤ p ∨ p + adjusted n ≤ q) ∧
      ∀ q S, (q, S, 1) ∈ layout s.heap_head cs → BlockKept s.mem s'.mem q S) ∧
    (∀ pre pb S rest, cs = pre ++ pb :: (S, 1) :: rest →
      prevFree pb + S + nextFree rest < 4294967296 →
      ∀ q T, (q, T, 1) ∈ layout s.heap_head cs → q ≠ s.heap_head + total pre + pb.1 →
        BlockKept s.mem (mm_free s (s.heap_head + total pre + pb.1)).mem q T) := by
  have hseg := ht.2.1
  have hh8 := ht.2.2.2.2
  have hbrk := ht.2.2.2.1
  constructor
  · intro fuel n p s' hn hm
    obtain ⟨a1, a2, a3, a4, _, _⟩ := adjusted_props hn
    -- the heap after a call of `extend_heap` that `sbrk` grants
    have hext : find_first fuel s (adjusted n) = some 0 →
        Grants s (ext_bytes (MAX (adjusted n) E_SIZE / W_SIZE)) →
        (extend_heap s (MAX (adjusted n) E_SIZE / W_SIZE)).1 ≠ 0 ∧
        (((∃ S0, ((extend_heap s (MAX (adjusted n) E_SIZE / W_SIZE)).1, S0, 0) ∈
            layout s.heap_head cs) ∨ (extend_heap s (MAX (adjusted n) E_SIZE / W_SIZE)).1 = s.brk) ∧
        (∀ q S, (q, S, 1) ∈ layout s.heap_head cs →
          q + S ≤ (extend_heap s (MAX (adjusted n) E_SIZE / W_SIZE)).1) ∧
        (∃ S1, adjusted n ≤ S1 ∧ S1 % 8 = 0 ∧ S1 < 4294967296 ∧
          GET (extend_heap s (MAX (adjusted n) E_SIZE / W_SIZE)).2.mem
            ((extend_heap s (MAX (adjusted n) E_SIZE / W_SIZE)).1 - 4) = S1 + 0) ∧
        ∀ y, y + 4 < (extend_heap s (MAX (adjusted n) E_SIZE / W_SIZE)).1 →
          (extend_heap s (MAX (adjusted n) E_SIZE / W_SIZE)).2.mem y = s.mem y) := by
      intro hff hg
      obtain ⟨bs, hbs⟩ := Tagged_nonempty ht
      rcases List.eq_nil_or_concat cs with hnil | ⟨pre, pb, hcs⟩
      · rw [hnil] at hbs; simp at hbs
      rw [List.concat_eq_append] at hcs
      obtain ⟨x1, x2, x3⟩ := ext_bytes_MAX a1 a3
      have hnone := find_first_Tagged_none ht hff pb (by rw [hcs]; simp)
      have hglt : ext_bytes (MAX (adjusted n) E_SIZE / W_SIZE) < 2147483648 := hg.1
      have hpbs := Seg_sizes hseg pb (by rw [hcs]; simp)
      have hpfl := prevFree_le pb
      obtain ⟨k1, k2, k3⟩ := extend_heap_below ht hcs hg (by omega) (by
        intro hp0
        have : ¬ adjusted n ≤ pb.1 := fun hc => hnone ⟨hp0, hc⟩
        omega)
      have hb2 : s.brk = s.heap_head + total pre + pb.1 := by
        rw [← hbrk, hcs, total_append, total_cons, total_nil]; omega
      rw [k1]
      refine ⟨by omega, ?_, ?_, ?_, k3⟩
      · by_cases hp0 : pb.2 = 0
        · left
          refine ⟨pb.1, ?_⟩
          have : prevFree pb = pb.1 := by simp [prevFree, hp0]
          rw [this, hcs, hb2]
          have e : s.heap_head + total pre + pb.1 - pb.1 = s.heap_head + total pre := by omega
          rw [e]
          exact layout_mid_free _ _ _ _ hp0
        · right
          have : prevFree pb = 0 := by simp [prevFree, hp0]
          rw [this]; rfl
      · intro q S hq
        rw [hcs] at hq
        have := layout_snoc_le hq
        omega
      · have hG := GET_lt (extend_heap s (MAX (adjusted n) E_SIZE / W_SIZE)).2.mem
          (s.brk - prevFree pb - 4)
        rw [k2] at hG
        refine ⟨prevFree pb + ext_bytes (MAX (adjusted n) E_SIZE / W_SIZE), by omega, ?_, hG,
          k2⟩
        have := ext_bytes_mod8 (MAX (adjusted n) E_SIZE / W_SIZE)
        have : prevFree pb % 8 = 0 := by
          unfold prevFree; split
          · exact hpbs.2.1
          · rfl
        omega
    rcases mm_malloc_cases hm with ⟨_, hp0, rfl⟩ | ⟨_, hff, hpne, rfl⟩ | ⟨_, hff, he, hp0, rfl⟩ |
      ⟨_, hff, he, rfl, rfl⟩
    · refine ⟨fun hc => absurd hp0 hc, ?_⟩
      intro q S hq
      exact kept_of_frame hseg hq (fun _ _ _ => rfl)
    · obtain ⟨pre, S0, post, hcs, hpre, hpeq, haS, _⟩ := find_first_Tagged ht hff hpne
      have kf := place_frame_Tagged ht hcs a1 (by omega) haS
      rw [← hpeq] at kf
      have hpe : (p, S0, 0) ∈ layout s.heap_head cs := by
        rw [hcs, hpeq]; exact mem_layout_mid _ _ _ _ _
      have hdis : ∀ q S, (q, S, 1) ∈ layout s.heap_head cs → q + S ≤ p ∨ p + S0 ≤ q :=
        fun q S hq => layout_disjoint hseg hq hpe (by decide)
      refine ⟨fun _ => ⟨Or.inl ⟨S0, hpe⟩, ?_, ?_⟩, ?_⟩
      · rw [PACK_one a1]
        exact place_header s.mem a1 (by omega) a3 hpne
      · intro q S hq
        rcases hdis q S hq with h | h
        · exact Or.inl h
        · exact Or.inr (by omega)
      · intro q S hq
        refine kept_of_frame hseg hq ?_
        intro y hy1 hy2
        have := (layout_tags hseg hq).2.2.1
        have := (layout_ge hq).1
        rcases hdis q S hq with h | h
        · exact kf y (by omega) (Or.inl (by omega))
        · exact kf y (by omega) (Or.inr (by omega))
    · refine ⟨fun hc => absurd hp0 hc, ?_⟩
      intro q S hq
      by_cases hg : Grants s (ext_bytes (MAX (adjusted n) E_SIZE / W_SIZE))
      · exact absurd he (hext hff hg).1
      · rw [extend_heap_reject hg]
        exact kept_of_frame hseg hq (fun _ _ _ => rfl)
    · have hg : Grants s (ext_bytes (MAX (adjusted n) E_SIZE / W_SIZE)) := by
        by_contra hg
        rw [extend_heap_reject hg] at he
        exact he rfl
      obtain ⟨_, e1, e2, ⟨S1, e3, e4, e5, e6⟩, e7⟩ := hext hff hg
      have hpro : (s.heap_head, 8, 1) ∈ layout s.heap_head cs := by
        obtain ⟨bs, hbs⟩ := Tagged_nonempty ht
        rw [hbs, layout_cons]; simp
      have hge := e2 _ _ hpro
      have hfr := (place_spec e6 (Nat.zero_le 1) e4 e5 a1 (by omega) e3 (by omega)).2
      refine ⟨fun _ => ⟨e1, ?_, fun q S hq => Or.inl (e2 q S hq)⟩, ?_⟩
      · rw [PACK_one a1]
        exact place_header _ a1 (by omega) a3 he
      · intro q S hq
        refine kept_of_frame hseg hq ?_
        intro y hy1 hy2
        have := e2 q S hq
        have := (layout_tags hseg hq).2.2.1
        show place _ _ _ y = s.mem y
        rw [hfr y (by omega) (Or.inl (by omega))]
        exact e7 y (by omega)
  · intro pre pb S rest hcs hb q S' hq hne
    obtain ⟨p, hpeq⟩ : ∃ p, p = s.heap_head + total pre + pb.1 := ⟨_, rfl⟩
    rw [← hpeq] at hne ⊢
    obtain ⟨_, kf⟩ := mm_free_fit ht hcs hb
    rw [← hpeq] at kf
    refine kept_of_frame hseg hq ?_
    intro y hy1 hy2
    have hq8 := (layout_tags hseg hq).2.2.1
    have hqge := (layout_ge hq).1
    have hpe : (p, S, 1) ∈ layout s.heap_head cs := by
      have := mem_layout_mid s.heap_head (pre ++ [pb]) rest S 1
      rw [total_append, total_cons, total_nil] at this
      rw [hcs, hpeq]
      simpa [Nat.add_assoc] using this
    have hap := layout_apart hseg hq hpe hne
    have hpb8 := (Seg_sizes hseg pb (by rw [hcs]; simp)).1
    have hS8 := (Seg_sizes hseg (S, 1) (by rw [hcs]; simp)).1
    dsimp only at hS8
    have hP : prevFree pb = 0 ∨ (prevFree pb = pb.1 ∧
        (q + S' ≤ s.heap_head + total pre ∨ s.heap_head + total pre + pb.1 ≤ q)) := by
      by_cases hp0 : pb.2 = 0
      · right
        refine ⟨by simp [prevFree, hp0], ?_⟩
        have hbe : (s.heap_head + total pre, pb.1, 0) ∈ layout s.heap_head cs := by
          rw [hcs]; exact layout_mid_free _ _ _ _ hp0
        exact layout_disjoint hseg hq hbe (by decide)
      · left; simp [prevFree, hp0]
    have hN : nextFree rest = 0 ∨ (q + S' ≤ p + S ∨ p + S + nextFree rest ≤ q) := by
      cases rest with
      | nil => left; rfl
      | cons c post =>
        by_cases hc0 : c.2 = 0
        · right
          have hne' : nextFree (c :: post) = c.1 := by simp [nextFree, hc0]
          rw [hne']
          have hce : (p + S, c.1, 0) ∈ layout s.heap_head cs := by
            have := layout_mid_free s.heap_head (pre ++ [pb, (S, 1)]) post c hc0
            rw [total_append, total_cons, total_cons, total_nil] at this
            rw [hcs, hpeq]
            simpa [Nat.add_assoc] using this
          exact layout_disjoint hseg hq hce (by decide)
        · left; simp [nextFree, hc0]
    have := prevFree_le pb
    refine kf y ?_ ?_ ?_ ?_
    · omega
    · omega
    · rcases hP with h | ⟨h, h2⟩
      · rw [h]; omega
      · rw [h]; omega
    · rcases hN with h | h
      · rw [h]; omega
      · omega

/-- Witness of C17 (amended): freeing the block at 4136 of `demo3` keeps the block
of 24 bytes at 4112. -/
theorem other_blocks_untouched_witness :
    Tagged demo3 [(8, 1), (24, 1), (24, 1), (4048, 0)] ∧
    prevFree (24, 1) + 24 + nextFree [(4048, 0)] < 4294967296 ∧
    BlockKept demo3.mem (mm_free demo3 4136).mem 4112 24 :=
  ⟨Tagged_of_WF demo3_WF, by decide,
    (other_blocks_untouched demo3 _ (Tagged_of_WF demo3_WF)).2 [(8, 1)] (24, 1) 24
      [(4048, 0)] rfl (by decide) 4112 24 (by decide) (by decide)⟩

/-- Counterexample to C17 as stated: with a kernel that grants enough memory,
`mm_init(); P = mm_malloc(8); X = mm_malloc(2147483000); Y = mm_malloc(2147480200);
mm_free(Y)` leaves a well-formed heap of more than `2^32` bytes in which the allocated
block `X` at 4128, of 2147483008 bytes, lies between the allocated block `P` at 4112 and
a free block of 2147484288 bytes.  `mm_free(X)` adds the two sizes in 32 bits and finds
0; the footer it then writes for a block of size 0 is the word at 4120, the footer of
`P`: the header of `P` still holds (16, allocated), its footer holds 0. -/
theorem other_blocks_untouched_counterexample :
    Reachable big0 2147483647 true big8 (removePtr [2147487136, 4128, 4112] 2147487136) ∧
    Tagged big8 [(8, 1), (16, 1), (2147483008, 1), (2147484288, 0)] ∧
    big8.heap_head + total [(8, 1)] + 16 = 4128 ∧
    ¬ (prevFree (16, 1) + 2147483008 + nextFree [(2147484288, 0)] < 4294967296) ∧
    (4112, 16, 1) ∈ layout big8.heap_head [(8, 1), (16, 1), (2147483008, 1), (2147484288, 0)] ∧
    (4112 : Nat) ≠ 4128 ∧
    GET (mm_free big8 4128).mem (HD 4112) = PACK 16 1 ∧
    GET (mm_free big8 4128).mem (FT (mm_free big8 4128).mem 4112) = 0 ∧
    ¬ BlockKept big8.mem (mm_free big8 4128).mem 4112 16 :=
  ⟨big8_reachable, big8_tagged, by decide, by decide, by decide, by decide,
    by decide, by decide, fun h => absurd h.2.1 (by decide)⟩

/-- C19 (amended): in every state reachable from a successful `mm_init` by valid calls
of `mm_malloc` and `mm_free` (and of `mm_realloc`) whose request sizes are at most
`2^32 - 16`, with the break kept within `2^32` bytes of its first value, the forward
scan from `heap_head` ends: with the break as fuel it visits a list `ps` of blocks, each
of a size above zero, so that each step increases the address; each header it reads
lies below the epilogue header, each step leads to an address up to the break, and
the header of size zero at which the scan stops is the epilogue header, the word
before the break.  For every size, `find_first` returns, either `NULL` or one of the
blocks of `ps`. -/
theorem scan_terminates (h0 : Heap) (maxReq : Nat) (shrink : Bool) (h : Heap) (L : List Nat)
    (hlim : h0.limit ≤ h0.brk + 4294967296) (hmax : maxReq + 16 ≤ 4294967296)
    (hr : Reachable h0 maxReq shrink h L) :
    ∃ ps, scanBlocks h.brk h.mem h.heap_head = some ps ∧
      scanStop h.brk h.mem h.heap_head = some h.brk ∧
      GET h.mem (HD h.brk) = PACK 0 1 ∧ HD h.brk + 4 = h.brk ∧
      (∀ p ∈ ps, 0 < GET_SIZE h.mem (HD p) ∧ p < NEXT_PLACE h.mem p ∧
        NEXT_PLACE h.mem p ≤ h.brk ∧ HD p + 4 < h.brk) ∧
      ∀ fuel a, h.brk ≤ fuel → ∃ r, find_first fuel h a = some r ∧ (r = 0 ∨ r ∈ ps) := by
  obtain ⟨cs, hinv, _⟩ := Reachable_Inv hlim hmax hr
  have hwf := hinv.1
  have hlen := Seg_length_le hwf.2.1
  have h4 := hwf.2.2.2.1
  have h5 := hwf.2.2.2.2.1
  have hscan := scanBlocks_Seg h.mem h.brk h.heap_head cs hwf.2.1 (WF_epi hwf) (by omega)
  have hstop := scanStop_Seg h.mem h.brk h.heap_head cs hwf.2.1 (WF_epi hwf) (by omega)
  rw [h4] at hstop
  refine ⟨_, hscan, hstop, hwf.2.2.1, by unfold HD W_SIZE; omega, ?_, ?_⟩
  · intro p hp
    obtain ⟨e, he, rfl⟩ := List.mem_map.1 hp
    obtain ⟨q, S, a⟩ := e
    obtain ⟨t1, _, t3, t4, t5⟩ := layout_tags hwf.2.1 he
    have e1 : GET_SIZE h.mem (HD q) = S := GET_SIZE_of t1 t4 t5
    have e3 : NEXT_PLACE h.mem q = q + S := by
      unfold NEXT_PLACE
      have : GET_SIZE h.mem (q - W_SIZE) = S := e1
      rw [this]
    have hge := layout_ge he
    dsimp only
    rw [e1, e3]
    unfold HD W_SIZE
    omega
  · intro fuel a hf
    obtain ⟨r, hr⟩ := find_first_loop_terminates h.mem a fuel h.heap_head cs hwf.2.1 (WF_epi hwf)
      (by omega)
    have hr' : find_first fuel h a = some r := hr
    refine ⟨r, hr', ?_⟩
    by_cases h0 : r = 0
    · exact Or.inl h0
    · right
      obtain ⟨pre, S, post, hcs, _, hreq, _, _⟩ := find_first_WF hwf hr' h0
      refine List.mem_map.2 ⟨(r, S, 0), ?_, rfl⟩
      rw [hcs, hreq]
      exact mem_layout_mid _ _ _ _ _

/-- Witness of C19 (amended): the state after two allocations of 16 bytes. -/
theorem scan_terminates_witness :
    demo0.limit ≤ demo0.brk + 4294967296 ∧
    Reachable demo0 4294967280 false demo3 [4136, 4112] ∧
    scanStop demo3.brk demo3.mem demo3.heap_head = some demo3.brk :=
  ⟨by decide, demo3_reachable _ (by decide) false,
    (scan_terminates demo0 4294967280 false demo3 [4136, 4112] (by decide) (by decide)
      (demo3_reachable _ (by decide) false)).elim (fun _ h => h.2.1)⟩

/-- Counterexample to C19 as stated: after `mm_init(); mm_malloc(8);
p = mm_malloc(4294967281); mm_free(p)` the adjusted size of the second request has
wrapped to 0 and `place` has overwritten the footer of the first block with a tag of
size 0; `mm_free(p)` then takes the block at `p` = 4128 for its own predecessor and
doubles its size to 8160.  The scan from `heap_head` steps from 4128 to 12288 and
reads the header at 12284, beyond the break 8208; it never meets the epilogue header
at 8204. -/
theorem scan_terminates_counterexample :
    Reachable demo0 4294967295 false demo13 (removePtr [4128, 4112] 4128) ∧
    scanBlocks 5 demo13.mem demo13.heap_head = some [4104, 4112, 4128] ∧
    scanStop 5 demo13.mem demo13.heap_head = some 12288 ∧ demo13.brk = 8208 ∧
    NEXT_PLACE demo13.mem 4128 = 12288 ∧ demo13.brk ≤ HD 12288 :=
  ⟨@Reachable.free demo0 4294967295 false demo7 [4128, 4112] 4128
      (@Reachable.malloc demo0 4294967295 false demo6 demo7 [4112] 4 4294967281 4128
        (@Reachable.malloc demo0 4294967295 false demo1 demo6 [] 3 8 4112
          (demo1_reachable _ false) (by decide) rfl) (by decide) rfl) (by decide),
    by decide, by decide, by decide, by decide, by decide⟩

/-- C20: for every size `s` that is a multiple of 8 and below `2^32` and every flag
`a` in {0, 1}, a word that holds `PACK(s, a)` decodes to both fields: `GET_SIZE` gives
`s` and `GET_ALLOC` gives `a`. -/
theorem tag_roundtrip (m : Mem) (p s a : Nat) (hs : s % 8 = 0) (hlt : s < 4294967296)
    (ha : a ≤ 1) (hw : m p = PACK s a) : GET_SIZE m p = s ∧ GET_ALLOC m p = a := by
  have hg : GET m p = s + a := by
    unfold GET UINT
    rw [hw, PACK_eq hs ha]
    exact Nat.mod_eq_of_lt (by omega)
  exact ⟨GET_SIZE_of hg hs ha, GET_ALLOC_of hg hs ha⟩

/-- Witness of C20: the tag (4096, allocated) stored at address 100. -/
theorem tag_roundtrip_witness :
    4096 % 8 = 0 ∧ GET_SIZE (PUT (fun _ => 0) 100 (PACK 4096 1)) 100 = 4096 ∧
    GET_ALLOC (PUT (fun _ => 0) 100 (PACK 4096 1)) 100 = 1 :=
  ⟨by decide, tag_roundtrip (PUT (fun _ => 0) 100 (PACK 4096 1)) 100 4096 1 (by decide)
    (by decide) (by decide) rfl⟩

end Ummalloc
